import Mathlib

/-! LuaFile, a chunked span buffer (`src/libs/luafile.hpp`).

A shallow embedding of the class `LuaFile` and of its nested classes `Data`,
`DynamicArray`, `Queue`, `Queue::Node` and `iterator`, and of `IO_Helper::read`
(`src/libs/io helper.hpp`).

Conventions of the embedding.

* Pointers to characters are addresses (`Nat`, 0 is the null pointer); the bytes they
  point to live in a memory `mem : Nat → Byte` owned by the caller.
* Pointers to `Node` are `Option Nat`: `none` is `nullptr`, `some a` is the address `a`
  of a cell of the free store.
* `uint32_t` values are `Nat` reduced modulo `2 ^ 32`, `size_t` values are `Nat` reduced
  modulo `2 ^ 64` wherever the source can wrap.
* A function whose source has undefined behaviour on some input (a read or write outside
  an array, a read of a slot that was never written, a dereference of a deleted node, a
  loop over a cyclic chain that cannot end) returns `none` there.
* The output stream of `dump` is the list of the bytes its sink holds together with the
  stream's `badbit`: a `write` with a negative count sets `badbit`, and a stream whose
  `badbit` is set drops every write.
-/

/-- One byte of caller-owned memory. -/
abbrev LuaFile.Byte := Fin 256

/-- Source `struct Data { char* start; char* end; }`: a span, both ends inclusive. -/
structure LuaFile.Data where
  start : Nat
  end_ : Nat
deriving DecidableEq, Repr

/-- Source `class DynamicArray`: `size` is the allocated length of `arr`, `pos` the fill.
`arr i` is the content of slot `i`; `none` is a slot that holds no written value
(`new Data[n]` leaves its elements indeterminate). Only the slots below `size` exist. -/
structure LuaFile.DynamicArray where
  size : Nat
  pos : Nat
  arr : Nat → Option LuaFile.Data

/-- Constructor `DynamicArray() : size(4), pos(0) { arr = new Data[size]; }` -/
def LuaFile.DynamicArray.ctor : LuaFile.DynamicArray :=
  { size := 4, pos := 0, arr := fun _ => none }

/-- Method `void resize(size_t newSize)`: a new array of `newSize` slots receives
`std::copy(arr, arr + size, n_arr)`. The copy writes `size` slots, so it stays inside the
new array only when `size ≤ newSize`. -/
def LuaFile.DynamicArray.resize (d : LuaFile.DynamicArray) (newSize : Nat) :
    Option LuaFile.DynamicArray :=
  if d.size ≤ newSize then
    some { size := newSize, pos := d.pos, arr := fun i => if i < d.size then d.arr i else none }
  else
    none

/-- Method `Data& operator [](uint32_t index)`: the array after the possible growth. The
reference handed back is `arr[index]` of that array; `index << 1` is computed on
`uint32_t`, so it wraps modulo `2 ^ 32`. -/
def LuaFile.DynamicArray.operator_index (d : LuaFile.DynamicArray) (index : Nat) :
    Option LuaFile.DynamicArray :=
  if index ≥ d.size then
    if index < (index <<< 1) % 2 ^ 32 then
      d.resize ((index <<< 1) % 2 ^ 32)
    else
      d.resize (2 ^ 32 - 1)
  else
    some d

/-- Reading through the reference `arr[index]`: defined for a slot of the array that
holds a written value. -/
def LuaFile.DynamicArray.slot (d : LuaFile.DynamicArray) (index : Nat) : Option LuaFile.Data :=
  if index < d.size then d.arr index else none

/-- Writing `v` through the reference `arr[index]`: defined for a slot of the array. -/
def LuaFile.DynamicArray.store (d : LuaFile.DynamicArray) (index : Nat) (v : LuaFile.Data) :
    Option LuaFile.DynamicArray :=
  if index < d.size then
    some { d with arr := fun i => if i = index then some v else d.arr i }
  else
    none

/-- Method `void push_back(Data v) { (*this)[pos++] = v; }`: the argument `pos++` is evaluated
first (on `uint32_t`), then `operator[]` runs on the old value of `pos`, then `v` is
stored through the returned reference. -/
def LuaFile.DynamicArray.push_back (d : LuaFile.DynamicArray) (v : LuaFile.Data) :
    Option LuaFile.DynamicArray :=
  match ({ d with pos := (d.pos + 1) % 2 ^ 32 } : LuaFile.DynamicArray).operator_index d.pos with
  | none => none
  | some d1 => d1.store d.pos v

/-- Method `void set_pos(size_t p_pos) { pos = p_pos; }`: the value is narrowed to `uint32_t`. -/
def LuaFile.DynamicArray.set_pos (d : LuaFile.DynamicArray) (p_pos : Nat) :
    LuaFile.DynamicArray :=
  { d with pos := p_pos % 2 ^ 32 }

/-- The class invariant of a page: the constructor gives capacity 4, growth never goes
beyond the largest `uint32_t`, and the fill never exceeds the capacity. -/
def LuaFile.DynamicArray.Valid (d : LuaFile.DynamicArray) : Prop :=
  4 ≤ d.size ∧ d.size ≤ 2 ^ 32 - 1 ∧ d.pos ≤ d.size

/-- Source `class Queue::Node { DynamicArray data; Node* next; }` -/
structure LuaFile.Queue.Node where
  data : LuaFile.DynamicArray
  next : Option Nat

/-- Source `class Queue { Node* last; Node* first; }` -/
structure LuaFile.Queue where
  last : Option Nat
  first : Option Nat
deriving DecidableEq, Repr

/-- The free store as far as `Node` objects go: cell `a` holds the node allocated at
address `a`, or `none` once that node has been deleted. -/
abbrev LuaFile.Heap := List (Option LuaFile.Queue.Node)

/-- Source `class LuaFile { Queue file; }` together with the free store its nodes live in;
`self` is the address of the member `file` (what `&file` evaluates to). -/
structure LuaFile where
  self : Nat
  heap : LuaFile.Heap
  file : LuaFile.Queue

/-- Source `class iterator { Queue* ptr; Queue::Node* region; size_t word; }` -/
structure LuaFile.iterator where
  ptr : Nat
  region : Option Nat
  word : Nat
deriving DecidableEq, Repr

/-- Dereferencing a `Node*`: defined for the address of a node that is still allocated. -/
def LuaFile.Heap.deref (h : LuaFile.Heap) (a : Nat) : Option LuaFile.Queue.Node :=
  match h[a]? with
  | some (some n) => some n
  | _ => none

/-- Constructor `Queue() : last(nullptr), first(nullptr) {}` -/
def LuaFile.Queue.ctor : LuaFile.Queue :=
  { last := none, first := none }

/-- A newly constructed `LuaFile`: an empty queue, no node allocated. -/
def LuaFile.ctor (self : Nat) : LuaFile :=
  { self := self, heap := [], file := LuaFile.Queue.ctor }

/-- Method `void Queue::push()`: `new Node()` takes the next free address, its `data` is built by
the constructor of `DynamicArray` and its `next` is set to `nullptr`; then the node is
linked behind `last` (or becomes `first`) and becomes `last`. -/
def LuaFile.Queue.push (h : LuaFile.Heap) (q : LuaFile.Queue) :
    Option (LuaFile.Heap × LuaFile.Queue) :=
  let node := h.length
  let h1 := h ++ [some { data := LuaFile.DynamicArray.ctor, next := none }]
  match q.last with
  | none => some (h1, { last := some node, first := some node })
  | some l =>
    match h1.deref l with
    | none => none
    | some n => some (h1.set l (some { n with next := some node }), { q with last := some node })

/-- Method `void Queue::pop()`: nothing on `first == nullptr`, else `first` moves to
`first->next` and the old first node is deleted (`last` is not touched). -/
def LuaFile.Queue.pop (h : LuaFile.Heap) (q : LuaFile.Queue) :
    Option (LuaFile.Heap × LuaFile.Queue) :=
  match q.first with
  | none => some (h, q)
  | some a =>
    match h.deref a with
    | none => none
    | some n => some (h.set a none, { q with first := n.next })

/-- Method `iterator begin() { return iterator(&file); }` with
`iterator(Queue* p_ptr) : ptr(p_ptr), region(p_ptr->first), word(0)`. -/
def LuaFile.begin (L : LuaFile) : LuaFile.iterator :=
  { ptr := L.self, region := L.file.first, word := 0 }

/-- Method `bool end() const { return region == nullptr; }` -/
def LuaFile.iterator.end_ (it : LuaFile.iterator) : Bool :=
  it.region == none

/-- Method `void iterator::push()`: `ptr->push()`, then a cursor without a page adopts
`ptr->last` at word 0. -/
def LuaFile.iterator.push (it : LuaFile.iterator) (L : LuaFile) :
    Option (LuaFile.iterator × LuaFile) :=
  match LuaFile.Queue.push L.heap L.file with
  | none => none
  | some (h, q) =>
    if it.region = none then
      some ({ it with region := q.last, word := 0 }, { L with heap := h, file := q })
    else
      some (it, { L with heap := h, file := q })

/-- Method `void iterator::write(char* start, char* end)`: with a current page,
`region->data.push_back(Data{start, end})`; without one, nothing. -/
def LuaFile.iterator.write (it : LuaFile.iterator) (L : LuaFile) (start end_ : Nat) :
    Option LuaFile :=
  match it.region with
  | none => some L
  | some r =>
    match L.heap.deref r with
    | none => none
    | some n =>
      match n.data.push_back { start := start, end_ := end_ } with
      | none => none
      | some d => some { L with heap := L.heap.set r (some { n with data := d }) }

/-- The loop `while (region != nullptr && region->data.pos == word) region = region->next;`
of `getNext`. It moves at most `fuel` times; a chain on which it would move more often
than the store has cells is cyclic and the loop does not end. -/
def LuaFile.iterator.getNextLoop (h : LuaFile.Heap) (word : Nat) :
    Nat → Option Nat → Option (Option Nat)
  | _, none => some none
  | fuel, some a =>
    match h.deref a with
    | none => none
    | some n =>
      if n.data.pos = word then
        match fuel with
        | 0 => none
        | fuel + 1 => LuaFile.iterator.getNextLoop h word fuel n.next
      else
        some (some a)

/-- Method `void iterator::getNext()`; `++word` is computed on `size_t`. -/
def LuaFile.iterator.getNext (it : LuaFile.iterator) (L : LuaFile) : Option LuaFile.iterator :=
  match it.region with
  | none => some it
  | some a =>
    match L.heap.deref a with
    | none => none
    | some n =>
      if n.data.pos ≠ 0 then
        match LuaFile.iterator.getNextLoop L.heap it.word L.heap.length (some a) with
        | none => none
        | some r => some { it with region := r, word := 0 }
      else
        some { it with word := (it.word + 1) % 2 ^ 64 }

/-- Method `iterator& operator++() { getNext(); return *this; }` -/
def LuaFile.iterator.operator_inc (it : LuaFile.iterator) (L : LuaFile) :
    Option LuaFile.iterator :=
  it.getNext L

/-- The cursor after `k` calls of `operator++` with nothing else in between. -/
def LuaFile.iterator.advance (L : LuaFile) : Nat → LuaFile.iterator → Option LuaFile.iterator
  | 0, it => some it
  | k + 1, it =>
    match it.operator_inc L with
    | none => none
    | some it1 => LuaFile.iterator.advance L k it1

/-- The expression `node->data[i]` evaluated and read: `operator[]` runs (and may grow the page), then
the slot is read. -/
def LuaFile.DynamicArray.read (d : LuaFile.DynamicArray) (i : Nat) :
    Option (LuaFile.Data × LuaFile.DynamicArray) :=
  match d.operator_index i with
  | none => none
  | some d1 =>
    match d1.slot i with
    | none => none
    | some v => some (v, d1)

/-- The cast `static_cast<size_t>` of a signed value. -/
def LuaFile.size_t (z : Int) : Nat :=
  (z % 2 ^ 64).toNat

/-- The inner loop of `size()`,
`for (uint32_t i = 0; i < node->data.pos; ++i) fsize += static_cast<size_t>(node->data[i].end - node->data[i].start + 1);`
started at `i` with `k` iterations allowed (`pos - i` are needed). -/
def LuaFile.DynamicArray.sizeLoop :
    Nat → Nat → Nat → LuaFile.DynamicArray → Option (Nat × LuaFile.DynamicArray)
  | 0, i, fsize, d => if i < d.pos then none else some (fsize, d)
  | k + 1, i, fsize, d =>
    if i < d.pos then
      match d.read i with
      | none => none
      | some (v1, d1) =>
        match d1.read i with
        | none => none
        | some (v2, d2) =>
          LuaFile.DynamicArray.sizeLoop k (i + 1)
            ((fsize + LuaFile.size_t ((v1.end_ : Int) - (v2.start : Int) + 1)) % 2 ^ 64) d2
    else
      some (fsize, d)

/-- The outer loop of `size()`, `for (auto node = file.first; node != 0; node = node->next)`,
with `fuel` nodes allowed: a walk over more nodes than the store has cells is a walk round
a cycle, which does not end. -/
def LuaFile.sizeWalk : Nat → Option Nat → Nat → LuaFile.Heap → Option (Nat × LuaFile.Heap)
  | _, none, fsize, h => some (fsize, h)
  | 0, some _, _, _ => none
  | fuel + 1, some a, fsize, h =>
    match h.deref a with
    | none => none
    | some n =>
      match LuaFile.DynamicArray.sizeLoop n.data.pos 0 fsize n.data with
      | none => none
      | some (fsize1, d1) =>
        LuaFile.sizeWalk fuel n.next fsize1 (h.set a (some { n with data := d1 }))

/-- Method `size_t LuaFile::size() const`: the value returned, and the state after the call (the
reads go through the non-const `operator[]`). -/
def LuaFile.size (L : LuaFile) : Option (Nat × LuaFile) :=
  match LuaFile.sizeWalk L.heap.length L.file.first 0 L.heap with
  | none => none
  | some (fsize, h) => some (fsize, { L with heap := h })

/-- The output stream `std::ostream& out` as far as `write` goes: the bytes the sink holds,
and whether the stream's `badbit` is set. -/
structure LuaFile.ostream where
  bytes : List LuaFile.Byte
  bad : Bool
deriving DecidableEq, Repr

/-- The call `out.write(s, n)`. On a stream whose `badbit` is set nothing is written. With a
negative count no character can be put and the stream's `badbit` is set, which drops every
later write as well. Otherwise the `n` bytes at `s`, `s + 1`, ... are appended to what the
sink holds (none when `n = 0`). -/
def LuaFile.ostream_write (mem : Nat → LuaFile.Byte) (out : LuaFile.ostream) (s : Nat) (n : Int) :
    LuaFile.ostream :=
  if out.bad then out
  else if n < 0 then { out with bad := true }
  else { out with bytes := out.bytes ++ (List.range n.toNat).map (fun k => mem (s + k)) }

/-- The inner loop of `dump`,
`for (uint32_t i = 0; i < node->data.pos; ++i) out.write(node->data[i].start, static_cast<std::streamsize>(node->data[i].end - node->data[i].start + 1));`
started at `i` with `k` iterations allowed. -/
def LuaFile.DynamicArray.dumpLoop (mem : Nat → LuaFile.Byte) :
    Nat → Nat → LuaFile.ostream → LuaFile.DynamicArray →
      Option (LuaFile.ostream × LuaFile.DynamicArray)
  | 0, i, out, d => if i < d.pos then none else some (out, d)
  | k + 1, i, out, d =>
    if i < d.pos then
      match d.read i with
      | none => none
      | some (v1, d1) =>
        match d1.read i with
        | none => none
        | some (v2, d2) =>
          match d2.read i with
          | none => none
          | some (v3, d3) =>
            LuaFile.DynamicArray.dumpLoop mem k (i + 1)
              (LuaFile.ostream_write mem out v1.start ((v2.end_ : Int) - (v3.start : Int) + 1)) d3
    else
      some (out, d)

/-- The outer loop of `dump`, with `fuel` nodes allowed. -/
def LuaFile.dumpWalk (mem : Nat → LuaFile.Byte) :
    Nat → Option Nat → LuaFile.ostream → LuaFile.Heap → Option (LuaFile.ostream × LuaFile.Heap)
  | _, none, out, h => some (out, h)
  | 0, some _, _, _ => none
  | fuel + 1, some a, out, h =>
    match h.deref a with
    | none => none
    | some n =>
      match LuaFile.DynamicArray.dumpLoop mem n.data.pos 0 out n.data with
      | none => none
      | some (out1, d1) =>
        LuaFile.dumpWalk mem fuel n.next out1 (h.set a (some { n with data := d1 }))

/-- Method `void LuaFile::dump(std::ostream& out) const` on any stream: the stream after the
call, and the state after the call. -/
def LuaFile.dumpTo (mem : Nat → LuaFile.Byte) (out : LuaFile.ostream) (L : LuaFile) :
    Option (LuaFile.ostream × LuaFile) :=
  match LuaFile.dumpWalk mem L.heap.length L.file.first out L.heap with
  | none => none
  | some (out1, h) => some (out1, { L with heap := h })

/-- Method `void LuaFile::dump(std::ostream& out) const` on a stream with no error bit set:
what the sink holds after the call (`out` is what it held before), and the state after the
call. -/
def LuaFile.dump (mem : Nat → LuaFile.Byte) (out : List LuaFile.Byte) (L : LuaFile) :
    Option (List LuaFile.Byte × LuaFile) :=
  match LuaFile.dumpTo mem { bytes := out, bad := false } L with
  | none => none
  | some (out1, L1) => some (out1.bytes, L1)

/-- Method `const size_t iterator::size() const`,
`static_cast<size_t>(region->data[word].end - region->data[word].start + 1)`; `word` is
narrowed to the `uint32_t` parameter of `operator[]`. -/
def LuaFile.iterator.size (it : LuaFile.iterator) (L : LuaFile) : Option (Nat × LuaFile) :=
  match it.region with
  | none => none
  | some a =>
    match L.heap.deref a with
    | none => none
    | some n =>
      match n.data.read (it.word % 2 ^ 32) with
      | none => none
      | some (v1, d1) =>
        match d1.read (it.word % 2 ^ 32) with
        | none => none
        | some (v2, d2) =>
          some (LuaFile.size_t ((v1.end_ : Int) - (v2.start : Int) + 1),
            { L with heap := L.heap.set a (some { n with data := d2 }) })

/-- Method `const char* iterator::addr() const { return region->data[word].start; }` -/
def LuaFile.iterator.addr (it : LuaFile.iterator) (L : LuaFile) : Option (Nat × LuaFile) :=
  match it.region with
  | none => none
  | some a =>
    match L.heap.deref a with
    | none => none
    | some n =>
      match n.data.read (it.word % 2 ^ 32) with
      | none => none
      | some (v1, d1) =>
        some (v1.start, { L with heap := L.heap.set a (some { n with data := d1 }) })

/-- The round trip
`for (iterator it = begin(); !it.end(); ++it) out.write(it.addr(), it.size());`
from the cursor `it` on, with at most `fuel` rounds: the stream at the end, or `none` when
the loop is not over after `fuel` rounds. -/
def LuaFile.traverseTo (mem : Nat → LuaFile.Byte) :
    Nat → LuaFile.iterator → LuaFile → LuaFile.ostream → Option (LuaFile.ostream × LuaFile)
  | fuel, it, L, out =>
    if it.end_ then
      some (out, L)
    else
      match fuel with
      | 0 => none
      | fuel + 1 =>
        match it.addr L with
        | none => none
        | some (a, L1) =>
          match it.size L1 with
          | none => none
          | some (sz, L2) =>
            match it.operator_inc L2 with
            | none => none
            | some it1 => LuaFile.traverseTo mem fuel it1 L2 (LuaFile.ostream_write mem out a sz)

/-- The round trip on a stream with no error bit set: what the sink holds at the end (`out`
is what it held before), or `none` when the loop is not over after `fuel` rounds. -/
def LuaFile.traverse (mem : Nat → LuaFile.Byte) (fuel : Nat) (it : LuaFile.iterator)
    (L : LuaFile) (out : List LuaFile.Byte) : Option (List LuaFile.Byte × LuaFile) :=
  match LuaFile.traverseTo mem fuel it L { bytes := out, bad := false } with
  | none => none
  | some (out1, L1) => some (out1.bytes, L1)

/-! ## Call sequences -/

/-- A call made by the byte source on one `LuaFile`: `begin()` hands out a further cursor
(cursors are numbered in the order they are obtained), `push` and `write` go through the
cursor with the given number. -/
inductive LuaFile.Call where
  | begin : LuaFile.Call
  | push (c : Nat) : LuaFile.Call
  | write (c : Nat) (start end_ : Nat) : LuaFile.Call
deriving DecidableEq, Repr

/-- Is the call a `write`? -/
def LuaFile.Call.isWrite : LuaFile.Call → Bool
  | .write _ _ _ => true
  | _ => false

/-- A `LuaFile` and the cursors obtained from it so far. -/
structure LuaFile.Session where
  file : LuaFile
  cursors : List LuaFile.iterator

/-- A newly constructed `LuaFile`, no cursor obtained yet. -/
def LuaFile.Session.ctor (self : Nat) : LuaFile.Session :=
  { file := LuaFile.ctor self, cursors := [] }

/-- One call. A call that names a cursor not obtained yet is no call at all. -/
def LuaFile.Session.step (s : LuaFile.Session) : LuaFile.Call → Option LuaFile.Session
  | .begin => some { s with cursors := s.cursors ++ [s.file.begin] }
  | .push c =>
    match s.cursors[c]? with
    | none => some s
    | some it =>
      match it.push s.file with
      | none => none
      | some (it1, L1) => some { file := L1, cursors := s.cursors.set c it1 }
  | .write c start end_ =>
    match s.cursors[c]? with
    | none => some s
    | some it =>
      match it.write s.file start end_ with
      | none => none
      | some L1 => some { s with file := L1 }

/-- A sequence of calls, in order. -/
def LuaFile.Session.run (s : LuaFile.Session) : List LuaFile.Call → Option LuaFile.Session
  | [] => some s
  | c :: cs =>
    match s.step c with
    | none => none
    | some s1 => s1.run cs

/-- The page a `write` through cursor `c` appends to, if the cursor has a current page. -/
def LuaFile.Session.target (s : LuaFile.Session) (c : Nat) : Option Nat :=
  match s.cursors[c]? with
  | none => none
  | some it => it.region

/-- What one call appends: for a `write` made while its cursor has a current page, that
page and the span; nothing for any other call. -/
def LuaFile.Session.appends (s : LuaFile.Session) : LuaFile.Call → List (Nat × LuaFile.Data)
  | .write c start end_ =>
    match s.target c with
    | none => []
    | some r => [(r, { start := start, end_ := end_ })]
  | _ => []

/-- The appends of a sequence of calls, in call order. -/
def LuaFile.Session.appended (s : LuaFile.Session) : List LuaFile.Call → List (Nat × LuaFile.Data)
  | [] => []
  | c :: cs =>
    s.appends c ++
    (match s.step c with
      | none => []
      | some s1 => s1.appended cs)

/-- The bytes of the range `[start, end]` of a span, in address order. -/
def LuaFile.Data.bytes (mem : Nat → LuaFile.Byte) (v : LuaFile.Data) : List LuaFile.Byte :=
  (List.range (v.end_ + 1 - v.start)).map (fun k => mem (v.start + k))

/-- The value `end - start + 1` of a span, as an integer. -/
def LuaFile.Data.length (v : LuaFile.Data) : Int :=
  (v.end_ : Int) - (v.start : Int) + 1

/-- The spans appended to page `r`, in call order. -/
def LuaFile.pageOf (log : List (Nat × LuaFile.Data)) (r : Nat) : List LuaFile.Data :=
  (log.filter (fun e => e.1 = r)).map (fun e => e.2)

/-! ## Calls through one cursor -/

/-- A call through one given cursor. -/
inductive LuaFile.Op where
  | push : LuaFile.Op
  | write (start end_ : Nat) : LuaFile.Op
deriving DecidableEq, Repr

/-- Is the call a `write`? -/
def LuaFile.Op.isWrite : LuaFile.Op → Bool
  | .write _ _ => true
  | .push => false

/-- One call through the cursor. -/
def LuaFile.iterator.exec (it : LuaFile.iterator) (L : LuaFile) :
    LuaFile.Op → Option (LuaFile.iterator × LuaFile)
  | .push => it.push L
  | .write start end_ =>
    match it.write L start end_ with
    | none => none
    | some L1 => some (it, L1)

/-- A sequence of calls through the cursor, in order. -/
def LuaFile.iterator.execAll (it : LuaFile.iterator) (L : LuaFile) :
    List LuaFile.Op → Option (LuaFile.iterator × LuaFile)
  | [] => some (it, L)
  | o :: os =>
    match it.exec L o with
    | none => none
    | some (it1, L1) => it1.execAll L1 os

/-- The spans appended by a sequence of calls through one cursor, in call order: those of
the `write` calls made while the cursor has a current page. `hasPage` tells whether it has
one at the start; it has one from its first `push` on. -/
def LuaFile.Op.appended : Bool → List LuaFile.Op → List LuaFile.Data
  | _, [] => []
  | _, .push :: os => LuaFile.Op.appended true os
  | true, .write start end_ :: os => { start := start, end_ := end_ } :: LuaFile.Op.appended true os
  | false, .write _ _ :: os => LuaFile.Op.appended false os

/-! ## The shape of the state -/

/-- The page `d` holds exactly the spans `vs`: it satisfies the class invariant, its fill
is the number of spans, and slot `i` holds the `i`-th of them. -/
def LuaFile.DynamicArray.Holds (d : LuaFile.DynamicArray) (vs : List LuaFile.Data) : Prop :=
  d.Valid ∧ d.pos = vs.length ∧ ∀ i, i < vs.length → d.arr i = vs[i]?

/-- The `next` link of the `r`-th of `n` pages. -/
def LuaFile.nextOf (n r : Nat) : Option Nat :=
  if r + 1 < n then some (r + 1) else none

/-- The chain of `L` consists of `n` pages: the nodes at the addresses `0, ..., n - 1`,
linked in that order from `first` to `last`, and page `r` holds the spans `content r`. -/
def LuaFile.Rep (L : LuaFile) (n : Nat) (content : Nat → List LuaFile.Data) : Prop :=
  L.heap.length = n ∧
  L.file.first = (if n = 0 then none else some 0) ∧
  L.file.last = (if n = 0 then none else some (n - 1)) ∧
  ∀ r, r < n → ∃ d, L.heap[r]? = some (some { data := d, next := LuaFile.nextOf n r }) ∧
    d.Holds (content r)

/-- The state of a session that has `n` pages and has made the appends `log`: the chain is
well formed, page `r` holds the spans appended to it, and every cursor that has a current
page is on one of the `n` pages. -/
def LuaFile.Session.Inv (s : LuaFile.Session) (n : Nat) (log : List (Nat × LuaFile.Data)) : Prop :=
  s.file.Rep n (LuaFile.pageOf log) ∧
  (∀ e, e ∈ log → e.1 < n) ∧
  (∀ it, it ∈ s.cursors → ∀ r, it.region = some r → r < n)

/-- The contents of the pages when every span is on the first page. -/
def LuaFile.onFirst (vs : List LuaFile.Data) : Nat → List LuaFile.Data :=
  fun r => if r = 0 then vs else []

/-- The spans of the pages `r, r + 1, ..., r + c - 1`, page after page. -/
def LuaFile.spansFrom (content : Nat → List LuaFile.Data) : Nat → Nat → List LuaFile.Data
  | 0, _ => []
  | c + 1, r => content r ++ LuaFile.spansFrom content c (r + 1)

/-- Memory for the examples: the byte at address `a` is `a` modulo 256. -/
def LuaFile.sampleMem : Nat → LuaFile.Byte :=
  fun a => Fin.ofNat a

/-- Two cursors taken from the empty document, each opens a page, then the second writes
before the first. -/
def LuaFile.twoCursors : List LuaFile.Call :=
  [.begin, .begin, .push 0, .push 1, .write 1 20 21, .write 0 10 11]

/-- A page filled to the brim: capacity `2 ^ 32 - 1`, every slot written. -/
def LuaFile.DynamicArray.fullPage : LuaFile.DynamicArray :=
  { size := 2 ^ 32 - 1, pos := 2 ^ 32 - 1,
    arr := fun i => if i < 2 ^ 32 - 1 then some { start := i, end_ := i } else none }

/-- A page that has received four spans since its construction. -/
def LuaFile.DynamicArray.fourPage : LuaFile.DynamicArray :=
  { size := 4, pos := 4,
    arr := fun i => if i < 4 then some { start := 16 * i, end_ := 16 * i + 7 } else none }

/-- A document of two pages: the first holds the spans `[10, 14]` and `[20, 20]`, the
second the span `[30, 32]`. -/
def LuaFile.sampleFile : LuaFile :=
  { self := 0,
    heap :=
      [some { data := { size := 4, pos := 2,
                        arr := fun i => if i = 0 then some { start := 10, end_ := 14 }
                          else if i = 1 then some { start := 20, end_ := 20 } else none },
              next := some 1 },
       some { data := { size := 4, pos := 1,
                        arr := fun i => if i = 0 then some { start := 30, end_ := 32 } else none },
              next := none }],
    file := { last := some 1, first := some 0 } }

/-- The spans of the pages of `sampleFile`. -/
def LuaFile.sampleContent : Nat → List LuaFile.Data :=
  fun r => if r = 0 then [{ start := 10, end_ := 14 }, { start := 20, end_ := 20 }]
    else if r = 1 then [{ start := 30, end_ := 32 }] else []

/-- One cursor opens a page and writes the spans `[10, 14]` and `[20, 22]`. -/
def LuaFile.twoFragments : List LuaFile.Op :=
  [.push, .write 10 14, .write 20 22]

/-- The calls of the scenario: a page is opened, spans of the lengths 5, 1 and 10 are
written, a second page is opened, a span of length 3 is written. -/
def LuaFile.scenario (a b c d : Nat) : List LuaFile.Op :=
  [.push, .write a (a + 4), .write b b, .write c (c + 9), .push, .write d (d + 2)]

/-! ## Calls on one page -/

/-- A call on a page: `operator[]` with an index, or `push_back` with a span. -/
inductive LuaFile.PageOp where
  | index (i : Nat) : LuaFile.PageOp
  | push_back (v : LuaFile.Data) : LuaFile.PageOp
deriving DecidableEq, Repr

/-- Is the call a `push_back`? -/
def LuaFile.PageOp.isPushBack : LuaFile.PageOp → Bool
  | .push_back _ => true
  | .index _ => false

/-- One call on the page. -/
def LuaFile.DynamicArray.apply (d : LuaFile.DynamicArray) :
    LuaFile.PageOp → Option LuaFile.DynamicArray
  | .index i => d.operator_index i
  | .push_back v => d.push_back v

/-- A sequence of calls on the page, in order. -/
def LuaFile.DynamicArray.applyAll (d : LuaFile.DynamicArray) :
    List LuaFile.PageOp → Option LuaFile.DynamicArray
  | [] => some d
  | o :: os =>
    match d.apply o with
    | none => none
    | some d1 => d1.applyAll os

/-- Calls on a new page: two spans are appended, slot 9 is requested, three more spans
are appended. -/
def LuaFile.samplePageOps : List LuaFile.PageOp :=
  [.push_back { start := 0, end_ := 3 }, .push_back { start := 4, end_ := 4 }, .index 9,
   .push_back { start := 8, end_ := 9 }, .push_back { start := 16, end_ := 20 },
   .push_back { start := 32, end_ := 32 }]

/-! ## Calls on the chain -/

/-- A call on the queue: `push()` or `pop()`. -/
inductive LuaFile.QueueOp where
  | push : LuaFile.QueueOp
  | pop : LuaFile.QueueOp
deriving DecidableEq, Repr

/-- One call on the queue. -/
def LuaFile.Queue.exec (h : LuaFile.Heap) (q : LuaFile.Queue) :
    LuaFile.QueueOp → Option (LuaFile.Heap × LuaFile.Queue)
  | .push => LuaFile.Queue.push h q
  | .pop => LuaFile.Queue.pop h q

/-- A sequence of calls on the queue, in order. -/
def LuaFile.Queue.execAll (h : LuaFile.Heap) (q : LuaFile.Queue) :
    List LuaFile.QueueOp → Option (LuaFile.Heap × LuaFile.Queue)
  | [] => some (h, q)
  | o :: os =>
    match LuaFile.Queue.exec h q o with
    | none => none
    | some (h1, q1) => LuaFile.Queue.execAll h1 q1 os

/-- Following the `next` links from the pointer `p` visits the nodes listed, each given
by its address and its page, and then reaches `nullptr`. -/
def LuaFile.Heap.Chain (h : LuaFile.Heap) : Option Nat → List (Nat × LuaFile.DynamicArray) → Prop
  | p, [] => p = none
  | p, (a, d) :: rest =>
    p = some a ∧ ∃ nx, h[a]? = some (some { data := d, next := nx }) ∧ LuaFile.Heap.Chain h nx rest

/-- The first page of `sampleFile`. -/
def LuaFile.samplePage0 : LuaFile.DynamicArray :=
  { size := 4, pos := 2,
    arr := fun i => if i = 0 then some { start := 10, end_ := 14 }
      else if i = 1 then some { start := 20, end_ := 20 } else none }

/-- The second page of `sampleFile`. -/
def LuaFile.samplePage1 : LuaFile.DynamicArray :=
  { size := 4, pos := 1,
    arr := fun i => if i = 0 then some { start := 30, end_ := 32 } else none }

/-! ## Calls on a cursor -/

/-- The chain of `L` consists of the pages `ps`, in this order from `first` to `last`:
page `r` is in the node at address `r`, and the nodes are linked in that order. -/
def LuaFile.Pages (L : LuaFile) (ps : List LuaFile.DynamicArray) : Prop :=
  L.heap.length = ps.length ∧
  L.file.first = (if ps.length = 0 then none else some 0) ∧
  L.file.last = (if ps.length = 0 then none else some (ps.length - 1)) ∧
  ∀ (r : Nat) (d : LuaFile.DynamicArray), ps[r]? = some d →
    L.heap[r]? = some (some { data := d, next := LuaFile.nextOf ps.length r })

/-- Method `const Data operator*()`: `Data()` (both pointers null) without a current page,
else a copy of `region->data[word]`. The method assigns no member of the cursor. -/
def LuaFile.iterator.operator_star (it : LuaFile.iterator) (L : LuaFile) :
    Option (LuaFile.Data × LuaFile) :=
  match it.region with
  | none => some (({ start := 0, end_ := 0 } : LuaFile.Data), L)
  | some a =>
    match L.heap.deref a with
    | none => none
    | some n =>
      match n.data.read (it.word % 2 ^ 32) with
      | none => none
      | some (v, d1) => some (v, { L with heap := L.heap.set a (some { n with data := d1 }) })

/-- Method `Data operator->()`: the same body as `operator*`. -/
def LuaFile.iterator.operator_arrow (it : LuaFile.iterator) (L : LuaFile) :
    Option (LuaFile.Data × LuaFile) :=
  match it.region with
  | none => some (({ start := 0, end_ := 0 } : LuaFile.Data), L)
  | some a =>
    match L.heap.deref a with
    | none => none
    | some n =>
      match n.data.read (it.word % 2 ^ 32) with
      | none => none
      | some (v, d1) => some (v, { L with heap := L.heap.set a (some { n with data := d1 }) })

/-- An operation on a cursor: `operator++`, `write`, `push`, `operator*`, `operator->`. -/
inductive LuaFile.CursorOp where
  | inc : LuaFile.CursorOp
  | write (start end_ : Nat) : LuaFile.CursorOp
  | push : LuaFile.CursorOp
  | star : LuaFile.CursorOp
  | arrow : LuaFile.CursorOp
deriving DecidableEq, Repr

/-- Is the operation a `push`? -/
def LuaFile.CursorOp.isPush : LuaFile.CursorOp → Bool
  | .push => true
  | _ => false

/-- One operation on the cursor: the cursor and the document after it. `write`,
`operator*` and `operator->` assign no member of the cursor, `operator++` changes nothing
but the cursor. -/
def LuaFile.iterator.apply (it : LuaFile.iterator) (L : LuaFile) :
    LuaFile.CursorOp → Option (LuaFile.iterator × LuaFile)
  | .inc =>
    match it.operator_inc L with
    | none => none
    | some it1 => some (it1, L)
  | .write start end_ =>
    match it.write L start end_ with
    | none => none
    | some L1 => some (it, L1)
  | .push => it.push L
  | .star =>
    match it.operator_star L with
    | none => none
    | some (_, L1) => some (it, L1)
  | .arrow =>
    match it.operator_arrow L with
    | none => none
    | some (_, L1) => some (it, L1)

/-- A sequence of operations on the cursor, in order. -/
def LuaFile.iterator.applyAll (it : LuaFile.iterator) (L : LuaFile) :
    List LuaFile.CursorOp → Option (LuaFile.iterator × LuaFile)
  | [] => some (it, L)
  | o :: os =>
    match it.apply L o with
    | none => none
    | some (it1, L1) => it1.applyAll L1 os

/-- A document of one page that holds the spans `[10, 14]`, `[20, 20]` and `[30, 32]`. -/
def LuaFile.threeSpans : LuaFile :=
  { self := 0,
    heap :=
      [some { data := { size := 4, pos := 3,
                        arr := fun i => if i = 0 then some { start := 10, end_ := 14 }
                          else if i = 1 then some { start := 20, end_ := 20 }
                          else if i = 2 then some { start := 30, end_ := 32 } else none },
              next := none }],
    file := { last := some 0, first := some 0 } }

/-- Operations on a cursor with no `push` among them. -/
def LuaFile.sampleCursorOps : List LuaFile.CursorOp :=
  [.inc, .write 10 14, .star, .inc, .arrow, .write 20 22]

/-! ## Destruction, comparison of cursors -/

/-- One round of the loop of `~Queue()`, `first = node->next; delete node;`, for the loop
variable `node`; deleting the node releases its page with it. -/
def LuaFile.Queue.dtorRound (node : Nat) (h : LuaFile.Heap) (q : LuaFile.Queue) :
    Option (LuaFile.Heap × LuaFile.Queue) :=
  match h.deref node with
  | none => none
  | some n => some (h.set node none, { q with first := n.next })

/-- The loop `while (node != nullptr) { first = node->next; delete node; }` of `~Queue()`
with at most `fuel` rounds. The body never assigns `node`. -/
def LuaFile.Queue.dtorLoop (node : Option Nat) :
    Nat → LuaFile.Heap → LuaFile.Queue → Option (LuaFile.Heap × LuaFile.Queue)
  | fuel, h, q =>
    match node with
    | none => some (h, q)
    | some a =>
      match fuel with
      | 0 => none
      | fuel + 1 =>
        match LuaFile.Queue.dtorRound a h q with
        | none => none
        | some (h1, q1) => LuaFile.Queue.dtorLoop node fuel h1 q1

/-- Destructor `~Queue()`: `Node* node = first;` and the loop, with at most `fuel`
rounds. -/
def LuaFile.Queue.dtor (fuel : Nat) (h : LuaFile.Heap) (q : LuaFile.Queue) :
    Option (LuaFile.Heap × LuaFile.Queue) :=
  LuaFile.Queue.dtorLoop q.first fuel h q

/-- Method `bool operator==(const iterator& rhs) const { return ptr == rhs.ptr; }` -/
def LuaFile.iterator.operator_eq (it rhs : LuaFile.iterator) : Bool :=
  it.ptr == rhs.ptr

/-- Method `bool operator!=(const iterator& rhs) const { return ptr != rhs.ptr; }` -/
def LuaFile.iterator.operator_ne (it rhs : LuaFile.iterator) : Bool :=
  it.ptr != rhs.ptr

/-! ## The file helper (`src/libs/io helper.hpp`) -/

/-- Source `struct IO_Helper::Data { char* str; size_t size; }`: `str` is `none` for the
null pointer, else the array it points to, in which `none` is a byte never written. -/
structure IO_Helper.Data where
  str : Option (List (Option LuaFile.Byte))
  size : Nat
deriving DecidableEq, Repr

/-- Method `static Data* IO_Helper::read(const char* filename)`; `file` is what the name
refers to: `none` when it cannot be opened, else the bytes of the file. After the failed
`open` the new `Data()` is returned as constructed. Otherwise `size = 1 + file.tellg()` at
the end of the file, `str = new char[size + 1]`, `file.read(str, size)` stores the bytes
the file has, at most `size`, and `str[size] = 0`. -/
def IO_Helper.read (file : Option (List LuaFile.Byte)) : IO_Helper.Data :=
  match file with
  | none => { str := none, size := 0 }
  | some bytes =>
    let size := (1 + bytes.length) % 2 ^ 64
    let fresh : List (Option LuaFile.Byte) := List.replicate (size + 1) none
    let got := bytes.take size
    let filled := got.map some ++ fresh.drop got.length
    { str := some (filled.set size (some 0)), size := size }

/-- The new size that `operator[]` passes to `resize` for an index at or beyond the
capacity: `index << 1` when the test `index < (index << 1)` holds, else the largest
`uint32_t`. -/
def LuaFile.DynamicArray.resizeArg (index : Nat) : Nat :=
  if index < (index <<< 1) % 2 ^ 32 then (index <<< 1) % 2 ^ 32 else 2 ^ 32 - 1

/-- The capacity `c` is what append-only use gives a page of fill `n`: a power of two, at
least 4 and at least `n`, and the least such. -/
def LuaFile.DynamicArray.CapacityFor (n c : Nat) : Prop :=
  ∃ k, c = 2 ^ k ∧ 2 ≤ k ∧ n ≤ c ∧ (k = 2 ∨ 2 ^ (k - 1) < n)

/-- Six spans to append one after the other. -/
def LuaFile.sixSpans : List LuaFile.Data :=
  [{ start := 0, end_ := 3 }, { start := 4, end_ := 4 }, { start := 8, end_ := 9 },
   { start := 16, end_ := 20 }, { start := 32, end_ := 32 }, { start := 40, end_ := 47 }]

/-- A document of one page that holds no span yet. -/
def LuaFile.onePage : LuaFile :=
  { self := 0,
    heap := [some { data := LuaFile.DynamicArray.ctor, next := none }],
    file := { last := some 0, first := some 0 } }

/-- Is the call a `push`? -/
def LuaFile.Op.isPush : LuaFile.Op → Bool
  | .push => true
  | .write _ _ => false

/-- One cursor opens a page, writes two spans, opens two further pages and writes a
third span. -/
def LuaFile.threePushes : List LuaFile.Op :=
  [.push, .write 10 14, .write 20 22, .push, .push, .write 30 30]

/-! ## Copying a fragment out -/

/-- The call `std::copy(first, first + n, d_first)` on bytes: the `n` bytes are copied one
after the other, lowest address first. -/
def LuaFile.std_copy : Nat → (Nat → LuaFile.Byte) → Nat → Nat → (Nat → LuaFile.Byte)
  | 0, mem, _, _ => mem
  | n + 1, mem, first, d_first =>
    LuaFile.std_copy n (fun a => if a = d_first then mem first else mem a) (first + 1)
      (d_first + 1)

/-- Method `void iterator::data(char* buffer)`:
`std::copy(region->data[word].start, region->data[word].start + size(), buffer);` then
`buffer[size()] = 0`. The memory after the call, and the document after the call. -/
def LuaFile.iterator.data (mem : Nat → LuaFile.Byte) (it : LuaFile.iterator) (L : LuaFile)
    (buffer : Nat) : Option ((Nat → LuaFile.Byte) × LuaFile) :=
  match it.region with
  | none => none
  | some a =>
    match L.heap.deref a with
    | none => none
    | some n =>
      match n.data.read (it.word % 2 ^ 32) with
      | none => none
      | some (v1, d1) =>
        match d1.read (it.word % 2 ^ 32) with
        | none => none
        | some (v2, d2) =>
          match it.size { L with heap := L.heap.set a (some { n with data := d2 }) } with
          | none => none
          | some (sz1, L1) =>
            match it.size L1 with
            | none => none
            | some (sz2, L2) =>
              some (fun x =>
                if x = buffer + sz2 then 0
                else LuaFile.std_copy (v2.start + sz1 - v1.start) mem v1.start buffer x, L2)

/-! # Theorems -/

/-! ## Growth of a page -/

theorem LuaFile.DynamicArray.valid_ctor : LuaFile.DynamicArray.ctor.Valid := by
  simp [LuaFile.DynamicArray.Valid, LuaFile.DynamicArray.ctor]

theorem LuaFile.DynamicArray.valid_fourPage : LuaFile.DynamicArray.fourPage.Valid :=
  ⟨by decide, by decide, by decide⟩

/-- The wrap-around test of `operator[]` separates the indices below `2 ^ 31` (zero
apart) from the others. -/
theorem LuaFile.DynamicArray.shift_test (index : Nat) (hi : index < 2 ^ 32) :
    (index < (index <<< 1) % 2 ^ 32) ↔ (0 < index ∧ index < 2 ^ 31) := by
  rw [Nat.shiftLeft_eq]
  omega

theorem LuaFile.DynamicArray.shift_small (index : Nat) (hi : index < 2 ^ 31) :
    (index <<< 1) % 2 ^ 32 = 2 * index := by
  rw [Nat.shiftLeft_eq]
  omega

/-- What `operator[]` does on an index at or beyond the capacity. -/
theorem LuaFile.DynamicArray.operator_index_grow (d : LuaFile.DynamicArray) (index : Nat)
    (h0 : 0 < index) (hi : index < 2 ^ 32) (hge : d.size ≤ index) :
    d.operator_index index =
      some { size := if index < 2 ^ 31 then 2 * index else 2 ^ 32 - 1, pos := d.pos,
             arr := fun i => if i < d.size then d.arr i else none } := by
  unfold LuaFile.DynamicArray.operator_index
  rw [if_pos hge]
  by_cases hs : index < 2 ^ 31
  · have ht : index < (index <<< 1) % 2 ^ 32 :=
      (LuaFile.DynamicArray.shift_test index hi).2 ⟨h0, hs⟩
    rw [if_pos ht, LuaFile.DynamicArray.shift_small index hs, if_pos hs]
    unfold LuaFile.DynamicArray.resize
    rw [if_pos (by omega)]
  · have ht : ¬ index < (index <<< 1) % 2 ^ 32 := fun h =>
      hs ((LuaFile.DynamicArray.shift_test index hi).1 h).2
    rw [if_neg ht, if_neg hs]
    unfold LuaFile.DynamicArray.resize
    rw [if_pos (by omega)]

/-- On an index below the capacity `operator[]` changes nothing. -/
theorem LuaFile.DynamicArray.operator_index_inside (d : LuaFile.DynamicArray) (index : Nat)
    (hlt : index < d.size) : d.operator_index index = some d := by
  unfold LuaFile.DynamicArray.operator_index
  rw [if_neg (by omega)]

/-- C7. Growth law: on a page (capacity between 4 and `2 ^ 32 - 1`) and a 32-bit index at
or beyond the capacity, `operator[]` sets the capacity to `2 * index` when `index < 2 ^ 31`
and to `2 ^ 32 - 1` otherwise, and the test `index < (index << 1)` computed modulo `2 ^ 32`
holds exactly in the first case. -/
theorem LuaFile.DynamicArray.operator_index_growth_law (d : LuaFile.DynamicArray) (index : Nat)
    (hd : d.Valid) (hi : index < 2 ^ 32) (hge : d.size ≤ index) :
    ((index < (index <<< 1) % 2 ^ 32) ↔ index < 2 ^ 31) ∧
    ∃ d1, d.operator_index index = some d1 ∧
      (index < 2 ^ 31 → d1.size = 2 * index) ∧
      (¬ index < 2 ^ 31 → d1.size = 2 ^ 32 - 1) := by
  have h4 := hd.1
  refine ⟨?_, _, LuaFile.DynamicArray.operator_index_grow d index (by omega) hi hge, ?_, ?_⟩
  · rw [LuaFile.DynamicArray.shift_test index hi]
    constructor
    · exact fun h => h.2
    · exact fun h => ⟨by omega, h⟩
  · intro h
    simp only [if_pos h]
  · intro h
    simp only [if_neg h]

theorem LuaFile.DynamicArray.operator_index_growth_law_witness :
    LuaFile.DynamicArray.fourPage.Valid ∧ (6 : Nat) < 2 ^ 32 ∧
    LuaFile.DynamicArray.fourPage.size ≤ 6 ∧
    (((6 : Nat) < (6 <<< 1) % 2 ^ 32) ↔ (6 : Nat) < 2 ^ 31) ∧
    ∃ d1, LuaFile.DynamicArray.fourPage.operator_index 6 = some d1 ∧
      ((6 : Nat) < 2 ^ 31 → d1.size = 2 * 6) ∧
      (¬ (6 : Nat) < 2 ^ 31 → d1.size = 2 ^ 32 - 1) :=
  ⟨LuaFile.DynamicArray.valid_fourPage, by decide, by decide,
    LuaFile.DynamicArray.operator_index_growth_law LuaFile.DynamicArray.fourPage 6
      LuaFile.DynamicArray.valid_fourPage (by decide) (by decide)⟩

/-- C8. On a page and an index with `capacity ≤ index < 2 ^ 32 - 1`, `operator[]` keeps
every slot below the old capacity, keeps the fill, and makes `index` a slot of the array. -/
theorem LuaFile.DynamicArray.operator_index_preserves (d : LuaFile.DynamicArray) (index : Nat)
    (hd : d.Valid) (hge : d.size ≤ index) (hi : index < 2 ^ 32 - 1) :
    ∃ d1, d.operator_index index = some d1 ∧
      (∀ i, i < d.size → d1.arr i = d.arr i ∧ d1.slot i = d.slot i) ∧
      d1.pos = d.pos ∧ index < d1.size := by
  have h4 := hd.1
  refine ⟨_, LuaFile.DynamicArray.operator_index_grow d index (by omega) (by omega) hge,
    ?_, rfl, ?_⟩
  · intro i hlt
    have hlt2 : i < (if index < 2 ^ 31 then 2 * index else 2 ^ 32 - 1) := by
      split <;> omega
    refine ⟨if_pos hlt, ?_⟩
    simp only [LuaFile.DynamicArray.slot]
    rw [if_pos hlt2, if_pos hlt]
  · show index < (if index < 2 ^ 31 then 2 * index else 2 ^ 32 - 1)
    split <;> omega

theorem LuaFile.DynamicArray.operator_index_preserves_witness :
    LuaFile.DynamicArray.fourPage.Valid ∧ LuaFile.DynamicArray.fourPage.size ≤ 4 ∧
    (4 : Nat) < 2 ^ 32 - 1 ∧
    ∃ d1, LuaFile.DynamicArray.fourPage.operator_index 4 = some d1 ∧
      (∀ i, i < LuaFile.DynamicArray.fourPage.size →
        d1.arr i = LuaFile.DynamicArray.fourPage.arr i ∧
        d1.slot i = LuaFile.DynamicArray.fourPage.slot i) ∧
      d1.pos = LuaFile.DynamicArray.fourPage.pos ∧ 4 < d1.size :=
  ⟨LuaFile.DynamicArray.valid_fourPage, by decide, by decide,
    LuaFile.DynamicArray.operator_index_preserves LuaFile.DynamicArray.fourPage 4
      LuaFile.DynamicArray.valid_fourPage (by decide) (by decide)⟩

/-- C9 as stated fails. On the page `fullPage` (capacity `2 ^ 32 - 1`) a request for index
`2 ^ 32 - 1` does not fail: `operator[]` completes and hands back `arr[2 ^ 32 - 1]` of an
array that has `2 ^ 32 - 1` slots, so the position it refers to is no slot, and a store
through that reference is outside the array. -/
theorem LuaFile.DynamicArray.operator_index_at_max_completes :
    ∃ d1, LuaFile.DynamicArray.fullPage.operator_index (2 ^ 32 - 1) = some d1 ∧
      d1.size = 2 ^ 32 - 1 ∧ ¬ (2 ^ 32 - 1 < d1.size) ∧
      d1.store (2 ^ 32 - 1) { start := 0, end_ := 0 } = none := by
  refine ⟨_, LuaFile.DynamicArray.operator_index_grow _ _ (by decide) (by decide) (by decide),
    ?_, ?_, ?_⟩
  · decide
  · decide
  · simp [LuaFile.DynamicArray.store]

/-- C9, amended. On a page whose capacity is `2 ^ 32 - 1`, `operator[]` called with index
`2 ^ 32 - 1` completes without signalling anything: the array is allocated anew with the
same capacity, and capacity, fill and every stored span are as before. -/
theorem LuaFile.DynamicArray.operator_index_at_max (d : LuaFile.DynamicArray)
    (hmax : d.size = 2 ^ 32 - 1) :
    ∃ d1, d.operator_index (2 ^ 32 - 1) = some d1 ∧
      d1.size = d.size ∧ d1.pos = d.pos ∧
      (∀ i, i < d.size → d1.arr i = d.arr i ∧ d1.slot i = d.slot i) := by
  refine ⟨_, LuaFile.DynamicArray.operator_index_grow d _ (by decide) (by decide) (by omega),
    ?_, rfl, ?_⟩
  · show (if 2 ^ 32 - 1 < 2 ^ 31 then 2 * (2 ^ 32 - 1) else 2 ^ 32 - 1) = d.size
    rw [hmax]
    decide
  · intro i hlt
    refine ⟨if_pos hlt, ?_⟩
    have hlt2 : i < (if 2 ^ 32 - 1 < 2 ^ 31 then 2 * (2 ^ 32 - 1) else 2 ^ 32 - 1) := by
      rw [if_neg (by decide)]
      omega
    simp only [LuaFile.DynamicArray.slot]
    rw [if_pos hlt2, if_pos hlt]

theorem LuaFile.DynamicArray.operator_index_at_max_witness :
    LuaFile.DynamicArray.fullPage.size = 2 ^ 32 - 1 ∧
    ∃ d1, LuaFile.DynamicArray.fullPage.operator_index (2 ^ 32 - 1) = some d1 ∧
      d1.size = LuaFile.DynamicArray.fullPage.size ∧ d1.pos = LuaFile.DynamicArray.fullPage.pos ∧
      (∀ i, i < LuaFile.DynamicArray.fullPage.size →
        d1.arr i = LuaFile.DynamicArray.fullPage.arr i ∧
        d1.slot i = LuaFile.DynamicArray.fullPage.slot i) :=
  ⟨rfl, LuaFile.DynamicArray.operator_index_at_max LuaFile.DynamicArray.fullPage rfl⟩

/-- The class invariant survives `operator[]` on every 32-bit index. -/
theorem LuaFile.DynamicArray.valid_operator_index (d : LuaFile.DynamicArray) (index : Nat)
    (hd : d.Valid) (hi : index < 2 ^ 32) :
    ∃ d1, d.operator_index index = some d1 ∧ d1.Valid ∧ d.size ≤ d1.size ∧ d1.pos = d.pos := by
  obtain ⟨h4, hmax, hps⟩ := hd
  by_cases hin : index < d.size
  · exact ⟨d, LuaFile.DynamicArray.operator_index_inside d index hin, ⟨h4, hmax, hps⟩,
      Nat.le_refl _, rfl⟩
  · refine ⟨_, LuaFile.DynamicArray.operator_index_grow d index (by omega) hi (by omega),
      ⟨?_, ?_, ?_⟩, ?_, rfl⟩
    · show 4 ≤ (if index < 2 ^ 31 then 2 * index else 2 ^ 32 - 1)
      split <;> omega
    · show (if index < 2 ^ 31 then 2 * index else 2 ^ 32 - 1) ≤ 2 ^ 32 - 1
      split <;> omega
    · show d.pos ≤ (if index < 2 ^ 31 then 2 * index else 2 ^ 32 - 1)
      split <;> omega
    · show d.size ≤ (if index < 2 ^ 31 then 2 * index else 2 ^ 32 - 1)
      split <;> omega

/-- The page that `push_back` leaves, for a fill below `2 ^ 32 - 1`. -/
theorem LuaFile.DynamicArray.push_back_eq (d : LuaFile.DynamicArray) (v : LuaFile.Data)
    (hd : d.Valid) (hf : d.pos < 2 ^ 32 - 1) :
    ∃ d1, d.push_back v = some d1 ∧ d1.Valid ∧ d1.pos = d.pos + 1 ∧
      d1.arr d.pos = some v ∧ d.pos < d1.size ∧
      (∀ i, i < d.pos → d1.arr i = d.arr i) ∧
      (d.pos < d.size → d1.size = d.size) ∧
      (d.size ≤ d.pos → d.pos < 2 ^ 31 → d1.size = 2 * d.pos) ∧
      (d.size ≤ d.pos → ¬ d.pos < 2 ^ 31 → d1.size = 2 ^ 32 - 1) := by
  obtain ⟨h4, hmax, hps⟩ := hd
  have hmod : (d.pos + 1) % 2 ^ 32 = d.pos + 1 := Nat.mod_eq_of_lt (by omega)
  unfold LuaFile.DynamicArray.push_back
  by_cases hin : d.pos < d.size
  · rw [LuaFile.DynamicArray.operator_index_inside
      { size := d.size, pos := (d.pos + 1) % 2 ^ 32, arr := d.arr } d.pos hin]
    simp only [LuaFile.DynamicArray.store]
    rw [if_pos hin]
    refine ⟨_, rfl, ⟨h4, hmax, ?_⟩, hmod, ?_, hin, ?_, ?_, ?_, ?_⟩
    · show (d.pos + 1) % 2 ^ 32 ≤ d.size
      omega
    · simp
    · intro i hi
      show (if i = d.pos then some v else d.arr i) = d.arr i
      rw [if_neg (by omega)]
    · intro _
      rfl
    · intro h
      omega
    · intro h
      omega
  · have hge : d.size ≤ d.pos := by omega
    rw [LuaFile.DynamicArray.operator_index_grow
      { size := d.size, pos := (d.pos + 1) % 2 ^ 32, arr := d.arr } d.pos
      (by omega) (by omega) hge]
    simp only [LuaFile.DynamicArray.store]
    have hnew : d.pos < (if d.pos < 2 ^ 31 then 2 * d.pos else 2 ^ 32 - 1) := by
      split <;> omega
    rw [if_pos hnew]
    refine ⟨_, rfl, ⟨?_, ?_, ?_⟩, hmod, ?_, hnew, ?_, ?_, ?_, ?_⟩
    · show 4 ≤ (if d.pos < 2 ^ 31 then 2 * d.pos else 2 ^ 32 - 1)
      split <;> omega
    · show (if d.pos < 2 ^ 31 then 2 * d.pos else 2 ^ 32 - 1) ≤ 2 ^ 32 - 1
      split <;> omega
    · show (d.pos + 1) % 2 ^ 32 ≤ (if d.pos < 2 ^ 31 then 2 * d.pos else 2 ^ 32 - 1)
      split <;> omega
    · simp
    · intro i hi
      show (if i = d.pos then some v else if i < d.size then d.arr i else none) = d.arr i
      rw [if_neg (by omega), if_pos (by omega)]
    · intro h
      omega
    · intro _ h
      show (if d.pos < 2 ^ 31 then 2 * d.pos else 2 ^ 32 - 1) = 2 * d.pos
      rw [if_pos h]
    · intro _ h
      show (if d.pos < 2 ^ 31 then 2 * d.pos else 2 ^ 32 - 1) = 2 ^ 32 - 1
      rw [if_neg h]

/-- C10. On a page with fill `f < 2 ^ 32 - 1`, `push_back s` stores `s` in slot `f` (the
array grows first when `f` is at the capacity and is untouched otherwise), sets the fill
to `f + 1`, and leaves the spans in the slots `0 .. f - 1` as they were. -/
theorem LuaFile.DynamicArray.push_back_appends (d : LuaFile.DynamicArray) (s : LuaFile.Data)
    (hd : d.Valid) (hf : d.pos < 2 ^ 32 - 1) :
    ∃ d1, d.push_back s = some d1 ∧
      d1.slot d.pos = some s ∧ d1.pos = d.pos + 1 ∧
      (∀ i, i < d.pos → d1.slot i = d.slot i) ∧
      (d.pos < d.size → d1.size = d.size) ∧
      (d.size ≤ d.pos → d.size < d1.size) := by
  obtain ⟨d1, h1, -, hpos, hat, hlt, hold, hsame, hsmall, hbig⟩ :=
    LuaFile.DynamicArray.push_back_eq d s hd hf
  obtain ⟨h4, hmax, hps⟩ := hd
  refine ⟨d1, h1, ?_, hpos, ?_, hsame, ?_⟩
  · simp only [LuaFile.DynamicArray.slot]
    rw [if_pos hlt, hat]
  · intro i hi
    simp only [LuaFile.DynamicArray.slot]
    rw [if_pos (by omega), if_pos (by omega), hold i hi]
  · intro hge
    by_cases h : d.pos < 2 ^ 31
    · rw [hsmall hge h]
      omega
    · rw [hbig hge h]
      omega

theorem LuaFile.DynamicArray.push_back_appends_witness :
    LuaFile.DynamicArray.fourPage.Valid ∧ LuaFile.DynamicArray.fourPage.pos < 2 ^ 32 - 1 ∧
    ∃ d1, LuaFile.DynamicArray.fourPage.push_back { start := 64, end_ := 70 } = some d1 ∧
      d1.slot LuaFile.DynamicArray.fourPage.pos = some { start := 64, end_ := 70 } ∧
      d1.pos = LuaFile.DynamicArray.fourPage.pos + 1 ∧
      (∀ i, i < LuaFile.DynamicArray.fourPage.pos → d1.slot i = LuaFile.DynamicArray.fourPage.slot i) ∧
      (LuaFile.DynamicArray.fourPage.pos < LuaFile.DynamicArray.fourPage.size →
        d1.size = LuaFile.DynamicArray.fourPage.size) ∧
      (LuaFile.DynamicArray.fourPage.size ≤ LuaFile.DynamicArray.fourPage.pos →
        LuaFile.DynamicArray.fourPage.size < d1.size) :=
  ⟨LuaFile.DynamicArray.valid_fourPage, by decide,
    LuaFile.DynamicArray.push_back_appends LuaFile.DynamicArray.fourPage _
      LuaFile.DynamicArray.valid_fourPage (by decide)⟩

/-! ## Pages and their contents -/

theorem LuaFile.DynamicArray.holds_ctor : LuaFile.DynamicArray.ctor.Holds [] :=
  ⟨LuaFile.DynamicArray.valid_ctor, rfl, fun i hi => absurd hi (Nat.not_lt_zero i)⟩

theorem LuaFile.DynamicArray.holds_push_back (d : LuaFile.DynamicArray) (vs : List LuaFile.Data)
    (v : LuaFile.Data) (hd : d.Holds vs) (hlen : vs.length < 2 ^ 32 - 1) :
    ∃ d1, d.push_back v = some d1 ∧ d1.Holds (vs ++ [v]) := by
  obtain ⟨hval, hpos, harr⟩ := hd
  obtain ⟨d1, h1, hval1, hpos1, hat, -, hold, -⟩ :=
    LuaFile.DynamicArray.push_back_eq d v hval (by omega)
  refine ⟨d1, h1, hval1, ?_, ?_⟩
  · rw [hpos1, hpos, List.length_append, List.length_singleton]
  · intro i hi
    rw [List.length_append, List.length_singleton] at hi
    by_cases hlt : i < vs.length
    · rw [hold i (by omega), harr i hlt, List.getElem?_append_left hlt]
    · have hi2 : i = vs.length := by omega
      subst hi2
      rw [← hpos, hat, List.getElem?_append_right (by omega)]
      simp [hpos]

theorem LuaFile.DynamicArray.read_of_holds (d : LuaFile.DynamicArray) (vs : List LuaFile.Data)
    (i : Nat) (v : LuaFile.Data) (hd : d.Holds vs) (hv : vs[i]? = some v) :
    d.read i = some (v, d) := by
  obtain ⟨⟨-, -, hps⟩, hpos, harr⟩ := hd
  have hi : i < vs.length := by
    by_contra hcon
    rw [List.getElem?_eq_none (by omega)] at hv
    exact Option.noConfusion hv
  have hsz : i < d.size := by omega
  unfold LuaFile.DynamicArray.read
  rw [LuaFile.DynamicArray.operator_index_inside d i hsz]
  simp only [LuaFile.DynamicArray.slot]
  rw [if_pos hsz, harr i hi, hv]

/-- The sum that `size()` accumulates over a list of spans, without the reduction modulo
`2 ^ 64`. -/
theorem LuaFile.DynamicArray.sizeLoop_of_holds (d : LuaFile.DynamicArray)
    (vs : List LuaFile.Data) (hd : d.Holds vs) :
    ∀ k i acc, i + k = vs.length → acc < 2 ^ 64 →
      LuaFile.DynamicArray.sizeLoop k i acc d =
        some ((acc + ((vs.drop i).map (fun v => LuaFile.size_t v.length)).sum) % 2 ^ 64, d) := by
  have hpos := hd.2.1
  intro k
  induction k with
  | zero =>
    intro i acc hik hacc
    have hi : i = vs.length := by omega
    subst hi
    simp only [LuaFile.DynamicArray.sizeLoop]
    rw [if_neg (by omega)]
    simp
    omega
  | succ k ih =>
    intro i acc hik hacc
    have hi : i < vs.length := by omega
    simp only [LuaFile.DynamicArray.sizeLoop]
    rw [if_pos (by omega)]
    have hv : vs[i]? = some vs[i] := List.getElem?_eq_getElem hi
    rw [LuaFile.DynamicArray.read_of_holds d vs i _ hd hv]
    simp only []
    rw [LuaFile.DynamicArray.read_of_holds d vs i _ hd hv]
    simp only []
    rw [ih (i + 1) _ (by omega) (Nat.mod_lt _ (by decide))]
    rw [List.drop_eq_getElem_cons hi]
    simp only [List.map_cons, List.sum_cons, LuaFile.Data.length]
    congr 2
    omega

/-- A write of a span whose count `end - start + 1` is not negative, on a stream with no
error bit set: the bytes of the span are appended and no error bit is set. -/
theorem LuaFile.ostream_write_span (mem : Nat → LuaFile.Byte) (bs : List LuaFile.Byte)
    (v : LuaFile.Data) (hv : v.start ≤ v.end_ + 1) :
    LuaFile.ostream_write mem { bytes := bs, bad := false } v.start
        ((v.end_ : Int) - (v.start : Int) + 1) =
      { bytes := bs ++ v.bytes mem, bad := false } := by
  unfold LuaFile.ostream_write LuaFile.Data.bytes
  have h : ((v.end_ : Int) - (v.start : Int) + 1).toNat = v.end_ + 1 - v.start := by omega
  have hn : ¬ ((v.end_ : Int) - (v.start : Int) + 1 < 0) := by omega
  simp only [Bool.false_eq_true, if_false, if_neg hn]
  rw [h]

/-- A write of a span with `end + 1 < start`, on a stream with no error bit set: nothing is
appended and `badbit` is set. -/
theorem LuaFile.ostream_write_reversed (mem : Nat → LuaFile.Byte) (bs : List LuaFile.Byte)
    (v : LuaFile.Data) (hv : v.end_ + 1 < v.start) :
    LuaFile.ostream_write mem { bytes := bs, bad := false } v.start
        ((v.end_ : Int) - (v.start : Int) + 1) =
      { bytes := bs, bad := true } := by
  unfold LuaFile.ostream_write
  have hn : (v.end_ : Int) - (v.start : Int) + 1 < 0 := by omega
  simp only [Bool.false_eq_true, if_false, if_pos hn]

/-- A write on a stream whose `badbit` is set changes nothing. -/
theorem LuaFile.ostream_write_bad (mem : Nat → LuaFile.Byte) (bs : List LuaFile.Byte)
    (s : Nat) (n : Int) :
    LuaFile.ostream_write mem { bytes := bs, bad := true } s n = { bytes := bs, bad := true } := by
  unfold LuaFile.ostream_write
  simp only [if_true]

theorem LuaFile.DynamicArray.dumpLoop_of_holds (mem : Nat → LuaFile.Byte)
    (d : LuaFile.DynamicArray) (vs : List LuaFile.Data) (hd : d.Holds vs)
    (hok : ∀ v, v ∈ vs → v.start ≤ v.end_ + 1) :
    ∀ k i bs, i + k = vs.length →
      LuaFile.DynamicArray.dumpLoop mem k i { bytes := bs, bad := false } d =
        some ({ bytes := bs ++ (vs.drop i).flatMap (fun v => v.bytes mem), bad := false }, d) := by
  have hpos := hd.2.1
  intro k
  induction k with
  | zero =>
    intro i bs hik
    have hi : i = vs.length := by omega
    subst hi
    simp only [LuaFile.DynamicArray.dumpLoop]
    rw [if_neg (by omega)]
    simp
  | succ k ih =>
    intro i bs hik
    have hi : i < vs.length := by omega
    simp only [LuaFile.DynamicArray.dumpLoop]
    rw [if_pos (by omega)]
    have hv : vs[i]? = some vs[i] := List.getElem?_eq_getElem hi
    rw [LuaFile.DynamicArray.read_of_holds d vs i _ hd hv]
    simp only []
    rw [LuaFile.DynamicArray.read_of_holds d vs i _ hd hv]
    simp only []
    rw [LuaFile.DynamicArray.read_of_holds d vs i _ hd hv]
    simp only []
    rw [LuaFile.ostream_write_span mem bs vs[i] (hok _ (List.getElem_mem hi)),
      ih (i + 1) _ (by omega), List.drop_eq_getElem_cons hi]
    simp only [List.flatMap_cons, List.append_assoc]

/-! ## The chain and the two walks -/

theorem LuaFile.Heap.deref_of_cell (h : LuaFile.Heap) (a : Nat) (n : LuaFile.Queue.Node)
    (ha : h[a]? = some (some n)) : h.deref a = some n := by
  unfold LuaFile.Heap.deref
  rw [ha]

theorem LuaFile.Heap.set_same (h : LuaFile.Heap) (a : Nat) (x : Option LuaFile.Queue.Node)
    (ha : h[a]? = some x) : h.set a x = h := by
  apply List.ext_getElem?
  intro j
  rw [List.getElem?_set]
  by_cases hj : a = j
  · subst hj
    rw [if_pos rfl, ha]
    have hlt : a < h.length := by
      by_contra hcon
      rw [List.getElem?_eq_none (by omega)] at ha
      exact Option.noConfusion ha
    rw [if_pos hlt]
  · rw [if_neg hj]

/-- The node pointer of the walk when `c` pages are still to be visited, the next of
them at address `r`. -/
theorem LuaFile.nextOf_eq (n c r : Nat) (h : r + (c + 1) = n) :
    LuaFile.nextOf n r = if c = 0 then none else some (r + 1) := by
  unfold LuaFile.nextOf
  by_cases hc : c = 0
  · rw [if_pos hc, if_neg (by omega)]
  · rw [if_neg hc, if_pos (by omega)]

theorem LuaFile.sizeWalk_of_cells (h : LuaFile.Heap) (n : Nat) (content : Nat → List LuaFile.Data)
    (hcell : ∀ r, r < n → ∃ d, h[r]? = some (some { data := d, next := LuaFile.nextOf n r }) ∧
      d.Holds (content r)) :
    ∀ c r fuel acc, r + c = n → c ≤ fuel → acc < 2 ^ 64 →
      LuaFile.sizeWalk fuel (if c = 0 then none else some r) acc h =
        some ((acc + ((LuaFile.spansFrom content c r).map
          (fun v => LuaFile.size_t v.length)).sum) % 2 ^ 64, h) := by
  intro c
  induction c with
  | zero =>
    intro r fuel acc _ _ hacc
    rw [if_pos rfl]
    cases fuel <;> simp [LuaFile.sizeWalk, LuaFile.spansFrom] <;> omega
  | succ c ih =>
    intro r fuel acc hrc hfuel hacc
    obtain ⟨fuel, rfl⟩ : ∃ f, fuel = f + 1 := ⟨fuel - 1, by omega⟩
    obtain ⟨d, hd, hholds⟩ := hcell r (by omega)
    rw [if_neg (by omega)]
    simp only [LuaFile.sizeWalk]
    rw [LuaFile.Heap.deref_of_cell h r _ hd]
    simp only []
    rw [LuaFile.DynamicArray.sizeLoop_of_holds d (content r) hholds d.pos 0 acc
      (by rw [hholds.2.1]; omega) hacc]
    simp only []
    rw [LuaFile.Heap.set_same h r _ hd, LuaFile.nextOf_eq n c r hrc,
      ih (r + 1) fuel _ (by omega) (by omega) (Nat.mod_lt _ (by decide))]
    simp only [LuaFile.spansFrom, List.drop_zero, List.map_append, List.sum_append]
    congr 2
    omega

theorem LuaFile.dumpWalk_of_cells (mem : Nat → LuaFile.Byte) (h : LuaFile.Heap) (n : Nat)
    (content : Nat → List LuaFile.Data)
    (hcell : ∀ r, r < n → ∃ d, h[r]? = some (some { data := d, next := LuaFile.nextOf n r }) ∧
      d.Holds (content r))
    (hok : ∀ r, r < n → ∀ v, v ∈ content r → v.start ≤ v.end_ + 1) :
    ∀ c r fuel bs, r + c = n → c ≤ fuel →
      LuaFile.dumpWalk mem fuel (if c = 0 then none else some r) { bytes := bs, bad := false } h =
        some ({ bytes := bs ++ (LuaFile.spansFrom content c r).flatMap (fun v => v.bytes mem),
                bad := false }, h) := by
  intro c
  induction c with
  | zero =>
    intro r fuel bs _ _
    rw [if_pos rfl]
    cases fuel <;> simp [LuaFile.dumpWalk, LuaFile.spansFrom]
  | succ c ih =>
    intro r fuel bs hrc hfuel
    obtain ⟨fuel, rfl⟩ : ∃ f, fuel = f + 1 := ⟨fuel - 1, by omega⟩
    obtain ⟨d, hd, hholds⟩ := hcell r (by omega)
    rw [if_neg (by omega)]
    simp only [LuaFile.dumpWalk]
    rw [LuaFile.Heap.deref_of_cell h r _ hd]
    simp only []
    rw [LuaFile.DynamicArray.dumpLoop_of_holds mem d (content r) hholds (hok r (by omega))
      d.pos 0 bs (by rw [hholds.2.1]; omega)]
    simp only []
    rw [LuaFile.Heap.set_same h r _ hd, LuaFile.nextOf_eq n c r hrc,
      ih (r + 1) fuel _ (by omega) (by omega)]
    simp only [LuaFile.spansFrom, List.drop_zero, List.flatMap_append, List.append_assoc]

/-- On a well-formed chain `size()` returns the sum, reduced modulo `2 ^ 64`, of the
values `static_cast<size_t>(end - start + 1)` of the spans of all pages, and changes
nothing. -/
theorem LuaFile.size_of_rep (L : LuaFile) (n : Nat) (content : Nat → List LuaFile.Data)
    (hrep : L.Rep n content) :
    L.size = some (((LuaFile.spansFrom content n 0).map
      (fun v => LuaFile.size_t v.length)).sum % 2 ^ 64, L) := by
  obtain ⟨hlen, hfirst, -, hcell⟩ := hrep
  have hw := LuaFile.sizeWalk_of_cells L.heap n content hcell n 0 L.heap.length 0
    (by omega) (by omega) (by decide)
  unfold LuaFile.size
  rw [hfirst, hw]
  simp

/-- On a well-formed chain none of whose spans has `end + 1 < start`, `dump` appends to the
sink the bytes of the spans of all pages, page after page, and changes nothing. -/
theorem LuaFile.dump_of_rep (mem : Nat → LuaFile.Byte) (out : List LuaFile.Byte) (L : LuaFile)
    (n : Nat) (content : Nat → List LuaFile.Data) (hrep : L.Rep n content)
    (hok : ∀ r, r < n → ∀ v, v ∈ content r → v.start ≤ v.end_ + 1) :
    L.dump mem out =
      some (out ++ (LuaFile.spansFrom content n 0).flatMap (fun v => v.bytes mem), L) := by
  obtain ⟨hlen, hfirst, -, hcell⟩ := hrep
  have hw := LuaFile.dumpWalk_of_cells mem L.heap n content hcell hok n 0 L.heap.length out
    (by omega) (by omega)
  unfold LuaFile.dump LuaFile.dumpTo
  rw [hfirst, hw]

theorem LuaFile.mem_pageOf (log : List (Nat × LuaFile.Data)) (r : Nat) (v : LuaFile.Data)
    (hv : v ∈ LuaFile.pageOf log r) : ∃ e, e ∈ log ∧ e.2 = v := by
  unfold LuaFile.pageOf at hv
  obtain ⟨e, he, hev⟩ := List.mem_map.mp hv
  exact ⟨e, (List.mem_filter.mp he).1, hev⟩

theorem LuaFile.mem_onFirst (vs : List LuaFile.Data) (r : Nat) (v : LuaFile.Data)
    (hv : v ∈ LuaFile.onFirst vs r) : v ∈ vs := by
  unfold LuaFile.onFirst at hv
  by_cases hr : r = 0
  · rwa [if_pos hr] at hv
  · rw [if_neg hr] at hv
    exact absurd hv (List.not_mem_nil v)

/-! ## `push` and `write` on a well-formed chain -/

theorem LuaFile.rep_ctor (self : Nat) (content : Nat → List LuaFile.Data) :
    (LuaFile.ctor self).Rep 0 content :=
  ⟨rfl, rfl, rfl, fun r hr => absurd hr (Nat.not_lt_zero r)⟩

theorem LuaFile.Queue.link_of_rep (L : LuaFile) (n : Nat) (content : Nat → List LuaFile.Data)
    (hrep : L.Rep n content) (hnew : content n = []) :
    ∃ h q, LuaFile.Queue.push L.heap L.file = some (h, q) ∧ q.last = some n ∧
      ({ L with heap := h, file := q } : LuaFile).Rep (n + 1) content := by
  obtain ⟨hlen, hfirst, hlast, hcell⟩ := hrep
  unfold LuaFile.Queue.push
  by_cases hn : n = 0
  · subst hn
    rw [if_pos rfl] at hlast
    rw [hlast]
    refine ⟨_, _, rfl, by rw [hlen], ?_, ?_, ?_, ?_⟩
    · simp [hlen]
    · simp [hlen]
    · simp [hlen]
    · intro r hr
      have hr0 : r = 0 := by omega
      subst hr0
      refine ⟨LuaFile.DynamicArray.ctor, ?_, by rw [hnew]; exact LuaFile.DynamicArray.holds_ctor⟩
      have hnil : L.heap = [] := List.eq_nil_of_length_eq_zero hlen
      simp [hnil, LuaFile.nextOf]
  · rw [if_neg hn] at hlast
    rw [hlast]
    obtain ⟨dl, hdl, hholdsl⟩ := hcell (n - 1) (by omega)
    have hnext : LuaFile.nextOf n (n - 1) = none := by
      unfold LuaFile.nextOf
      rw [if_neg (by omega)]
    rw [hnext] at hdl
    have hdl1 : (L.heap ++ [some ({ data := LuaFile.DynamicArray.ctor, next := none } :
        LuaFile.Queue.Node)])[n - 1]? = some (some { data := dl, next := none }) := by
      rw [List.getElem?_append_left (by omega), hdl]
    simp only []
    rw [LuaFile.Heap.deref_of_cell _ _ _ hdl1]
    refine ⟨_, _, rfl, by rw [hlen], ?_, ?_, ?_, ?_⟩
    · simp [hlen]
    · show L.file.first = _
      rw [hfirst, if_neg hn, if_neg (by omega)]
    · simp [hlen]
    · intro r hr
      show ∃ d, ((L.heap ++ [some ({ data := LuaFile.DynamicArray.ctor, next := none } :
        LuaFile.Queue.Node)]).set (n - 1) (some { data := dl, next := some L.heap.length }))[r]? = _ ∧ _
      rw [List.getElem?_set]
      by_cases hr1 : n - 1 = r
      · subst hr1
        rw [if_pos rfl, if_pos (by simp; omega)]
        refine ⟨dl, ?_, hholdsl⟩
        have : LuaFile.nextOf (n + 1) (n - 1) = some L.heap.length := by
          unfold LuaFile.nextOf
          rw [if_pos (by omega), hlen]
          congr 1
          omega
        rw [this]
      · rw [if_neg hr1]
        by_cases hr2 : r < n
        · obtain ⟨d, hd, hholds⟩ := hcell r hr2
          refine ⟨d, ?_, hholds⟩
          rw [List.getElem?_append_left (by omega), hd]
          have : LuaFile.nextOf (n + 1) r = LuaFile.nextOf n r := by
            unfold LuaFile.nextOf
            rw [if_pos (by omega), if_pos (by omega)]
          rw [this]
        · have hrn : r = n := by omega
          subst hrn
          refine ⟨LuaFile.DynamicArray.ctor, ?_,
            by rw [hnew]; exact LuaFile.DynamicArray.holds_ctor⟩
          rw [List.getElem?_append_right (by omega)]
          simp [hlen, LuaFile.nextOf]

theorem LuaFile.iterator.push_of_rep (it : LuaFile.iterator) (L : LuaFile) (n : Nat)
    (content : Nat → List LuaFile.Data) (hrep : L.Rep n content) (hnew : content n = []) :
    ∃ it1 L1, it.push L = some (it1, L1) ∧ L1.Rep (n + 1) content ∧ L1.self = L.self ∧
      it1.ptr = it.ptr ∧
      it1.region = (if it.region = none then some n else it.region) ∧
      it1.word = (if it.region = none then 0 else it.word) := by
  obtain ⟨h, q, hpush, hlast, hrep1⟩ := LuaFile.Queue.link_of_rep L n content hrep hnew
  unfold LuaFile.iterator.push
  rw [hpush]
  by_cases hreg : it.region = none
  · simp only [if_pos hreg]
    exact ⟨_, _, rfl, hrep1, rfl, rfl, hlast, rfl⟩
  · simp only [if_neg hreg]
    exact ⟨_, _, rfl, hrep1, rfl, rfl, rfl, rfl⟩

theorem LuaFile.iterator.write_of_rep (it : LuaFile.iterator) (L : LuaFile) (n r : Nat)
    (content : Nat → List LuaFile.Data) (start end_ : Nat) (hrep : L.Rep n content)
    (hreg : it.region = some r) (hr : r < n) (hroom : (content r).length < 2 ^ 32 - 1) :
    ∃ L1, it.write L start end_ = some L1 ∧ L1.self = L.self ∧
      L1.Rep n (fun j => if j = r then content r ++ [{ start := start, end_ := end_ }]
        else content j) := by
  obtain ⟨hlen, hfirst, hlast, hcell⟩ := hrep
  obtain ⟨d, hd, hholds⟩ := hcell r hr
  obtain ⟨d1, hpb, hholds1⟩ :=
    LuaFile.DynamicArray.holds_push_back d (content r) { start := start, end_ := end_ }
      hholds hroom
  unfold LuaFile.iterator.write
  rw [hreg]
  simp only []
  rw [LuaFile.Heap.deref_of_cell L.heap r _ hd]
  simp only []
  rw [hpb]
  refine ⟨_, rfl, rfl, ?_, hfirst, hlast, ?_⟩
  · show (L.heap.set r _).length = n
    rw [List.length_set, hlen]
  · intro j hj
    show ∃ d2, (L.heap.set r _)[j]? = _ ∧ _
    rw [List.getElem?_set]
    by_cases hjr : r = j
    · subst hjr
      rw [if_pos rfl, if_pos (by omega)]
      exact ⟨d1, rfl, by simp only [if_pos]; exact hholds1⟩
    · rw [if_neg hjr]
      obtain ⟨dj, hdj, hholdsj⟩ := hcell j hj
      have hne : ¬ j = r := fun h => hjr h.symm
      exact ⟨dj, hdj, by simp only [if_neg hne]; exact hholdsj⟩

theorem LuaFile.iterator.write_of_end (it : LuaFile.iterator) (L : LuaFile) (start end_ : Nat)
    (hreg : it.region = none) : it.write L start end_ = some L := by
  unfold LuaFile.iterator.write
  rw [hreg]

/-! ## Call sequences keep the chain well formed -/

theorem LuaFile.pageOf_append_single (log : List (Nat × LuaFile.Data)) (r : Nat) (v : LuaFile.Data) :
    LuaFile.pageOf (log ++ [(r, v)]) =
      fun j => if j = r then LuaFile.pageOf log r ++ [v] else LuaFile.pageOf log j := by
  funext j
  unfold LuaFile.pageOf
  by_cases hj : j = r
  · subst hj
    simp [List.filter_append]
  · have hjr : ¬ r = j := fun h => hj h.symm
    simp [List.filter_append, hj, hjr]

theorem LuaFile.pageOf_beyond (log : List (Nat × LuaFile.Data)) (n : Nat)
    (hlog : ∀ e, e ∈ log → e.1 < n) : LuaFile.pageOf log n = [] := by
  unfold LuaFile.pageOf
  rw [List.map_eq_nil_iff, List.filter_eq_nil_iff]
  intro e he
  have := hlog e he
  simp
  omega

theorem LuaFile.pageOf_length_le (log : List (Nat × LuaFile.Data)) (r : Nat) :
    (LuaFile.pageOf log r).length ≤ log.length := by
  unfold LuaFile.pageOf
  rw [List.length_map]
  exact List.length_filter_le _ _

theorem LuaFile.Session.inv_ctor (self : Nat) : (LuaFile.Session.ctor self).Inv 0 [] :=
  ⟨LuaFile.rep_ctor self _, fun e he => absurd he (List.not_mem_nil e),
    fun it hit => absurd hit (List.not_mem_nil it)⟩

theorem LuaFile.Session.step_inv (s : LuaFile.Session) (n : Nat) (log : List (Nat × LuaFile.Data))
    (c : LuaFile.Call) (hinv : s.Inv n log)
    (hroom : log.length + (if c.isWrite then 1 else 0) ≤ 2 ^ 32 - 1) :
    ∃ s1 n1, s.step c = some s1 ∧ s1.Inv n1 (log ++ s.appends c) ∧
      s1.file.self = s.file.self := by
  obtain ⟨hrep, hlog, hcur⟩ := hinv
  cases c with
  | begin =>
    refine ⟨_, n, rfl, ⟨?_, ?_, ?_⟩, rfl⟩
    · simpa [LuaFile.Session.appends] using hrep
    · simpa [LuaFile.Session.appends] using hlog
    · intro it hit r hr
      rcases List.mem_append.1 hit with h | h
      · exact hcur it h r hr
      · rw [List.mem_singleton] at h
        subst h
        have hfirst := hrep.2.1
        simp only [LuaFile.begin] at hr
        rw [hfirst] at hr
        by_cases hn : n = 0
        · rw [if_pos hn] at hr
          exact Option.noConfusion hr
        · rw [if_neg hn] at hr
          have : r = 0 := (Option.some.inj hr).symm
          omega
  | push k =>
    simp only [LuaFile.Session.step, LuaFile.Session.appends, List.append_nil]
    cases hk : s.cursors[k]? with
    | none => exact ⟨s, n, rfl, ⟨hrep, hlog, hcur⟩, rfl⟩
    | some it =>
      obtain ⟨it1, L1, hpush, hrep1, hself, -, hreg1, -⟩ :=
        LuaFile.iterator.push_of_rep it s.file n _ hrep (LuaFile.pageOf_beyond log n hlog)
      simp only []
      rw [hpush]
      refine ⟨_, n + 1, rfl, ⟨hrep1, ?_, ?_⟩, hself⟩
      · intro e he
        have := hlog e he
        omega
      · intro it2 hit2 r hr
        rcases List.mem_or_eq_of_mem_set hit2 with h | h
        · have := hcur it2 h r hr
          omega
        · subst h
          rw [hreg1] at hr
          by_cases hnone : it.region = none
          · rw [if_pos hnone] at hr
            have : r = n := (Option.some.inj hr).symm
            omega
          · rw [if_neg hnone] at hr
            have := hcur it (List.getElem?_mem hk) r hr
            omega
  | write k start end_ =>
    simp only [LuaFile.Session.step, LuaFile.Session.appends, LuaFile.Session.target]
    cases hk : s.cursors[k]? with
    | none =>
      simp only [List.append_nil]
      exact ⟨s, n, rfl, ⟨hrep, hlog, hcur⟩, rfl⟩
    | some it =>
      simp only []
      cases hreg : it.region with
      | none =>
        rw [LuaFile.iterator.write_of_end it s.file start end_ hreg]
        simp only [List.append_nil]
        exact ⟨s, n, rfl, ⟨hrep, hlog, hcur⟩, rfl⟩
      | some r =>
        have hr : r < n := hcur it (List.getElem?_mem hk) r hreg
        have hlen := LuaFile.pageOf_length_le log r
        simp only [LuaFile.Call.isWrite, if_true] at hroom
        obtain ⟨L1, hw, hself, hrep1⟩ :=
          LuaFile.iterator.write_of_rep it s.file n r _ start end_ hrep hreg hr (by omega)
        rw [hw]
        refine ⟨_, n, rfl, ⟨?_, ?_, hcur⟩, hself⟩
        · rw [LuaFile.pageOf_append_single]
          exact hrep1
        · intro e he
          rcases List.mem_append.1 he with h | h
          · exact hlog e h
          · rw [List.mem_singleton] at h
            subst h
            exact hr

theorem LuaFile.Session.run_inv :
    ∀ (cs : List LuaFile.Call) (s : LuaFile.Session) (n : Nat) (log : List (Nat × LuaFile.Data)),
      s.Inv n log → log.length + cs.countP LuaFile.Call.isWrite ≤ 2 ^ 32 - 1 →
      ∃ s1 n1, s.run cs = some s1 ∧ s1.Inv n1 (log ++ s.appended cs) ∧
        s1.file.self = s.file.self := by
  intro cs
  induction cs with
  | nil =>
    intro s n log hinv _
    exact ⟨s, n, rfl, by simpa [LuaFile.Session.appended] using hinv, rfl⟩
  | cons c cs ih =>
    intro s n log hinv hroom
    rw [List.countP_cons] at hroom
    obtain ⟨s1, n1, hstep, hinv1, hself1⟩ :=
      LuaFile.Session.step_inv s n log c hinv (by
        split <;> simp_all
        all_goals omega)
    have hlen : (s.appends c).length ≤ (if c.isWrite then 1 else 0) := by
      cases c with
      | begin => simp [LuaFile.Session.appends]
      | push k => simp [LuaFile.Session.appends]
      | write k a b =>
        simp only [LuaFile.Session.appends, LuaFile.Call.isWrite, if_true]
        split <;> simp
    obtain ⟨s2, n2, hrun, hinv2, hself2⟩ := ih s1 n1 (log ++ s.appends c) hinv1 (by
      rw [List.length_append]
      split at hlen <;> simp_all
      omega)
    refine ⟨s2, n2, ?_, ?_, by rw [hself2, hself1]⟩
    · simp only [LuaFile.Session.run]
      rw [hstep]
      exact hrun
    · simp only [LuaFile.Session.appended]
      rw [hstep]
      simpa [List.append_assoc] using hinv2

/-! ## Sums over pages and sums over calls -/

theorem LuaFile.spansFrom_eq_range_from (content : Nat → List LuaFile.Data) :
    ∀ c r, LuaFile.spansFrom content c r = ((List.range' r c).map content).flatten := by
  intro c
  induction c with
  | zero => intro r; simp [LuaFile.spansFrom]
  | succ c ih =>
    intro r
    simp only [LuaFile.spansFrom, List.range'_succ, List.map_cons, List.flatten_cons]
    rw [ih (r + 1)]

theorem LuaFile.spansFrom_eq_range (content : Nat → List LuaFile.Data) (n : Nat) :
    LuaFile.spansFrom content n 0 = ((List.range n).map content).flatten := by
  rw [LuaFile.spansFrom_eq_range_from, List.range_eq_range']

theorem LuaFile.pageOf_cons (e : Nat × LuaFile.Data) (log : List (Nat × LuaFile.Data)) (j : Nat) :
    LuaFile.pageOf (e :: log) j =
      if e.1 = j then e.2 :: LuaFile.pageOf log j else LuaFile.pageOf log j := by
  unfold LuaFile.pageOf
  by_cases h : e.1 = j
  · simp [List.filter_cons, h]
  · simp [List.filter_cons, h]

theorem LuaFile.sum_spansFrom_cons (f : LuaFile.Data → Nat) (e : Nat × LuaFile.Data)
    (log : List (Nat × LuaFile.Data)) :
    ∀ c r, ((LuaFile.spansFrom (LuaFile.pageOf (e :: log)) c r).map f).sum =
      ((LuaFile.spansFrom (LuaFile.pageOf log) c r).map f).sum +
        (if r ≤ e.1 ∧ e.1 < r + c then f e.2 else 0) := by
  intro c
  induction c with
  | zero =>
    intro r
    rw [if_neg (by omega)]
    simp [LuaFile.spansFrom]
  | succ c ih =>
    intro r
    simp only [LuaFile.spansFrom, List.map_append, List.sum_append]
    rw [ih (r + 1), LuaFile.pageOf_cons]
    by_cases h1 : e.1 = r
    · rw [if_pos h1, if_neg (by omega), if_pos (by omega)]
      simp only [List.map_cons, List.sum_cons]
      omega
    · rw [if_neg h1]
      by_cases h2 : r + 1 ≤ e.1 ∧ e.1 < r + 1 + c
      · rw [if_pos h2, if_pos (by omega)]
        omega
      · rw [if_neg h2, if_neg (by omega)]
        omega

/-- Summing over the pages, page after page, is summing over the appends. -/
theorem LuaFile.sum_spansFrom_pageOf (f : LuaFile.Data → Nat) (n : Nat) :
    ∀ log : List (Nat × LuaFile.Data), (∀ e, e ∈ log → e.1 < n) →
      ((LuaFile.spansFrom (LuaFile.pageOf log) n 0).map f).sum = (log.map (fun e => f e.2)).sum := by
  intro log
  induction log with
  | nil =>
    intro _
    have : ∀ c r, LuaFile.spansFrom (LuaFile.pageOf []) c r = [] := by
      intro c
      induction c with
      | zero => intro r; rfl
      | succ c ih => intro r; simp [LuaFile.spansFrom, ih, LuaFile.pageOf]
    simp [this]
  | cons e log ih =>
    intro hlog
    have he := hlog e (List.mem_cons_self e log)
    rw [LuaFile.sum_spansFrom_cons, ih (fun x hx => hlog x (List.mem_cons_of_mem e hx)),
      if_pos (by omega)]
    simp only [List.map_cons, List.sum_cons]
    omega

/-- Adding the `size_t` values of the lengths modulo `2 ^ 64` is converting the sum of
the lengths to `size_t`. -/
theorem LuaFile.size_t_sum (vs : List LuaFile.Data) :
    (vs.map (fun v => LuaFile.size_t v.length)).sum % 2 ^ 64 =
      LuaFile.size_t (vs.map (fun v => v.length)).sum := by
  induction vs with
  | nil => simp [LuaFile.size_t]
  | cons v vs ih =>
    simp only [List.map_cons, List.sum_cons]
    unfold LuaFile.size_t at ih ⊢
    omega

theorem LuaFile.length_sum_nonneg (vs : List LuaFile.Data)
    (hvs : ∀ v, v ∈ vs → v.start ≤ v.end_) :
    (vs.map (fun v => v.length)).sum = ((vs.map (fun v => v.end_ - v.start + 1)).sum : Nat) := by
  induction vs with
  | nil => simp
  | cons v vs ih =>
    have hv := hvs v (List.mem_cons_self v vs)
    simp only [List.map_cons, List.sum_cons, Nat.cast_add]
    rw [ih (fun x hx => hvs x (List.mem_cons_of_mem v hx))]
    unfold LuaFile.Data.length
    omega

theorem LuaFile.size_t_natCast (k : Nat) : LuaFile.size_t (k : Int) = k % 2 ^ 64 := by
  unfold LuaFile.size_t
  omega

theorem LuaFile.length_bytes (mem : Nat → LuaFile.Byte) (vs : List LuaFile.Data)
    (hvs : ∀ v, v ∈ vs → v.start ≤ v.end_) :
    (vs.flatMap (fun v => v.bytes mem)).length = (vs.map (fun v => v.end_ - v.start + 1)).sum := by
  induction vs with
  | nil => simp
  | cons v vs ih =>
    have hv := hvs v (List.mem_cons_self v vs)
    simp only [List.flatMap_cons, List.length_append, List.map_cons, List.sum_cons]
    rw [ih (fun x hx => hvs x (List.mem_cons_of_mem v hx))]
    simp only [LuaFile.Data.bytes, List.length_map, List.length_range]
    omega

/-! ## `dump` and `size` after a sequence of calls -/

/-- A span with `end + 1 < start` stops the dump. One cursor opens a page and writes the
spans `[30, 31]`, `[20, 10]` and `[40, 41]`: the write of `[20, 10]` passes the count `-9`
and sets the stream's `badbit`, the write of `[40, 41]` is dropped, and the sink holds the
bytes of `[30, 31]` only. With the spans `[20, 10]` and `[30, 31]` the sink stays empty. -/
theorem LuaFile.dump_after_reversed_span :
    (((LuaFile.ctor 0).begin.execAll (LuaFile.ctor 0)
        [LuaFile.Op.push, LuaFile.Op.write 30 31, LuaFile.Op.write 20 10,
          LuaFile.Op.write 40 41]).bind
      (fun p => (LuaFile.dumpTo LuaFile.sampleMem { bytes := [], bad := false } p.2).map
        (fun q => q.1))) = some { bytes := [30, 31], bad := true } ∧
    (((LuaFile.ctor 0).begin.execAll (LuaFile.ctor 0)
        [LuaFile.Op.push, LuaFile.Op.write 30 31, LuaFile.Op.write 20 10,
          LuaFile.Op.write 40 41]).bind
      (fun p => (p.2.dump LuaFile.sampleMem []).map (fun q => q.1))) = some [30, 31] ∧
    (((LuaFile.Session.ctor 0).run
        [LuaFile.Call.begin, LuaFile.Call.push 0, LuaFile.Call.write 0 20 10,
          LuaFile.Call.write 0 30 31]).bind
      (fun s => (s.file.dump LuaFile.sampleMem []).map (fun q => q.1))) = some [] := by
  decide

/-- C1 as stated fails. Two cursors are taken from the empty document, each opens a page
with `push`, then the second cursor writes `[20, 21]` and after it the first writes
`[10, 11]`: `dump` writes the bytes of `[10, 11]` first, the concatenation in call order
starts with those of `[20, 21]`. -/
theorem LuaFile.dump_not_in_call_order :
    (((LuaFile.Session.ctor 0).run LuaFile.twoCursors).bind
      (fun s => (s.file.dump LuaFile.sampleMem []).map (fun p => p.1))) = some [10, 11, 20, 21] ∧
    (((LuaFile.Session.ctor 0).appended LuaFile.twoCursors).flatMap
      (fun e => e.2.bytes LuaFile.sampleMem)) = [20, 21, 10, 11] ∧
    (((LuaFile.Session.ctor 0).run LuaFile.twoCursors).bind
      (fun s => (s.file.dump LuaFile.sampleMem []).map (fun p => p.1))) ≠
      some (((LuaFile.Session.ctor 0).appended LuaFile.twoCursors).flatMap
        (fun e => e.2.bytes LuaFile.sampleMem)) := by
  decide

/-- C1, amended. For every sequence of `begin`, `push` and `write` calls on an initially
empty `LuaFile` with at most `2 ^ 32 - 1` writes, the calls all complete and, when no
appended span has `end + 1 < start` (the count `end - start + 1` that `dump` passes to
`out.write` is never negative), `dump` writes exactly the bytes of the appended spans, page
after page in the order the pages were created and, within a page, in the order of the
`write` calls that appended to it, and leaves the document as it is. -/
theorem LuaFile.dump_in_page_order (mem : Nat → LuaFile.Byte) (self : Nat)
    (cs : List LuaFile.Call) (hcs : cs.countP LuaFile.Call.isWrite ≤ 2 ^ 32 - 1) :
    ∃ s1, (LuaFile.Session.ctor self).run cs = some s1 ∧
      ((∀ e, e ∈ (LuaFile.Session.ctor self).appended cs → e.2.start ≤ e.2.end_ + 1) →
        s1.file.dump mem [] =
          some ((((List.range s1.file.heap.length).map
            (LuaFile.pageOf ((LuaFile.Session.ctor self).appended cs))).flatten).flatMap
              (fun v => v.bytes mem), s1.file)) := by
  obtain ⟨s1, n1, hrun, ⟨hrep, -, -⟩, -⟩ :=
    LuaFile.Session.run_inv cs (LuaFile.Session.ctor self) 0 []
      (LuaFile.Session.inv_ctor self) (by simpa using hcs)
  rw [List.nil_append] at hrep
  refine ⟨s1, hrun, ?_⟩
  intro hspans
  have hok : ∀ r, r < n1 →
      ∀ v, v ∈ LuaFile.pageOf ((LuaFile.Session.ctor self).appended cs) r →
        v.start ≤ v.end_ + 1 := by
    intro r _ v hv
    obtain ⟨e, he, hev⟩ := LuaFile.mem_pageOf _ r v hv
    rw [← hev]
    exact hspans e he
  rw [LuaFile.dump_of_rep mem [] s1.file n1 _ hrep hok, LuaFile.spansFrom_eq_range, hrep.1,
    List.nil_append]

theorem LuaFile.dump_in_page_order_witness :
    LuaFile.twoCursors.countP LuaFile.Call.isWrite ≤ 2 ^ 32 - 1 ∧
    (∀ e, e ∈ (LuaFile.Session.ctor 0).appended LuaFile.twoCursors → e.2.start ≤ e.2.end_ + 1) ∧
    ∃ s1, (LuaFile.Session.ctor 0).run LuaFile.twoCursors = some s1 ∧
      s1.file.dump LuaFile.sampleMem [] =
        some ((((List.range s1.file.heap.length).map
          (LuaFile.pageOf ((LuaFile.Session.ctor 0).appended LuaFile.twoCursors))).flatten).flatMap
            (fun v => v.bytes LuaFile.sampleMem), s1.file) := by
  obtain ⟨s1, hrun, hdump⟩ :=
    LuaFile.dump_in_page_order LuaFile.sampleMem 0 LuaFile.twoCursors (by decide)
  exact ⟨by decide, by decide, s1, hrun, hdump (by decide)⟩

/-- C2. For every sequence of `begin`, `push` and `write` calls on an initially empty
`LuaFile` with at most `2 ^ 32 - 1` writes: the chain consists of the pages created, from
head to tail, page `r` holding in the slots below its fill exactly the spans appended to it;
`size()` returns the sum of `end - start + 1` over the appended spans, converted to
`size_t`, and changes nothing; when every appended span has `start ≤ end` and the sum is
below `2 ^ 64`, that is the sum itself. -/
theorem LuaFile.size_eq_sum_of_appended (self : Nat) (cs : List LuaFile.Call)
    (hcs : cs.countP LuaFile.Call.isWrite ≤ 2 ^ 32 - 1) :
    ∃ s1, (LuaFile.Session.ctor self).run cs = some s1 ∧
      s1.file.Rep s1.file.heap.length (LuaFile.pageOf ((LuaFile.Session.ctor self).appended cs)) ∧
      s1.file.size =
        some (LuaFile.size_t
          (((LuaFile.Session.ctor self).appended cs).map (fun e => e.2.length)).sum, s1.file) ∧
      ((∀ e, e ∈ (LuaFile.Session.ctor self).appended cs → e.2.start ≤ e.2.end_) →
        (((LuaFile.Session.ctor self).appended cs).map
          (fun e => e.2.end_ - e.2.start + 1)).sum < 2 ^ 64 →
        s1.file.size =
          some ((((LuaFile.Session.ctor self).appended cs).map
            (fun e => e.2.end_ - e.2.start + 1)).sum, s1.file)) := by
  obtain ⟨s1, n1, hrun, ⟨hrep, hlog, -⟩, -⟩ :=
    LuaFile.Session.run_inv cs (LuaFile.Session.ctor self) 0 []
      (LuaFile.Session.inv_ctor self) (by simpa using hcs)
  rw [List.nil_append] at hrep hlog
  have hsize : s1.file.size =
      some (LuaFile.size_t
        (((LuaFile.Session.ctor self).appended cs).map (fun e => e.2.length)).sum, s1.file) := by
    rw [LuaFile.size_of_rep s1.file n1 _ hrep,
      LuaFile.sum_spansFrom_pageOf (fun v => LuaFile.size_t v.length) n1 _ hlog]
    have h := LuaFile.size_t_sum (((LuaFile.Session.ctor self).appended cs).map (fun e => e.2))
    simp only [List.map_map, Function.comp_def] at h
    rw [h]
  refine ⟨s1, hrun, by rw [hrep.1]; exact hrep, hsize, ?_⟩
  intro hpos hfit
  rw [hsize]
  have h := LuaFile.length_sum_nonneg
    (((LuaFile.Session.ctor self).appended cs).map (fun e => e.2)) (by
      intro v hv
      obtain ⟨e, he, rfl⟩ := List.mem_map.1 hv
      exact hpos e he)
  simp only [List.map_map, Function.comp_def] at h
  rw [h, LuaFile.size_t_natCast, Nat.mod_eq_of_lt hfit]

theorem LuaFile.size_eq_sum_of_appended_witness :
    LuaFile.twoCursors.countP LuaFile.Call.isWrite ≤ 2 ^ 32 - 1 ∧
    (∀ e, e ∈ (LuaFile.Session.ctor 0).appended LuaFile.twoCursors → e.2.start ≤ e.2.end_) ∧
    (((LuaFile.Session.ctor 0).appended LuaFile.twoCursors).map
      (fun e => e.2.end_ - e.2.start + 1)).sum < 2 ^ 64 ∧
    ∃ s1, (LuaFile.Session.ctor 0).run LuaFile.twoCursors = some s1 ∧
      s1.file.size = some (4, s1.file) := by
  obtain ⟨s1, hrun, -, -, hexact⟩ :=
    LuaFile.size_eq_sum_of_appended 0 LuaFile.twoCursors (by decide)
  exact ⟨by decide, by decide, by decide, s1, hrun, hexact (by decide) (by decide)⟩

theorem LuaFile.mem_spansFrom (content : Nat → List LuaFile.Data) (v : LuaFile.Data) :
    ∀ c r, v ∈ LuaFile.spansFrom content c r → ∃ j, r ≤ j ∧ j < r + c ∧ v ∈ content j := by
  intro c
  induction c with
  | zero =>
    intro r hv
    exact absurd hv (List.not_mem_nil v)
  | succ c ih =>
    intro r hv
    simp only [LuaFile.spansFrom] at hv
    rcases List.mem_append.1 hv with h | h
    · exact ⟨r, by omega, by omega, h⟩
    · obtain ⟨j, h1, h2, h3⟩ := ih (r + 1) h
      exact ⟨j, by omega, by omega, h3⟩

/-- C3. On a document whose chain is well formed (`n` pages linked from head to tail, page
`r` holding the spans `content r`) and whose live spans all have `start ≤ end`, `dump`
appends some bytes to the sink and `size()` returns their number as a `size_t`: their
number modulo `2 ^ 64`, which is their number whenever that is below `2 ^ 64`. Neither call
changes the document. -/
theorem LuaFile.dump_length_eq_size (mem : Nat → LuaFile.Byte) (out : List LuaFile.Byte)
    (L : LuaFile) (n : Nat) (content : Nat → List LuaFile.Data) (hrep : L.Rep n content)
    (hlive : ∀ r, r < n → ∀ v, v ∈ content r → v.start ≤ v.end_) :
    ∃ written, L.dump mem out = some (out ++ written, L) ∧
      L.size = some (written.length % 2 ^ 64, L) ∧
      (written.length < 2 ^ 64 → L.size = some (written.length, L)) := by
  have hall : ∀ v, v ∈ LuaFile.spansFrom content n 0 → v.start ≤ v.end_ := by
    intro v hv
    obtain ⟨j, -, hj, hvj⟩ := LuaFile.mem_spansFrom content v n 0 hv
    exact hlive j (by omega) v hvj
  have hsize : L.size =
      some (((LuaFile.spansFrom content n 0).flatMap (fun v => v.bytes mem)).length % 2 ^ 64,
        L) := by
    rw [LuaFile.size_of_rep L n content hrep, LuaFile.size_t_sum,
      LuaFile.length_sum_nonneg _ hall, LuaFile.size_t_natCast, LuaFile.length_bytes mem _ hall]
  refine ⟨_, LuaFile.dump_of_rep mem out L n content hrep
    (fun r hr v hv => Nat.le_succ_of_le (hlive r hr v hv)), hsize, ?_⟩
  intro hfit
  rw [hsize, Nat.mod_eq_of_lt hfit]

theorem LuaFile.rep_sampleFile : LuaFile.sampleFile.Rep 2 LuaFile.sampleContent := by
  refine ⟨rfl, rfl, rfl, ?_⟩
  intro r hr
  have hcases : r = 0 ∨ r = 1 := by omega
  rcases hcases with h | h
  · subst h
    refine ⟨_, rfl, ⟨by decide, by decide, by decide⟩, rfl, ?_⟩
    intro i hi
    have hi2 : i = 0 ∨ i = 1 := by
      simp [LuaFile.sampleContent] at hi
      omega
    rcases hi2 with h | h <;> subst h <;> rfl
  · subst h
    refine ⟨_, rfl, ⟨by decide, by decide, by decide⟩, rfl, ?_⟩
    intro i hi
    have hi2 : i = 0 := by
      simp [LuaFile.sampleContent] at hi
      omega
    subst hi2
    rfl

theorem LuaFile.live_sampleContent :
    ∀ r, r < 2 → ∀ v, v ∈ LuaFile.sampleContent r → v.start ≤ v.end_ := by
  intro r hr v hv
  have hcases : r = 0 ∨ r = 1 := by omega
  rcases hcases with h | h <;> subst h <;> simp [LuaFile.sampleContent] at hv
  · rcases hv with h | h <;> subst h <;> decide
  · subst hv
    decide

theorem LuaFile.dump_length_eq_size_witness :
    LuaFile.sampleFile.Rep 2 LuaFile.sampleContent ∧
    (∀ r, r < 2 → ∀ v, v ∈ LuaFile.sampleContent r → v.start ≤ v.end_) ∧
    ∃ written, LuaFile.sampleFile.dump LuaFile.sampleMem [] = some ([] ++ written, LuaFile.sampleFile) ∧
      written = [10, 11, 12, 13, 14, 20, 30, 31, 32] ∧
      LuaFile.sampleFile.size = some (written.length % 2 ^ 64, LuaFile.sampleFile) ∧
      written.length < 2 ^ 64 ∧
      LuaFile.sampleFile.size = some (written.length, LuaFile.sampleFile) := by
  obtain ⟨written, hdump, hsize, hexact⟩ :=
    LuaFile.dump_length_eq_size LuaFile.sampleMem [] LuaFile.sampleFile 2 LuaFile.sampleContent
      LuaFile.rep_sampleFile LuaFile.live_sampleContent
  have hval : (LuaFile.sampleFile.dump LuaFile.sampleMem []).map (fun p => p.1)
      = some [10, 11, 12, 13, 14, 20, 30, 31, 32] := by decide
  rw [hdump] at hval
  have hw : written = [10, 11, 12, 13, 14, 20, 30, 31, 32] := by simpa using hval
  have hfit : written.length < 2 ^ 64 := by
    rw [hw]
    decide
  exact ⟨LuaFile.rep_sampleFile, LuaFile.live_sampleContent, written, hdump, hw, hsize, hfit,
    hexact hfit⟩


/-! ## The empty document -/

/-- C5. A newly constructed `LuaFile` has `size() == 0`, `dump` writes nothing to the sink,
and the cursor that `begin()` returns is at the end; `end()` is true exactly for a cursor
without a current page. -/
theorem LuaFile.ctor_is_empty (self : Nat) (mem : Nat → LuaFile.Byte) (out : List LuaFile.Byte) :
    (LuaFile.ctor self).size = some (0, LuaFile.ctor self) ∧
    (LuaFile.ctor self).dump mem out = some (out, LuaFile.ctor self) ∧
    (LuaFile.ctor self).begin.end_ = true ∧
    ∀ it : LuaFile.iterator, it.end_ = true ↔ it.region = none := by
  refine ⟨rfl, rfl, rfl, ?_⟩
  intro it
  simp [LuaFile.iterator.end_]

/-! ## Calls through one cursor -/

theorem LuaFile.onFirst_append (vs : List LuaFile.Data) (v : LuaFile.Data) :
    (fun j => if j = 0 then LuaFile.onFirst vs 0 ++ [v] else LuaFile.onFirst vs j) =
      LuaFile.onFirst (vs ++ [v]) := by
  funext j
  unfold LuaFile.onFirst
  by_cases hj : j = 0
  · simp [hj]
  · simp [hj]

theorem LuaFile.spansFrom_onFirst_tail (vs : List LuaFile.Data) :
    ∀ c r, 1 ≤ r → LuaFile.spansFrom (LuaFile.onFirst vs) c r = [] := by
  intro c
  induction c with
  | zero => intro r _; rfl
  | succ c ih =>
    intro r hr
    simp only [LuaFile.spansFrom]
    rw [ih (r + 1) (by omega)]
    simp [LuaFile.onFirst]
    omega

theorem LuaFile.spansFrom_onFirst (vs : List LuaFile.Data) (n : Nat) (hn : n = 0 → vs = []) :
    LuaFile.spansFrom (LuaFile.onFirst vs) n 0 = vs := by
  cases n with
  | zero => rw [hn rfl]; rfl
  | succ k =>
    simp only [LuaFile.spansFrom]
    rw [LuaFile.spansFrom_onFirst_tail vs k 1 (by omega)]
    simp [LuaFile.onFirst]

/-- A cursor on the first page stays there: every later `write` appends to the first
page, every later `push` adds an empty page. -/
theorem LuaFile.iterator.execAll_on_first :
    ∀ (os : List LuaFile.Op) (it : LuaFile.iterator) (L : LuaFile) (n : Nat)
      (vs : List LuaFile.Data),
      it.region = some 0 → L.Rep n (LuaFile.onFirst vs) → 1 ≤ n →
      vs.length + os.countP LuaFile.Op.isWrite ≤ 2 ^ 32 - 1 →
      ∃ it1 L1 n1, it.execAll L os = some (it1, L1) ∧ it1.region = some 0 ∧
        it1.word = it.word ∧
        L1.Rep n1 (LuaFile.onFirst (vs ++ LuaFile.Op.appended true os)) ∧ 1 ≤ n1 := by
  intro os
  induction os with
  | nil =>
    intro it L n vs hreg hrep hn _
    exact ⟨it, L, n, rfl, hreg, rfl, by simpa [LuaFile.Op.appended] using hrep, hn⟩
  | cons o os ih =>
    intro it L n vs hreg hrep hn hroom
    rw [List.countP_cons] at hroom
    cases o with
    | push =>
      have hnew : LuaFile.onFirst vs n = [] := by
        unfold LuaFile.onFirst
        rw [if_neg (by omega)]
      obtain ⟨it1, L1, hpush, hrep1, -, -, hreg1, hword1⟩ :=
        LuaFile.iterator.push_of_rep it L n _ hrep hnew
      rw [hreg] at hreg1 hword1
      simp only [if_neg (Option.some_ne_none 0)] at hreg1 hword1
      obtain ⟨it2, L2, n2, hexec, hreg2, hword2, hrep2, hn2⟩ :=
        ih it1 L1 (n + 1) vs hreg1 hrep1 (by omega) (by
          simp only [LuaFile.Op.isWrite] at hroom
          simpa using hroom)
      refine ⟨it2, L2, n2, ?_, hreg2, by rw [hword2, hword1], ?_, hn2⟩
      · simp only [LuaFile.iterator.execAll, LuaFile.iterator.exec]
        rw [hpush]
        exact hexec
      · simpa [LuaFile.Op.appended] using hrep2
    | write a b =>
      simp only [LuaFile.Op.isWrite, if_true] at hroom
      obtain ⟨L1, hw, -, hrep1⟩ :=
        LuaFile.iterator.write_of_rep it L n 0 _ a b hrep hreg (by omega) (by
          simp only [LuaFile.onFirst, if_true]
          omega)
      rw [LuaFile.onFirst_append] at hrep1
      obtain ⟨it2, L2, n2, hexec, hreg2, hword2, hrep2, hn2⟩ :=
        ih it L1 n (vs ++ [{ start := a, end_ := b }]) hreg hrep1 hn (by
          rw [List.length_append, List.length_singleton]
          omega)
      refine ⟨it2, L2, n2, ?_, hreg2, hword2, ?_, hn2⟩
      · simp only [LuaFile.iterator.execAll, LuaFile.iterator.exec]
        rw [hw]
        exact hexec
      · simpa [LuaFile.Op.appended, List.append_assoc] using hrep2

/-- The state after a sequence of calls through one cursor obtained from the empty
document: all appended spans are on the first page, in call order. -/
theorem LuaFile.iterator.execAll_from_empty :
    ∀ (os : List LuaFile.Op) (it : LuaFile.iterator) (L : LuaFile),
      it.region = none → it.word = 0 → L.Rep 0 (LuaFile.onFirst []) →
      os.countP LuaFile.Op.isWrite ≤ 2 ^ 32 - 1 →
      ∃ it1 L1 n1, it.execAll L os = some (it1, L1) ∧
        L1.Rep n1 (LuaFile.onFirst (LuaFile.Op.appended false os)) ∧
        (n1 = 0 → LuaFile.Op.appended false os = []) ∧
        (1 ≤ n1 → it1.region = some 0 ∧ it1.word = 0) := by
  intro os
  induction os with
  | nil =>
    intro it L hreg _ hrep _
    exact ⟨it, L, 0, rfl, hrep, fun _ => rfl, fun h => absurd h (by omega)⟩
  | cons o os ih =>
    intro it L hreg hword hrep hroom
    rw [List.countP_cons] at hroom
    cases o with
    | push =>
      obtain ⟨it1, L1, hpush, hrep1, -, -, hreg1, hword1⟩ :=
        LuaFile.iterator.push_of_rep it L 0 _ hrep rfl
      rw [hreg] at hreg1 hword1
      simp only [if_true] at hreg1 hword1
      obtain ⟨it2, L2, n2, hexec, hreg2, hword2, hrep2, hn2⟩ :=
        LuaFile.iterator.execAll_on_first os it1 L1 1 [] hreg1 hrep1 (by omega) (by
          simp only [LuaFile.Op.isWrite] at hroom
          simpa using hroom)
      refine ⟨it2, L2, n2, ?_, ?_, fun h => absurd h (by omega),
        fun _ => ⟨hreg2, by rw [hword2, hword1]⟩⟩
      · simp only [LuaFile.iterator.execAll, LuaFile.iterator.exec]
        rw [hpush]
        exact hexec
      · simpa [LuaFile.Op.appended] using hrep2
    | write a b =>
      simp only [LuaFile.Op.isWrite, if_true] at hroom
      obtain ⟨it2, L2, n2, hexec, hrep2, hn2, hreg2⟩ := ih it L hreg hword hrep (by omega)
      refine ⟨it2, L2, n2, ?_, ?_, ?_, hreg2⟩
      · simp only [LuaFile.iterator.execAll, LuaFile.iterator.exec]
        rw [LuaFile.iterator.write_of_end it L a b hreg]
        exact hexec
      · simpa [LuaFile.Op.appended] using hrep2
      · simpa [LuaFile.Op.appended] using hn2

/-- The document that one cursor obtained from a new `LuaFile` builds. -/
theorem LuaFile.built_by_one_cursor (self : Nat) (os : List LuaFile.Op)
    (hos : os.countP LuaFile.Op.isWrite ≤ 2 ^ 32 - 1) :
    ∃ it1 L1 n1, (LuaFile.ctor self).begin.execAll (LuaFile.ctor self) os = some (it1, L1) ∧
      L1.Rep n1 (LuaFile.onFirst (LuaFile.Op.appended false os)) ∧
      LuaFile.spansFrom (LuaFile.onFirst (LuaFile.Op.appended false os)) n1 0 =
        LuaFile.Op.appended false os ∧
      (1 ≤ n1 → it1.region = some 0 ∧ it1.word = 0) := by
  obtain ⟨it1, L1, n1, hexec, hrep, hn, hreg⟩ :=
    LuaFile.iterator.execAll_from_empty os (LuaFile.ctor self).begin (LuaFile.ctor self)
      rfl rfl (LuaFile.rep_ctor self _) hos
  exact ⟨it1, L1, n1, hexec, hrep, LuaFile.spansFrom_onFirst _ n1 hn, hreg⟩

/-- C6. For every sequence of `push` and `write` calls (at most `2 ^ 32 - 1` writes) made
through one cursor obtained from `begin()` on an empty `LuaFile`, the calls all complete
and, when no appended span has `end + 1 < start` (the count `end - start + 1` that `dump`
passes to `out.write` is never negative), `dump` writes the bytes of the appended spans in
call order. In the scenario (a `push`, spans of the lengths 5, 1 and 10, a second `push`, a
span of length 3; the spans anywhere in memory) `size()` is 19 and `dump` writes the four
fragments in that order. -/
theorem LuaFile.one_cursor_dump (mem : Nat → LuaFile.Byte) (self : Nat) :
    (∀ os : List LuaFile.Op, os.countP LuaFile.Op.isWrite ≤ 2 ^ 32 - 1 →
      ∃ it1 L1, (LuaFile.ctor self).begin.execAll (LuaFile.ctor self) os = some (it1, L1) ∧
        ((∀ v, v ∈ LuaFile.Op.appended false os → v.start ≤ v.end_ + 1) →
          L1.dump mem [] =
            some ((LuaFile.Op.appended false os).flatMap (fun v => v.bytes mem), L1))) ∧
    (∀ a b c d : Nat,
      ∃ it1 L1, (LuaFile.ctor self).begin.execAll (LuaFile.ctor self) (LuaFile.scenario a b c d)
          = some (it1, L1) ∧
        L1.size = some (19, L1) ∧
        L1.dump mem [] =
          some (LuaFile.Data.bytes mem { start := a, end_ := a + 4 } ++
            LuaFile.Data.bytes mem { start := b, end_ := b } ++
            LuaFile.Data.bytes mem { start := c, end_ := c + 9 } ++
            LuaFile.Data.bytes mem { start := d, end_ := d + 2 }, L1)) := by
  constructor
  · intro os hos
    obtain ⟨it1, L1, n1, hexec, hrep, hspans, -⟩ := LuaFile.built_by_one_cursor self os hos
    refine ⟨it1, L1, hexec, ?_⟩
    intro hok
    rw [LuaFile.dump_of_rep mem [] L1 n1 _ hrep
      (fun r _ v hv => hok v (LuaFile.mem_onFirst _ r v hv)), hspans, List.nil_append]
  · intro a b c d
    obtain ⟨it1, L1, n1, hexec, hrep, hspans, -⟩ :=
      LuaFile.built_by_one_cursor self (LuaFile.scenario a b c d) (by
        simp [LuaFile.scenario, List.countP_cons, LuaFile.Op.isWrite])
    have hok : ∀ v, v ∈ LuaFile.Op.appended false (LuaFile.scenario a b c d) →
        v.start ≤ v.end_ + 1 := by
      intro v hv
      simp only [LuaFile.scenario, LuaFile.Op.appended, List.mem_cons, List.mem_nil_iff,
        or_false] at hv
      rcases hv with h | h | h | h <;> subst h <;> simp only [] <;> omega
    refine ⟨it1, L1, hexec, ?_, ?_⟩
    · rw [LuaFile.size_of_rep L1 n1 _ hrep, hspans]
      simp only [LuaFile.scenario, LuaFile.Op.appended, List.map_cons, List.map_nil,
        List.sum_cons, List.sum_nil, LuaFile.size_t, LuaFile.Data.length]
      congr 2
      omega
    · rw [LuaFile.dump_of_rep mem [] L1 n1 _ hrep
        (fun r _ v hv => hok v (LuaFile.mem_onFirst _ r v hv)), hspans]
      simp [LuaFile.scenario, LuaFile.Op.appended, List.flatMap_cons]

theorem LuaFile.one_cursor_dump_witness :
    LuaFile.twoFragments.countP LuaFile.Op.isWrite ≤ 2 ^ 32 - 1 ∧
    (∀ v, v ∈ LuaFile.Op.appended false LuaFile.twoFragments → v.start ≤ v.end_ + 1) ∧
    ∃ it1 L1, (LuaFile.ctor 0).begin.execAll (LuaFile.ctor 0) LuaFile.twoFragments
        = some (it1, L1) ∧
      L1.dump LuaFile.sampleMem [] =
        some ((LuaFile.Op.appended false LuaFile.twoFragments).flatMap
          (fun v => v.bytes LuaFile.sampleMem), L1) := by
  obtain ⟨it1, L1, hexec, hdump⟩ :=
    (LuaFile.one_cursor_dump LuaFile.sampleMem 0).1 LuaFile.twoFragments (by decide)
  exact ⟨by decide, by decide, it1, L1, hexec, hdump (by decide)⟩

/-! ## Traversal -/

/-- On a first page that holds a span, `getNext` leaves a cursor at its first span where
it is. -/
theorem LuaFile.iterator.getNext_on_first (it : LuaFile.iterator) (L : LuaFile) (n : Nat)
    (content : Nat → List LuaFile.Data) (hrep : L.Rep n content) (hn : 1 ≤ n)
    (hne : content 0 ≠ []) (hreg : it.region = some 0) (hword : it.word = 0) :
    it.getNext L = some it := by
  obtain ⟨-, -, -, hcell⟩ := hrep
  obtain ⟨d, hd, -, hpos, -⟩ := hcell 0 (by omega)
  have hpos0 : d.pos ≠ 0 := by
    rw [hpos]
    exact fun h => hne (List.eq_nil_of_length_eq_zero h)
  have hderef := LuaFile.Heap.deref_of_cell L.heap 0 _ hd
  have hloop : LuaFile.iterator.getNextLoop L.heap 0 L.heap.length (some 0) = some (some 0) := by
    unfold LuaFile.iterator.getNextLoop
    rw [hderef]
    simp only []
    rw [if_neg hpos0]
  unfold LuaFile.iterator.getNext
  rw [hreg]
  simp only []
  rw [hderef]
  simp only []
  rw [if_pos hpos0, hword, hloop]
  cases it
  simp_all

theorem LuaFile.iterator.advance_on_first (it : LuaFile.iterator) (L : LuaFile) (n : Nat)
    (content : Nat → List LuaFile.Data) (hrep : L.Rep n content) (hn : 1 ≤ n)
    (hne : content 0 ≠ []) (hreg : it.region = some 0) (hword : it.word = 0) :
    ∀ k, LuaFile.iterator.advance L k it = some it := by
  intro k
  induction k with
  | zero => rfl
  | succ k ih =>
    simp only [LuaFile.iterator.advance, LuaFile.iterator.operator_inc]
    rw [LuaFile.iterator.getNext_on_first it L n content hrep hn hne hreg hword]
    exact ih

/-- A cursor at the first span of the first page reads that span and changes nothing. -/
theorem LuaFile.iterator.addr_size_on_first (it : LuaFile.iterator) (L : LuaFile) (n : Nat)
    (content : Nat → List LuaFile.Data) (v : LuaFile.Data) (hrep : L.Rep n content) (hn : 1 ≤ n)
    (hv : (content 0)[0]? = some v) (hreg : it.region = some 0) (hword : it.word = 0) :
    it.addr L = some (v.start, L) ∧ it.size L = some (LuaFile.size_t v.length, L) := by
  obtain ⟨-, -, -, hcell⟩ := hrep
  obtain ⟨d, hd, hholds⟩ := hcell 0 (by omega)
  have hderef := LuaFile.Heap.deref_of_cell L.heap 0 _ hd
  have hread := LuaFile.DynamicArray.read_of_holds d (content 0) 0 v hholds hv
  constructor
  · unfold LuaFile.iterator.addr
    rw [hreg]
    simp only []
    rw [hderef]
    simp only [hword, Nat.zero_mod]
    rw [hread]
    simp only []
    rw [LuaFile.Heap.set_same L.heap 0 _ hd]
  · unfold LuaFile.iterator.size
    rw [hreg]
    simp only []
    rw [hderef]
    simp only [hword, Nat.zero_mod]
    rw [hread]
    simp only []
    rw [hread]
    simp only []
    rw [LuaFile.Heap.set_same L.heap 0 _ hd]
    rfl

theorem LuaFile.traverse_on_first (mem : Nat → LuaFile.Byte) (it : LuaFile.iterator)
    (L : LuaFile) (n : Nat) (content : Nat → List LuaFile.Data) (v : LuaFile.Data)
    (hrep : L.Rep n content) (hn : 1 ≤ n) (hv : (content 0)[0]? = some v)
    (hreg : it.region = some 0) (hword : it.word = 0) :
    ∀ fuel out, LuaFile.traverse mem fuel it L out = none := by
  have hne : content 0 ≠ [] := by
    intro h
    rw [h] at hv
    exact Option.noConfusion hv
  obtain ⟨haddr, hsize⟩ :=
    LuaFile.iterator.addr_size_on_first it L n content v hrep hn hv hreg hword
  have hend : it.end_ = false := by
    simp [LuaFile.iterator.end_, hreg]
  have hto : ∀ fuel out, LuaFile.traverseTo mem fuel it L out = none := by
    intro fuel
    induction fuel with
    | zero =>
      intro out
      unfold LuaFile.traverseTo
      simp [hend]
    | succ fuel ih =>
      intro out
      unfold LuaFile.traverseTo
      simp only [hend, Bool.false_eq_true, if_false]
      rw [haddr]
      simp only []
      rw [hsize]
      simp only [LuaFile.iterator.operator_inc]
      rw [LuaFile.iterator.getNext_on_first it L n content hrep hn hne hreg hword]
      exact ih _
  intro fuel out
  unfold LuaFile.traverse
  rw [hto]

/-- C4 fails on the code. One cursor builds a document of the two fragments `[10, 14]` and
`[20, 22]`; `dump` writes their eight bytes. A cursor from `begin()` is not at the end, it
reads the first fragment, and after any number of `operator++` calls it is the same
cursor: the round trip reads the first fragment again and again, never reaches the second
one and never ends. -/
theorem LuaFile.round_trip_never_ends :
    ∃ it L, (LuaFile.ctor 0).begin.execAll (LuaFile.ctor 0) LuaFile.twoFragments = some (it, L) ∧
      L.dump LuaFile.sampleMem [] = some ([10, 11, 12, 13, 14, 20, 21, 22], L) ∧
      L.begin.end_ = false ∧
      L.begin.addr L = some (10, L) ∧ L.begin.size L = some (5, L) ∧
      (∀ k, LuaFile.iterator.advance L k L.begin = some L.begin) ∧
      (∀ fuel out, LuaFile.traverse LuaFile.sampleMem fuel L.begin L out = none) := by
  obtain ⟨it, L, n, hexec, hrep, hspans, -⟩ :=
    LuaFile.built_by_one_cursor 0 LuaFile.twoFragments (by decide)
  have hn : 1 ≤ n := by
    by_contra hcon
    have h0 : n = 0 := by omega
    subst h0
    exact absurd hspans (by decide)
  have hreg : L.begin.region = some 0 := by
    show L.file.first = some 0
    rw [hrep.2.1, if_neg (by omega)]
  have hv : (LuaFile.onFirst (LuaFile.Op.appended false LuaFile.twoFragments) 0)[0]?
      = some { start := 10, end_ := 14 } := by decide
  obtain ⟨haddr, hsize⟩ :=
    LuaFile.iterator.addr_size_on_first L.begin L n _ _ hrep hn hv hreg rfl
  refine ⟨it, L, hexec, ?_, ?_, haddr, hsize, ?_, ?_⟩
  · rw [LuaFile.dump_of_rep LuaFile.sampleMem [] L n _ hrep
      (fun r _ v hv => (by decide : ∀ w, w ∈ LuaFile.Op.appended false LuaFile.twoFragments →
        w.start ≤ w.end_ + 1) v (LuaFile.mem_onFirst _ r v hv)), hspans]
    have : ([] : List LuaFile.Byte) ++ (LuaFile.Op.appended false LuaFile.twoFragments).flatMap
        (fun v => v.bytes LuaFile.sampleMem) = [10, 11, 12, 13, 14, 20, 21, 22] := by decide
    rw [this]
  · simp [LuaFile.iterator.end_, hreg]
  · exact LuaFile.iterator.advance_on_first L.begin L n _ hrep hn
      (by decide) hreg rfl
  · exact LuaFile.traverse_on_first LuaFile.sampleMem L.begin L n _ _ hrep hn hv hreg rfl

/-! ## The invariant of a page -/

/-- The class invariant survives `operator[]` on any index, and the fill is kept. -/
theorem LuaFile.DynamicArray.valid_operator_index_any (d : LuaFile.DynamicArray) (index : Nat)
    (hd : d.Valid) :
    ∃ d1, d.operator_index index = some d1 ∧ d1.Valid ∧ d1.pos = d.pos := by
  by_cases hi : index < 2 ^ 32
  · obtain ⟨d1, h1, hv, -, hp⟩ := LuaFile.DynamicArray.valid_operator_index d index hd hi
    exact ⟨d1, h1, hv, hp⟩
  · obtain ⟨h4, hmax, hps⟩ := hd
    have hmod : (index <<< 1) % 2 ^ 32 < 2 ^ 32 := Nat.mod_lt _ (by decide)
    unfold LuaFile.DynamicArray.operator_index
    rw [if_pos (show index ≥ d.size by omega), if_neg (by omega)]
    unfold LuaFile.DynamicArray.resize
    rw [if_pos hmax]
    refine ⟨_, rfl, ⟨?_, ?_, ?_⟩, rfl⟩
    · show 4 ≤ 2 ^ 32 - 1
      decide
    · show 2 ^ 32 - 1 ≤ 2 ^ 32 - 1
      decide
    · show d.pos ≤ 2 ^ 32 - 1
      omega

/-- A page whose fill is `2 ^ 32 - 1` has no slot left: `push_back` stores outside the
array. -/
theorem LuaFile.DynamicArray.push_back_full (d : LuaFile.DynamicArray) (v : LuaFile.Data)
    (hd : d.Valid) (hfull : ¬ d.pos < 2 ^ 32 - 1) : d.push_back v = none := by
  obtain ⟨h4, hmax, hps⟩ := hd
  have hpos : d.pos = 2 ^ 32 - 1 := by omega
  have hsize : d.size = 2 ^ 32 - 1 := by omega
  unfold LuaFile.DynamicArray.push_back
  rw [LuaFile.DynamicArray.operator_index_grow
    { size := d.size, pos := (d.pos + 1) % 2 ^ 32, arr := d.arr } d.pos
    (by omega) (by omega) (by show d.size ≤ d.pos; omega)]
  simp only [LuaFile.DynamicArray.store]
  rw [if_neg (by rw [hpos]; decide)]

theorem LuaFile.DynamicArray.valid_apply (d d1 : LuaFile.DynamicArray) (o : LuaFile.PageOp)
    (hd : d.Valid) (h : d.apply o = some d1) : d1.Valid := by
  cases o with
  | index i =>
    obtain ⟨d2, h2, hv, -⟩ := LuaFile.DynamicArray.valid_operator_index_any d i hd
    simp only [LuaFile.DynamicArray.apply] at h
    rw [h2] at h
    cases h
    exact hv
  | push_back v =>
    simp only [LuaFile.DynamicArray.apply] at h
    by_cases hf : d.pos < 2 ^ 32 - 1
    · obtain ⟨d2, h2, hv, -⟩ := LuaFile.DynamicArray.push_back_eq d v hd hf
      rw [h2] at h
      cases h
      exact hv
    · rw [LuaFile.DynamicArray.push_back_full d v hd hf] at h
      exact Option.noConfusion h

theorem LuaFile.DynamicArray.valid_applyAll :
    ∀ (os : List LuaFile.PageOp) (d d1 : LuaFile.DynamicArray),
      d.Valid → d.applyAll os = some d1 → d1.Valid := by
  intro os
  induction os with
  | nil =>
    intro d d1 hd h
    simp only [LuaFile.DynamicArray.applyAll] at h
    cases h
    exact hd
  | cons o os ih =>
    intro d d1 hd h
    simp only [LuaFile.DynamicArray.applyAll] at h
    cases ho : d.apply o with
    | none =>
      rw [ho] at h
      exact Option.noConfusion h
    | some d2 =>
      rw [ho] at h
      exact ih d2 d1 (LuaFile.DynamicArray.valid_apply d d2 o hd ho) h

theorem LuaFile.DynamicArray.applyAll_defined :
    ∀ (os : List LuaFile.PageOp) (d : LuaFile.DynamicArray),
      d.Valid → d.pos + os.countP LuaFile.PageOp.isPushBack ≤ 2 ^ 32 - 1 →
      ∃ d1, d.applyAll os = some d1 ∧ d1.Valid ∧
        d1.pos = d.pos + os.countP LuaFile.PageOp.isPushBack := by
  intro os
  induction os with
  | nil =>
    intro d hd _
    exact ⟨d, rfl, hd, by simp⟩
  | cons o os ih =>
    intro d hd hroom
    rw [List.countP_cons] at hroom
    cases o with
    | index i =>
      obtain ⟨d2, h2, hv, hp⟩ := LuaFile.DynamicArray.valid_operator_index_any d i hd
      simp only [LuaFile.PageOp.isPushBack] at hroom
      obtain ⟨d3, h3, hv3, hp3⟩ := ih d2 hv (by rw [hp]; simpa using hroom)
      refine ⟨d3, ?_, hv3, ?_⟩
      · simp only [LuaFile.DynamicArray.applyAll, LuaFile.DynamicArray.apply]
        rw [h2]
        exact h3
      · rw [hp3, hp, List.countP_cons]
        simp [LuaFile.PageOp.isPushBack]
    | push_back v =>
      simp only [LuaFile.PageOp.isPushBack, if_true] at hroom
      obtain ⟨d2, h2, hv, hp, -⟩ := LuaFile.DynamicArray.push_back_eq d v hd (by omega)
      obtain ⟨d3, h3, hv3, hp3⟩ := ih d2 hv (by rw [hp]; omega)
      refine ⟨d3, ?_, hv3, ?_⟩
      · simp only [LuaFile.DynamicArray.applyAll, LuaFile.DynamicArray.apply]
        rw [h2]
        exact h3
      · rw [hp3, hp, List.countP_cons]
        simp only [LuaFile.PageOp.isPushBack, if_true]
        omega

/-- C11. Page invariant. Whatever sequence of `operator[]` and `push_back` calls follows
the constructor, every page it produces has `0 ≤ fill ≤ capacity`; and the sequence does
produce a page, whose fill is the number of `push_back` calls, as long as these are at most
`2 ^ 32 - 1`. -/
theorem LuaFile.DynamicArray.fill_le_capacity (os : List LuaFile.PageOp) :
    (∀ d, LuaFile.DynamicArray.ctor.applyAll os = some d → 0 ≤ d.pos ∧ d.pos ≤ d.size) ∧
    (os.countP LuaFile.PageOp.isPushBack ≤ 2 ^ 32 - 1 →
      ∃ d, LuaFile.DynamicArray.ctor.applyAll os = some d ∧ 0 ≤ d.pos ∧ d.pos ≤ d.size ∧
        d.pos = os.countP LuaFile.PageOp.isPushBack) := by
  constructor
  · intro d h
    exact ⟨Nat.zero_le _,
      (LuaFile.DynamicArray.valid_applyAll os _ d LuaFile.DynamicArray.valid_ctor h).2.2⟩
  · intro hroom
    obtain ⟨d, h, hv, hp⟩ :=
      LuaFile.DynamicArray.applyAll_defined os LuaFile.DynamicArray.ctor
        LuaFile.DynamicArray.valid_ctor (by
          show 0 + _ ≤ _
          omega)
    refine ⟨d, h, Nat.zero_le _, hv.2.2, ?_⟩
    rw [hp]
    show 0 + _ = _
    omega

theorem LuaFile.DynamicArray.fill_le_capacity_witness :
    LuaFile.samplePageOps.countP LuaFile.PageOp.isPushBack ≤ 2 ^ 32 - 1 ∧
    ∃ d, LuaFile.DynamicArray.ctor.applyAll LuaFile.samplePageOps = some d ∧
      0 ≤ d.pos ∧ d.pos ≤ d.size ∧
      d.pos = LuaFile.samplePageOps.countP LuaFile.PageOp.isPushBack :=
  ⟨by decide, (LuaFile.DynamicArray.fill_le_capacity LuaFile.samplePageOps).2 (by decide)⟩

/-! ## The chain under `push` and `pop` -/

/-- C12 fails on the code. On a new queue, `push()` then `pop()` leaves no page (`first`
is null) but `last` still holds the address of the node just deleted; a further `push()`
then goes through `last->next` of that deleted node instead of making the new page the
head. All three calls are evaluated here. -/
theorem LuaFile.Queue.pop_leaves_last_dangling :
    ∃ h q, LuaFile.Queue.execAll [] LuaFile.Queue.ctor [.push, .pop] = some (h, q) ∧
      q.first = none ∧ q.last = some 0 ∧ h.deref 0 = none ∧
      LuaFile.Queue.exec h q .push = none ∧
      LuaFile.Queue.execAll [] LuaFile.Queue.ctor [.push, .pop, .push] = none :=
  ⟨_, _, rfl, rfl, rfl, rfl, rfl, rfl⟩

theorem LuaFile.Heap.chain_unique (h : LuaFile.Heap) :
    ∀ (l1 l2 : List (Nat × LuaFile.DynamicArray)) (p : Option Nat),
      h.Chain p l1 → h.Chain p l2 → l1 = l2 := by
  intro l1
  induction l1 with
  | nil =>
    intro l2 p h1 h2
    cases l2 with
    | nil => rfl
    | cons x l2 =>
      obtain ⟨a, d⟩ := x
      simp only [LuaFile.Heap.Chain] at h1 h2
      rw [h1] at h2
      exact Option.noConfusion h2.1
  | cons x l1 ih =>
    intro l2 p h1 h2
    obtain ⟨a, d⟩ := x
    simp only [LuaFile.Heap.Chain] at h1
    obtain ⟨hp, nx, hcell, hrest⟩ := h1
    cases l2 with
    | nil =>
      simp only [LuaFile.Heap.Chain] at h2
      rw [h2] at hp
      exact Option.noConfusion hp
    | cons y l2 =>
      obtain ⟨b, e⟩ := y
      simp only [LuaFile.Heap.Chain] at h2
      obtain ⟨hp2, nx2, hcell2, hrest2⟩ := h2
      rw [hp] at hp2
      have hab : a = b := Option.some.inj hp2
      subst hab
      rw [hcell] at hcell2
      have hnode := Option.some.inj (Option.some.inj hcell2)
      have hd : d = e := congrArg LuaFile.Queue.Node.data hnode
      have hn : nx = nx2 := congrArg LuaFile.Queue.Node.next hnode
      subst hd
      subst hn
      rw [ih l2 nx hrest hrest2]

theorem LuaFile.Heap.chain_from_member (h : LuaFile.Heap) :
    ∀ (l : List (Nat × LuaFile.DynamicArray)) (p : Option Nat) (b : Nat) (e : LuaFile.DynamicArray),
      h.Chain p l → (b, e) ∈ l →
      ∃ l2, h.Chain (some b) l2 ∧ l2.length ≤ l.length := by
  intro l
  induction l with
  | nil =>
    intro p b e _ hmem
    exact absurd hmem (List.not_mem_nil _)
  | cons x l ih =>
    intro p b e hc hmem
    obtain ⟨a, d⟩ := x
    rcases List.mem_cons.1 hmem with heq | htail
    · have hba : b = a := congrArg Prod.fst heq
      subst hba
      simp only [LuaFile.Heap.Chain] at hc
      exact ⟨(b, d) :: l, by
        simp only [LuaFile.Heap.Chain]
        exact ⟨trivial, hc.2⟩, Nat.le_refl _⟩
    · simp only [LuaFile.Heap.Chain] at hc
      obtain ⟨-, nx, -, hrest⟩ := hc
      obtain ⟨l2, hl2, hlen⟩ := ih nx b e hrest htail
      exact ⟨l2, hl2, by simp only [List.length_cons]; omega⟩

/-- The head of a chain does not occur again further down. -/
theorem LuaFile.Heap.chain_head_fresh (h : LuaFile.Heap) (a : Nat) (d : LuaFile.DynamicArray)
    (rest : List (Nat × LuaFile.DynamicArray)) (p : Option Nat)
    (hc : h.Chain p ((a, d) :: rest)) : ∀ e, (a, e) ∉ rest := by
  intro e hmem
  have hc2 := hc
  simp only [LuaFile.Heap.Chain] at hc2
  obtain ⟨hp, nx, -, hrest⟩ := hc2
  obtain ⟨l2, hl2, hlen⟩ := LuaFile.Heap.chain_from_member h rest nx a e hrest hmem
  rw [hp] at hc
  have := LuaFile.Heap.chain_unique h _ _ _ hc hl2
  rw [← this] at hlen
  simp only [List.length_cons] at hlen
  omega

/-- Changing a cell that is not on the chain leaves the chain as it is. -/
theorem LuaFile.Heap.chain_set_other (h : LuaFile.Heap) (a : Nat)
    (x : Option LuaFile.Queue.Node) :
    ∀ (l : List (Nat × LuaFile.DynamicArray)) (p : Option Nat),
      h.Chain p l → (∀ e, (a, e) ∉ l) → LuaFile.Heap.Chain (h.set a x) p l := by
  intro l
  induction l with
  | nil =>
    intro p hc _
    simpa [LuaFile.Heap.Chain] using hc
  | cons y l ih =>
    intro p hc hfresh
    obtain ⟨b, e⟩ := y
    simp only [LuaFile.Heap.Chain] at hc ⊢
    obtain ⟨hp, nx, hcell, hrest⟩ := hc
    have hne : a ≠ b := by
      intro hab
      subst hab
      exact hfresh e (List.mem_cons_self _ _)
    refine ⟨hp, nx, ?_, ih nx hrest (fun e2 hm => hfresh e2 (List.mem_cons_of_mem _ hm))⟩
    rw [List.getElem?_set_ne hne, hcell]

/-- C13. `Queue::pop` on a queue whose `first` is null changes nothing. On a chain whose
pages from head to tail are `p1` (at address `a`), `p2`, ..., `pn` it deletes the node of
`p1` and no other cell of the store changes, `first` becomes the node of `p2` (null when
there is none), and `p2`, ..., `pn` are still linked in that order with their contents. -/
theorem LuaFile.Queue.pop_removes_head (h : LuaFile.Heap) (q : LuaFile.Queue) :
    (q.first = none → LuaFile.Queue.pop h q = some (h, q)) ∧
    (∀ a d rest, h.Chain q.first ((a, d) :: rest) →
      ∃ h1 q1, LuaFile.Queue.pop h q = some (h1, q1) ∧
        h1.deref a = none ∧ (∀ b, b ≠ a → h1[b]? = h[b]?) ∧
        q1.first = rest.head?.map (fun x => x.1) ∧
        LuaFile.Heap.Chain h1 q1.first rest) := by
  constructor
  · intro hnull
    unfold LuaFile.Queue.pop
    rw [hnull]
  · intro a d rest hc
    have hfresh := LuaFile.Heap.chain_head_fresh h a d rest _ hc
    simp only [LuaFile.Heap.Chain] at hc
    obtain ⟨hp, nx, hcell, hrest⟩ := hc
    have hlt : a < h.length := by
      by_contra hcon
      rw [List.getElem?_eq_none (by omega)] at hcell
      exact Option.noConfusion hcell
    refine ⟨h.set a none, { q with first := nx }, ?_, ?_, ?_, ?_, ?_⟩
    · unfold LuaFile.Queue.pop
      rw [hp]
      simp only []
      rw [LuaFile.Heap.deref_of_cell h a _ hcell]
    · unfold LuaFile.Heap.deref
      rw [List.getElem?_set_self hlt]
    · intro b hb
      rw [List.getElem?_set_ne (fun hab => hb hab.symm)]
    · show nx = _
      cases rest with
      | nil =>
        simp only [LuaFile.Heap.Chain] at hrest
        rw [hrest]
        rfl
      | cons y rest =>
        obtain ⟨b, e⟩ := y
        simp only [LuaFile.Heap.Chain] at hrest
        rw [hrest.1]
        rfl
    · exact LuaFile.Heap.chain_set_other h a none rest nx hrest hfresh

theorem LuaFile.chain_sampleFile :
    LuaFile.sampleFile.heap.Chain LuaFile.sampleFile.file.first
      [(0, LuaFile.samplePage0), (1, LuaFile.samplePage1)] :=
  ⟨rfl, some 1, rfl, rfl, none, rfl, rfl⟩

theorem LuaFile.Queue.pop_removes_head_witness :
    LuaFile.Queue.ctor.first = none ∧
    LuaFile.Queue.pop [] LuaFile.Queue.ctor = some ([], LuaFile.Queue.ctor) ∧
    LuaFile.sampleFile.heap.Chain LuaFile.sampleFile.file.first
      [(0, LuaFile.samplePage0), (1, LuaFile.samplePage1)] ∧
    ∃ h1 q1, LuaFile.Queue.pop LuaFile.sampleFile.heap LuaFile.sampleFile.file = some (h1, q1) ∧
      h1.deref 0 = none ∧ (∀ b, b ≠ 0 → h1[b]? = LuaFile.sampleFile.heap[b]?) ∧
      q1.first = [(1, LuaFile.samplePage1)].head?.map (fun x => x.1) ∧
      LuaFile.Heap.Chain h1 q1.first [(1, LuaFile.samplePage1)] :=
  ⟨rfl, (LuaFile.Queue.pop_removes_head [] LuaFile.Queue.ctor).1 rfl, LuaFile.chain_sampleFile,
    (LuaFile.Queue.pop_removes_head LuaFile.sampleFile.heap LuaFile.sampleFile.file).2
      0 LuaFile.samplePage0 [(1, LuaFile.samplePage1)] LuaFile.chain_sampleFile⟩

/-! ## `push` and `write` through a cursor -/

theorem LuaFile.pages_sampleFile :
    LuaFile.sampleFile.Pages [LuaFile.samplePage0, LuaFile.samplePage1] := by
  refine ⟨rfl, rfl, rfl, ?_⟩
  intro r d hr
  match r with
  | 0 =>
    have hd : d = LuaFile.samplePage0 := by simpa using hr.symm
    subst hd
    rfl
  | 1 =>
    have hd : d = LuaFile.samplePage1 := by simpa using hr.symm
    subst hd
    rfl
  | r + 2 => simp at hr

/-- What `Queue::push` does to a well-formed chain: the pages stay, a new page built by the
constructor is linked behind them and is the new `last`. -/
theorem LuaFile.Queue.push_of_pages (L : LuaFile) (ps : List LuaFile.DynamicArray)
    (hps : L.Pages ps) :
    ∃ h q, LuaFile.Queue.push L.heap L.file = some (h, q) ∧ q.last = some ps.length ∧
      ({ L with heap := h, file := q } : LuaFile).Pages (ps ++ [LuaFile.DynamicArray.ctor]) := by
  obtain ⟨hlen, hfirst, hlast, hcell⟩ := hps
  unfold LuaFile.Queue.push
  by_cases hn : ps.length = 0
  · rw [if_pos hn] at hlast
    rw [hlast]
    have hnil : ps = [] := List.eq_nil_of_length_eq_zero hn
    have hheap : L.heap = [] := List.eq_nil_of_length_eq_zero (by rw [hlen, hn])
    subst hnil
    refine ⟨_, _, rfl, by rw [hlen], ?_, ?_, ?_, ?_⟩
    · simp [hlen]
    · simp [hlen]
    · simp [hlen]
    · intro r d hr
      match r with
      | 0 =>
        have hd : d = LuaFile.DynamicArray.ctor := by simpa using hr.symm
        subst hd
        simp [hheap, LuaFile.nextOf]
      | r + 1 => simp at hr
  · rw [if_neg hn] at hlast
    rw [hlast]
    have hlt : ps.length - 1 < ps.length := by omega
    have hdl := hcell (ps.length - 1) ps[ps.length - 1] (List.getElem?_eq_getElem hlt)
    have hnext : LuaFile.nextOf ps.length (ps.length - 1) = none := by
      unfold LuaFile.nextOf
      rw [if_neg (by omega)]
    rw [hnext] at hdl
    have hdl1 : (L.heap ++ [some ({ data := LuaFile.DynamicArray.ctor, next := none } :
        LuaFile.Queue.Node)])[ps.length - 1]? =
        some (some { data := ps[ps.length - 1], next := none }) := by
      rw [List.getElem?_append_left (by omega), hdl]
    simp only []
    rw [LuaFile.Heap.deref_of_cell _ _ _ hdl1]
    refine ⟨_, _, rfl, by rw [hlen], ?_, ?_, ?_, ?_⟩
    · simp [hlen]
    · show L.file.first = _
      rw [hfirst, if_neg hn, if_neg (by simp)]
    · simp [hlen]
    · intro r d hr
      show ((L.heap ++ [some ({ data := LuaFile.DynamicArray.ctor, next := none } :
        LuaFile.Queue.Node)]).set (ps.length - 1)
          (some { data := ps[ps.length - 1], next := some L.heap.length }))[r]? = _
      have hlen2 : (ps ++ [LuaFile.DynamicArray.ctor]).length = ps.length + 1 := by simp
      rw [hlen2, List.getElem?_set]
      by_cases hr1 : ps.length - 1 = r
      · subst hr1
        rw [if_pos rfl, if_pos (by simp; omega)]
        rw [List.getElem?_append_left hlt, List.getElem?_eq_getElem hlt] at hr
        have hd := Option.some.inj hr
        have hnx : LuaFile.nextOf (ps.length + 1) (ps.length - 1) = some L.heap.length := by
          unfold LuaFile.nextOf
          rw [if_pos (by omega), hlen]
          congr 1
          omega
        rw [hnx, hd]
      · rw [if_neg hr1]
        by_cases hr2 : r < ps.length
        · rw [List.getElem?_append_left hr2] at hr
          rw [List.getElem?_append_left (by omega), hcell r d hr]
          have hnx : LuaFile.nextOf (ps.length + 1) r = LuaFile.nextOf ps.length r := by
            unfold LuaFile.nextOf
            rw [if_pos (by omega), if_pos (by omega)]
          rw [hnx]
        · have hrn : r = ps.length := by
            by_contra hcon
            rw [List.getElem?_eq_none (by rw [hlen2]; omega)] at hr
            exact Option.noConfusion hr
          subst hrn
          rw [List.getElem?_append_right (Nat.le_refl _)] at hr
          have hd : d = LuaFile.DynamicArray.ctor := by simpa using hr.symm
          subst hd
          rw [List.getElem?_append_right (by omega)]
          simp [hlen, LuaFile.nextOf]

/-- C14. On a document whose chain consists of the pages `ps`, `push()` through any cursor
gives the chain `ps` followed by one new page with fill 0, the old pages as they were. A
cursor without a current page then addresses the new page (at address `ps.length`) at
position 0; a cursor with a current page is unchanged. -/
theorem LuaFile.iterator.push_appends_page (it : LuaFile.iterator) (L : LuaFile)
    (ps : List LuaFile.DynamicArray) (hps : L.Pages ps) :
    ∃ it1 L1, it.push L = some (it1, L1) ∧
      L1.Pages (ps ++ [LuaFile.DynamicArray.ctor]) ∧ LuaFile.DynamicArray.ctor.pos = 0 ∧
      (it.region = none → it1 = { it with region := some ps.length, word := 0 }) ∧
      (it.region ≠ none → it1 = it) := by
  obtain ⟨h, q, hpush, hlast, hpages⟩ := LuaFile.Queue.push_of_pages L ps hps
  unfold LuaFile.iterator.push
  rw [hpush]
  by_cases hreg : it.region = none
  · simp only [if_pos hreg]
    exact ⟨_, _, rfl, hpages, rfl, fun _ => by rw [hlast], fun h => absurd hreg h⟩
  · simp only [if_neg hreg]
    exact ⟨_, _, rfl, hpages, rfl, fun h => absurd h hreg, fun _ => rfl⟩

theorem LuaFile.iterator.push_appends_page_witness :
    LuaFile.sampleFile.Pages [LuaFile.samplePage0, LuaFile.samplePage1] ∧
    ∃ it1 L1, ({ ptr := 0, region := none, word := 7 } : LuaFile.iterator).push LuaFile.sampleFile
        = some (it1, L1) ∧
      L1.Pages ([LuaFile.samplePage0, LuaFile.samplePage1] ++ [LuaFile.DynamicArray.ctor]) ∧
      LuaFile.DynamicArray.ctor.pos = 0 ∧
      (({ ptr := 0, region := none, word := 7 } : LuaFile.iterator).region = none →
        it1 = { ({ ptr := 0, region := none, word := 7 } : LuaFile.iterator) with
          region := some [LuaFile.samplePage0, LuaFile.samplePage1].length, word := 0 }) ∧
      (({ ptr := 0, region := none, word := 7 } : LuaFile.iterator).region ≠ none →
        it1 = { ptr := 0, region := none, word := 7 }) :=
  ⟨LuaFile.pages_sampleFile,
    LuaFile.iterator.push_appends_page _ LuaFile.sampleFile _ LuaFile.pages_sampleFile⟩

/-- C15. For a cursor whose current page `P` (the node `nd` at address `r`) has a fill
below `2 ^ 32 - 1`, `write(start, end)` leaves the cursor as it is and changes the document
in the node of `P` only: the new page has one span more, the span written, at the old fill,
the spans below keep their slots and values, the `next` link of the node, `first`, `last`
and every other cell of the store are as before. -/
theorem LuaFile.iterator.write_frame (it : LuaFile.iterator) (L : LuaFile) (r : Nat)
    (nd : LuaFile.Queue.Node) (start end_ : Nat) (hreg : it.region = some r)
    (hnode : L.heap.deref r = some nd) (hvalid : nd.data.Valid)
    (hfill : nd.data.pos < 2 ^ 32 - 1) :
    ∃ d1 L1, it.apply L (.write start end_) = some (it, L1) ∧
      L1.heap.deref r = some { data := d1, next := nd.next } ∧
      d1.pos = nd.data.pos + 1 ∧
      d1.slot nd.data.pos = some { start := start, end_ := end_ } ∧
      (∀ i, i < nd.data.pos → d1.slot i = nd.data.slot i) ∧
      (∀ b, b ≠ r → L1.heap[b]? = L.heap[b]?) ∧
      L1.heap.length = L.heap.length ∧ L1.file = L.file ∧ L1.self = L.self := by
  obtain ⟨d1, hpb, -, hpos, hat, hin, hkeep, -⟩ :=
    LuaFile.DynamicArray.push_back_eq nd.data { start := start, end_ := end_ } hvalid hfill
  have hslot : d1.slot nd.data.pos = some { start := start, end_ := end_ } := by
    simp only [LuaFile.DynamicArray.slot]
    rw [if_pos hin, hat]
  have hold : ∀ i, i < nd.data.pos → d1.slot i = nd.data.slot i := by
    intro i hi
    have hps := hvalid.2.2
    simp only [LuaFile.DynamicArray.slot]
    rw [if_pos (by omega), if_pos (by omega), hkeep i hi]
  have hlt : r < L.heap.length := by
    by_contra hcon
    unfold LuaFile.Heap.deref at hnode
    rw [List.getElem?_eq_none (by omega)] at hnode
    exact Option.noConfusion hnode
  refine ⟨d1, { L with heap := L.heap.set r (some { nd with data := d1 }) }, ?_, ?_, hpos, hslot,
    hold, ?_, ?_, rfl, rfl⟩
  · simp only [LuaFile.iterator.apply, LuaFile.iterator.write]
    rw [hreg]
    simp only []
    rw [hnode]
    simp only []
    rw [hpb]
  · show LuaFile.Heap.deref (L.heap.set r _) r = _
    unfold LuaFile.Heap.deref
    rw [List.getElem?_set_self hlt]
  · intro b hb
    show (L.heap.set r _)[b]? = _
    rw [List.getElem?_set_ne (fun h => hb h.symm)]
  · show (L.heap.set r _).length = _
    rw [List.length_set]

theorem LuaFile.iterator.write_frame_witness :
    ({ ptr := 0, region := some 0, word := 1 } : LuaFile.iterator).region = some 0 ∧
    LuaFile.sampleFile.heap.deref 0 = some { data := LuaFile.samplePage0, next := some 1 } ∧
    LuaFile.samplePage0.Valid ∧ LuaFile.samplePage0.pos < 2 ^ 32 - 1 ∧
    ∃ d1 L1, ({ ptr := 0, region := some 0, word := 1 } : LuaFile.iterator).apply
        LuaFile.sampleFile (.write 40 44) = some ({ ptr := 0, region := some 0, word := 1 }, L1) ∧
      L1.heap.deref 0 = some { data := d1, next := some 1 } ∧
      d1.pos = LuaFile.samplePage0.pos + 1 ∧
      d1.slot LuaFile.samplePage0.pos = some { start := 40, end_ := 44 } ∧
      (∀ i, i < LuaFile.samplePage0.pos → d1.slot i = LuaFile.samplePage0.slot i) ∧
      (∀ b, b ≠ 0 → L1.heap[b]? = LuaFile.sampleFile.heap[b]?) ∧
      L1.heap.length = LuaFile.sampleFile.heap.length ∧ L1.file = LuaFile.sampleFile.file ∧
      L1.self = LuaFile.sampleFile.self :=
  ⟨rfl, rfl, ⟨by decide, by decide, by decide⟩, by decide,
    LuaFile.iterator.write_frame { ptr := 0, region := some 0, word := 1 } LuaFile.sampleFile 0
      { data := LuaFile.samplePage0, next := some 1 } 40 44 rfl rfl
      ⟨by decide, by decide, by decide⟩ (by decide)⟩

/-- C16. `write` through a cursor without a current page is a no-op: the call returns
with the document (chain and pages) and the cursor as they were, so `size()` and `dump`
give after the call what they give before it. -/
theorem LuaFile.iterator.write_without_page (it : LuaFile.iterator) (L : LuaFile)
    (start end_ : Nat) (hreg : it.region = none) :
    it.write L start end_ = some L ∧
    it.apply L (.write start end_) = some (it, L) ∧
    (∀ L1, it.write L start end_ = some L1 →
      L1 = L ∧ L1.size = L.size ∧ ∀ mem out, L1.dump mem out = L.dump mem out) := by
  have hw := LuaFile.iterator.write_of_end it L start end_ hreg
  refine ⟨hw, ?_, ?_⟩
  · simp only [LuaFile.iterator.apply]
    rw [hw]
  · intro L1 h1
    rw [hw] at h1
    have hL : L1 = L := (Option.some.inj h1).symm
    subst hL
    exact ⟨rfl, rfl, fun _ _ => rfl⟩

theorem LuaFile.iterator.write_without_page_witness :
    (LuaFile.ctor 0).begin.region = none ∧
    (LuaFile.ctor 0).begin.write (LuaFile.ctor 0) 10 14 = some (LuaFile.ctor 0) ∧
    (LuaFile.ctor 0).begin.apply (LuaFile.ctor 0) (.write 10 14)
      = some ((LuaFile.ctor 0).begin, LuaFile.ctor 0) ∧
    (∀ L1, (LuaFile.ctor 0).begin.write (LuaFile.ctor 0) 10 14 = some L1 →
      L1 = LuaFile.ctor 0 ∧ L1.size = (LuaFile.ctor 0).size ∧
      ∀ mem out, L1.dump mem out = (LuaFile.ctor 0).dump mem out) :=
  ⟨rfl, LuaFile.iterator.write_without_page (LuaFile.ctor 0).begin (LuaFile.ctor 0) 10 14 rfl⟩

/-! ## Advancing and dereferencing -/

/-- C17 fails on the code. On a page with three spans, `operator++` takes a cursor at
position 1 (a span follows) to position 0 of the same page, not to position 2, and leaves
a cursor at position 0 at position 0, not at position 1. -/
theorem LuaFile.iterator.operator_inc_resets_word :
    (LuaFile.threeSpans.heap.deref 0).map (fun nd => nd.data.pos) = some 3 ∧
    ({ ptr := 0, region := some 0, word := 1 } : LuaFile.iterator).operator_inc LuaFile.threeSpans
      = some { ptr := 0, region := some 0, word := 0 } ∧
    ({ ptr := 0, region := some 0, word := 0 } : LuaFile.iterator).operator_inc LuaFile.threeSpans
      = some { ptr := 0, region := some 0, word := 0 } := by
  decide

/-- C18 fails on the code. A cursor at the last span of the first page of `sampleFile`
(position 1 of 2; the next page holds a span) is taken by `operator++` to position 0 of the
same page, not to the next page; a cursor at the last span of the only page of `threeSpans`
is taken to position 0 of that page, not to the end. -/
theorem LuaFile.iterator.operator_inc_stays_on_page :
    (LuaFile.sampleFile.heap.deref 0).map (fun nd => nd.data.pos) = some 2 ∧
    (LuaFile.sampleFile.heap.deref 1).map (fun nd => nd.data.pos) = some 1 ∧
    ({ ptr := 0, region := some 0, word := 1 } : LuaFile.iterator).operator_inc LuaFile.sampleFile
      = some { ptr := 0, region := some 0, word := 0 } ∧
    (LuaFile.threeSpans.heap.deref 0).map (fun nd => (nd.data.pos, nd.next)) = some (3, none) ∧
    ({ ptr := 0, region := some 0, word := 2 } : LuaFile.iterator).operator_inc LuaFile.threeSpans
      = some { ptr := 0, region := some 0, word := 0 } := by
  decide

/-- C19. On a cursor in the End state `operator*` and `operator->` return the span whose
`start` and `end` are both null, and the document and the cursor are as before. -/
theorem LuaFile.iterator.deref_at_end (it : LuaFile.iterator) (L : LuaFile)
    (hend : it.region = none) :
    it.operator_star L = some ({ start := 0, end_ := 0 }, L) ∧
    it.operator_arrow L = some ({ start := 0, end_ := 0 }, L) ∧
    it.apply L .star = some (it, L) ∧ it.apply L .arrow = some (it, L) := by
  have hs : it.operator_star L = some ({ start := 0, end_ := 0 }, L) := by
    unfold LuaFile.iterator.operator_star
    rw [hend]
  have ha : it.operator_arrow L = some ({ start := 0, end_ := 0 }, L) := by
    unfold LuaFile.iterator.operator_arrow
    rw [hend]
  refine ⟨hs, ha, ?_, ?_⟩
  · simp only [LuaFile.iterator.apply]
    rw [hs]
  · simp only [LuaFile.iterator.apply]
    rw [ha]

theorem LuaFile.iterator.deref_at_end_witness :
    ({ ptr := 0, region := none, word := 5 } : LuaFile.iterator).region = none ∧
    ({ ptr := 0, region := none, word := 5 } : LuaFile.iterator).operator_star LuaFile.sampleFile
      = some ({ start := 0, end_ := 0 }, LuaFile.sampleFile) ∧
    ({ ptr := 0, region := none, word := 5 } : LuaFile.iterator).operator_arrow LuaFile.sampleFile
      = some ({ start := 0, end_ := 0 }, LuaFile.sampleFile) ∧
    ({ ptr := 0, region := none, word := 5 } : LuaFile.iterator).apply LuaFile.sampleFile .star
      = some ({ ptr := 0, region := none, word := 5 }, LuaFile.sampleFile) ∧
    ({ ptr := 0, region := none, word := 5 } : LuaFile.iterator).apply LuaFile.sampleFile .arrow
      = some ({ ptr := 0, region := none, word := 5 }, LuaFile.sampleFile) :=
  ⟨rfl, LuaFile.iterator.deref_at_end { ptr := 0, region := none, word := 5 }
    LuaFile.sampleFile rfl⟩

/-- On a cursor in the End state every operation but `push` changes nothing. -/
theorem LuaFile.iterator.apply_at_end (it : LuaFile.iterator) (L : LuaFile)
    (o : LuaFile.CursorOp) (hend : it.region = none) (ho : o.isPush = false) :
    it.apply L o = some (it, L) := by
  cases o with
  | inc =>
    simp only [LuaFile.iterator.apply, LuaFile.iterator.operator_inc, LuaFile.iterator.getNext]
    rw [hend]
  | write a b =>
    simp only [LuaFile.iterator.apply]
    rw [LuaFile.iterator.write_of_end it L a b hend]
  | push => exact absurd ho (by decide)
  | star =>
    simp only [LuaFile.iterator.apply, LuaFile.iterator.operator_star]
    rw [hend]
  | arrow =>
    simp only [LuaFile.iterator.apply, LuaFile.iterator.operator_arrow]
    rw [hend]

/-- C20 as stated fails. The cursor that `begin()` returns on a new document is in the End
state, and after `push()` on that cursor it is not. -/
theorem LuaFile.iterator.push_leaves_end :
    (LuaFile.ctor 0).begin.end_ = true ∧
    ((LuaFile.ctor 0).begin.apply (LuaFile.ctor 0) .push).map (fun p => p.1.end_) = some false ∧
    ((LuaFile.ctor 0).begin.apply (LuaFile.ctor 0) .push).map (fun p => p.1.region)
      = some (some 0) := by
  decide

/-- C20, amended. A cursor in the End state is in the End state after every sequence of
`operator++`, `write`, `operator*` and `operator->` on it, and none of these changes the
cursor or the document; `push()` takes it out of the End state: on a document whose chain
consists of the pages `ps` the cursor then addresses the new page at position 0. -/
theorem LuaFile.iterator.end_is_kept (it : LuaFile.iterator) (L : LuaFile)
    (hend : it.end_ = true) :
    (∀ os : List LuaFile.CursorOp, (∀ o, o ∈ os → o.isPush = false) →
      it.applyAll L os = some (it, L)) ∧
    (∀ ps, L.Pages ps →
      ∃ it1 L1, it.apply L .push = some (it1, L1) ∧ it1.region = some ps.length ∧
        it1.word = 0 ∧ it1.end_ = false) := by
  have hreg : it.region = none := by
    simpa [LuaFile.iterator.end_] using hend
  constructor
  · intro os
    induction os with
    | nil => intro _; rfl
    | cons o os ih =>
      intro hos
      simp only [LuaFile.iterator.applyAll]
      rw [LuaFile.iterator.apply_at_end it L o hreg (hos o (List.mem_cons_self o os))]
      exact ih (fun x hx => hos x (List.mem_cons_of_mem o hx))
  · intro ps hps
    obtain ⟨h, q, hpush, hlast, -⟩ := LuaFile.Queue.push_of_pages L ps hps
    refine ⟨{ it with region := some ps.length, word := 0 }, { L with heap := h, file := q },
      ?_, rfl, rfl, rfl⟩
    simp only [LuaFile.iterator.apply, LuaFile.iterator.push]
    rw [hpush]
    simp only [if_pos hreg, hlast]

theorem LuaFile.iterator.end_is_kept_witness :
    ({ ptr := 0, region := none, word := 5 } : LuaFile.iterator).end_ = true ∧
    (∀ o, o ∈ LuaFile.sampleCursorOps → o.isPush = false) ∧
    ({ ptr := 0, region := none, word := 5 } : LuaFile.iterator).applyAll LuaFile.sampleFile
      LuaFile.sampleCursorOps = some ({ ptr := 0, region := none, word := 5 }, LuaFile.sampleFile) ∧
    LuaFile.sampleFile.Pages [LuaFile.samplePage0, LuaFile.samplePage1] ∧
    ∃ it1 L1, ({ ptr := 0, region := none, word := 5 } : LuaFile.iterator).apply
        LuaFile.sampleFile .push = some (it1, L1) ∧
      it1.region = some [LuaFile.samplePage0, LuaFile.samplePage1].length ∧
      it1.word = 0 ∧ it1.end_ = false :=
  ⟨rfl, by decide,
    (LuaFile.iterator.end_is_kept { ptr := 0, region := none, word := 5 } LuaFile.sampleFile
      rfl).1 LuaFile.sampleCursorOps (by decide),
    LuaFile.pages_sampleFile,
    (LuaFile.iterator.end_is_kept { ptr := 0, region := none, word := 5 } LuaFile.sampleFile
      rfl).2 _ LuaFile.pages_sampleFile⟩

/-! ## Destruction -/

/-- With no page `~Queue()` is over at once. -/
theorem LuaFile.Queue.dtor_of_empty (fuel : Nat) (h : LuaFile.Heap) (q : LuaFile.Queue)
    (hq : q.first = none) : LuaFile.Queue.dtor fuel h q = some (h, q) := by
  unfold LuaFile.Queue.dtor LuaFile.Queue.dtorLoop
  rw [hq]

/-- With a page, the second round of `~Queue()` goes through the node the first round
deleted, whatever the number of rounds allowed. -/
theorem LuaFile.Queue.dtor_of_page (h : LuaFile.Heap) (q : LuaFile.Queue) (a : Nat)
    (nd : LuaFile.Queue.Node) (hq : q.first = some a) (hnode : h.deref a = some nd) :
    LuaFile.Queue.dtorRound a h q = some (h.set a none, { q with first := nd.next }) ∧
    LuaFile.Queue.dtorRound a (h.set a none) { q with first := nd.next } = none ∧
    ∀ fuel, LuaFile.Queue.dtor fuel h q = none := by
  have hlt : a < h.length := by
    by_contra hcon
    unfold LuaFile.Heap.deref at hnode
    rw [List.getElem?_eq_none (by omega)] at hnode
    exact Option.noConfusion hnode
  have h1 : LuaFile.Queue.dtorRound a h q = some (h.set a none, { q with first := nd.next }) := by
    unfold LuaFile.Queue.dtorRound
    rw [hnode]
  have h2 : LuaFile.Queue.dtorRound a (h.set a none) { q with first := nd.next } = none := by
    unfold LuaFile.Queue.dtorRound LuaFile.Heap.deref
    rw [List.getElem?_set_self hlt]
  refine ⟨h1, h2, ?_⟩
  intro fuel
  unfold LuaFile.Queue.dtor
  rw [hq]
  cases fuel with
  | zero => rfl
  | succ fuel =>
    unfold LuaFile.Queue.dtorLoop
    simp only []
    rw [h1]
    simp only []
    cases fuel with
    | zero => rfl
    | succ fuel =>
      unfold LuaFile.Queue.dtorLoop
      simp only []
      rw [h2]

/-- C22 fails on the code. Destroying `sampleFile` (two pages): the first round of the
loop of `~Queue()` deletes the first node and sets `first` to the second; the loop variable
still holds the deleted node, so the second round reads `next` of that deleted node and
deletes it again. The second page is never released, and the loop does not come to a
regular end for any number of rounds. -/
theorem LuaFile.Queue.dtor_reuses_deleted_node :
    ∃ h1 q1, LuaFile.Queue.dtorRound 0 LuaFile.sampleFile.heap LuaFile.sampleFile.file
        = some (h1, q1) ∧
      h1.deref 0 = none ∧ (h1.deref 1).isSome = true ∧ q1.first = some 1 ∧
      LuaFile.Queue.dtorRound 0 h1 q1 = none ∧
      ∀ fuel, LuaFile.Queue.dtor fuel LuaFile.sampleFile.heap LuaFile.sampleFile.file = none := by
  obtain ⟨h1, h2, h3⟩ := LuaFile.Queue.dtor_of_page LuaFile.sampleFile.heap
    LuaFile.sampleFile.file 0 { data := LuaFile.samplePage0, next := some 1 } rfl rfl
  exact ⟨_, _, h1, rfl, rfl, rfl, h2, h3⟩

/-! ## Comparison of cursors -/

/-- C29. Two cursors compare equal under `operator==` exactly when their `ptr` members,
the queue they were obtained from, are the same, whatever their pages and positions;
`operator!=` is the negation of `operator==`; a cursor of a document in the End state and
a cursor of the same document on a page compare equal. -/
theorem LuaFile.iterator.operator_eq_iff (a b : LuaFile.iterator) :
    (a.operator_eq b = true ↔ a.ptr = b.ptr) ∧
    a.operator_ne b = !a.operator_eq b ∧
    (∀ r1 w1 r2 w2, LuaFile.iterator.operator_eq { ptr := a.ptr, region := r1, word := w1 }
      { ptr := a.ptr, region := r2, word := w2 } = true) ∧
    (∀ (L : LuaFile) (r w1 w2 : Nat),
      LuaFile.iterator.operator_eq { ptr := L.self, region := none, word := w1 }
        { ptr := L.self, region := some r, word := w2 } = true ∧
      LuaFile.iterator.operator_eq { ptr := L.self, region := none, word := w1 } L.begin
        = true) := by
  refine ⟨?_, ?_, ?_, ?_⟩
  · simp [LuaFile.iterator.operator_eq]
  · simp [LuaFile.iterator.operator_eq, LuaFile.iterator.operator_ne, bne]
  · intro r1 w1 r2 w2
    simp [LuaFile.iterator.operator_eq]
  · intro L r w1 w2
    simp [LuaFile.iterator.operator_eq, LuaFile.begin]

/-! ## The file helper -/

/-- The size that `read` reports for a file it can open is the length of the file plus
one. -/
theorem IO_Helper.read_size (bytes : List LuaFile.Byte) (hlen : bytes.length + 1 < 2 ^ 64) :
    (IO_Helper.read (some bytes)).size = bytes.length + 1 := by
  simp only [IO_Helper.read]
  omega

/-- C30 fails on the code. For a file that holds the three bytes 97, 98, 99 `read` returns
size 4, not 3, and an array of five bytes: the three of the file, one byte that was never
written, and the zero byte. For a file that cannot be opened it returns the null pointer
and size 0. -/
theorem IO_Helper.read_reports_one_more :
    IO_Helper.read (some [97, 98, 99]) =
      { str := some [some 97, some 98, some 99, none, some 0], size := 4 } ∧
    IO_Helper.read none = { str := none, size := 0 } := by
  decide

/-! ## The capacity of a page -/

theorem LuaFile.DynamicArray.operator_index_capacity (d : LuaFile.DynamicArray) (index : Nat)
    (hd : d.Valid) :
    ∃ d1, d.operator_index index = some d1 ∧ d1.Valid ∧ d.size ≤ d1.size ∧ d1.pos = d.pos := by
  by_cases hi : index < 2 ^ 32
  · exact LuaFile.DynamicArray.valid_operator_index d index hd hi
  · obtain ⟨h4, hmax, hps⟩ := hd
    have hmod : (index <<< 1) % 2 ^ 32 < 2 ^ 32 := Nat.mod_lt _ (by decide)
    unfold LuaFile.DynamicArray.operator_index
    rw [if_pos (show index ≥ d.size by omega), if_neg (by omega)]
    unfold LuaFile.DynamicArray.resize
    rw [if_pos hmax]
    refine ⟨_, rfl, ⟨?_, ?_, ?_⟩, hmax, rfl⟩
    · show 4 ≤ 2 ^ 32 - 1
      decide
    · show 2 ^ 32 - 1 ≤ 2 ^ 32 - 1
      decide
    · show d.pos ≤ 2 ^ 32 - 1
      omega

theorem LuaFile.DynamicArray.resizeArg_ge (d : LuaFile.DynamicArray) (index : Nat)
    (hd : d.Valid) (hge : d.size ≤ index) :
    d.size ≤ LuaFile.DynamicArray.resizeArg index := by
  obtain ⟨h4, hmax, -⟩ := hd
  unfold LuaFile.DynamicArray.resizeArg
  by_cases hi : index < 2 ^ 32
  · by_cases hs : index < 2 ^ 31
    · rw [if_pos ((LuaFile.DynamicArray.shift_test index hi).2 ⟨by omega, hs⟩),
        LuaFile.DynamicArray.shift_small index hs]
      omega
    · rw [if_neg (fun h => hs ((LuaFile.DynamicArray.shift_test index hi).1 h).2)]
      exact hmax
  · have hmod : (index <<< 1) % 2 ^ 32 < 2 ^ 32 := Nat.mod_lt _ (by decide)
    rw [if_neg (by omega)]
    exact hmax

/-- What holds of the capacity of a page that satisfies the class invariant. -/
theorem LuaFile.DynamicArray.capacity_of_valid (d : LuaFile.DynamicArray) (hd : d.Valid) :
    4 ≤ d.size ∧ d.size ≤ 2 ^ 32 - 1 ∧
    (∀ index, ∃ d1, d.operator_index index = some d1 ∧
      d.size ≤ d1.size ∧ 4 ≤ d1.size ∧ d1.size ≤ 2 ^ 32 - 1) ∧
    (∀ v d1, d.push_back v = some d1 → d.size ≤ d1.size ∧ 4 ≤ d1.size ∧ d1.size ≤ 2 ^ 32 - 1) ∧
    (∀ index, d.size ≤ index →
      d.size ≤ LuaFile.DynamicArray.resizeArg index ∧
      (d.resize (LuaFile.DynamicArray.resizeArg index)).isSome = true) := by
  refine ⟨hd.1, hd.2.1, ?_, ?_, ?_⟩
  · intro index
    obtain ⟨d1, h1, hv, hle, -⟩ := LuaFile.DynamicArray.operator_index_capacity d index hd
    exact ⟨d1, h1, hle, hv.1, hv.2.1⟩
  · intro v d1 h1
    by_cases hf : d.pos < 2 ^ 32 - 1
    · obtain ⟨d2, h2, hv, -, -, hin, -, hsame, hsmall, hbig⟩ :=
        LuaFile.DynamicArray.push_back_eq d v hd hf
      rw [h2] at h1
      cases h1
      refine ⟨?_, hv.1, hv.2.1⟩
      have hps := hd.2.2
      by_cases hlt : d.pos < d.size
      · rw [hsame hlt]
      · omega
    · rw [LuaFile.DynamicArray.push_back_full d v hd hf] at h1
      exact Option.noConfusion h1
  · intro index hge
    have hle := LuaFile.DynamicArray.resizeArg_ge d index hd hge
    refine ⟨hle, ?_⟩
    unfold LuaFile.DynamicArray.resize
    rw [if_pos hle]
    rfl

/-- C24. For every page that a sequence of `operator[]` and `push_back` calls produces
from the constructor: its capacity lies between 4 and `2 ^ 32 - 1`; a further `operator[]`
(any index) or `push_back` leaves a capacity that is not smaller and lies in the same
range; and for an index at or beyond the capacity the size passed to `resize` is at least
the capacity, so that the copy of the old entries fits (`resize` is defined). The sequence
does produce a page as long as it has at most `2 ^ 32 - 1` `push_back` calls. -/
theorem LuaFile.DynamicArray.capacity_never_decreases (os : List LuaFile.PageOp) :
    (∀ d, LuaFile.DynamicArray.ctor.applyAll os = some d →
      4 ≤ d.size ∧ d.size ≤ 2 ^ 32 - 1 ∧
      (∀ index, ∃ d1, d.operator_index index = some d1 ∧
        d.size ≤ d1.size ∧ 4 ≤ d1.size ∧ d1.size ≤ 2 ^ 32 - 1) ∧
      (∀ v d1, d.push_back v = some d1 →
        d.size ≤ d1.size ∧ 4 ≤ d1.size ∧ d1.size ≤ 2 ^ 32 - 1) ∧
      (∀ index, d.size ≤ index →
        d.size ≤ LuaFile.DynamicArray.resizeArg index ∧
        (d.resize (LuaFile.DynamicArray.resizeArg index)).isSome = true)) ∧
    (os.countP LuaFile.PageOp.isPushBack ≤ 2 ^ 32 - 1 →
      ∃ d, LuaFile.DynamicArray.ctor.applyAll os = some d ∧
        4 ≤ d.size ∧ d.size ≤ 2 ^ 32 - 1) := by
  constructor
  · intro d h
    exact LuaFile.DynamicArray.capacity_of_valid d
      (LuaFile.DynamicArray.valid_applyAll os _ d LuaFile.DynamicArray.valid_ctor h)
  · intro hroom
    obtain ⟨d, h, hv, -⟩ :=
      LuaFile.DynamicArray.applyAll_defined os LuaFile.DynamicArray.ctor
        LuaFile.DynamicArray.valid_ctor (by
          show 0 + _ ≤ _
          omega)
    exact ⟨d, h, hv.1, hv.2.1⟩

theorem LuaFile.DynamicArray.capacity_never_decreases_witness :
    LuaFile.samplePageOps.countP LuaFile.PageOp.isPushBack ≤ 2 ^ 32 - 1 ∧
    ∃ d, LuaFile.DynamicArray.ctor.applyAll LuaFile.samplePageOps = some d ∧
      4 ≤ d.size ∧ d.size ≤ 2 ^ 32 - 1 ∧
      (∀ index, ∃ d1, d.operator_index index = some d1 ∧
        d.size ≤ d1.size ∧ 4 ≤ d1.size ∧ d1.size ≤ 2 ^ 32 - 1) ∧
      (∀ v d1, d.push_back v = some d1 →
        d.size ≤ d1.size ∧ 4 ≤ d1.size ∧ d1.size ≤ 2 ^ 32 - 1) ∧
      (∀ index, d.size ≤ index →
        d.size ≤ LuaFile.DynamicArray.resizeArg index ∧
        (d.resize (LuaFile.DynamicArray.resizeArg index)).isSome = true) := by
  obtain ⟨d, h, -⟩ :=
    (LuaFile.DynamicArray.capacity_never_decreases LuaFile.samplePageOps).2 (by decide)
  exact ⟨by decide, d, h,
    (LuaFile.DynamicArray.capacity_never_decreases LuaFile.samplePageOps).1 d h⟩

/-- The size that `operator[]` passes to `resize` is `resizeArg index`. -/
theorem LuaFile.DynamicArray.operator_index_eq_resize (d : LuaFile.DynamicArray) (index : Nat) :
    d.operator_index index =
      if index ≥ d.size then d.resize (LuaFile.DynamicArray.resizeArg index) else some d := by
  unfold LuaFile.DynamicArray.operator_index LuaFile.DynamicArray.resizeArg
  by_cases h : index ≥ d.size
  · rw [if_pos h, if_pos h]
    split <;> rfl
  · rw [if_neg h, if_neg h]

theorem LuaFile.DynamicArray.capacityFor_ctor :
    LuaFile.DynamicArray.CapacityFor LuaFile.DynamicArray.ctor.pos LuaFile.DynamicArray.ctor.size :=
  ⟨2, rfl, Nat.le_refl _, by decide, Or.inl rfl⟩

/-- One `push_back` in append-only use, for a fill below `2 ^ 31`: the array grows exactly
when the fill is at the capacity, and then the capacity doubles. -/
theorem LuaFile.DynamicArray.push_back_doubles (d : LuaFile.DynamicArray) (v : LuaFile.Data)
    (hd : d.Valid) (hf : d.pos < 2 ^ 31) :
    ∃ d1, d.push_back v = some d1 ∧ d1.Valid ∧ d1.pos = d.pos + 1 ∧
      (d.pos = d.size → d1.size = 2 * d.size) ∧ (d.pos ≠ d.size → d1.size = d.size) := by
  obtain ⟨d1, h1, hv, hp, -, -, -, hsame, hsmall, -⟩ :=
    LuaFile.DynamicArray.push_back_eq d v hd (by omega)
  have hps := hd.2.2
  refine ⟨d1, h1, hv, hp, ?_, ?_⟩
  · intro heq
    rw [hsmall (by omega) hf, heq]
  · intro hne
    exact hsame (by omega)

theorem LuaFile.DynamicArray.capacityFor_step (n c : Nat)
    (hc : LuaFile.DynamicArray.CapacityFor n c) :
    LuaFile.DynamicArray.CapacityFor (n + 1) (if n = c then 2 * c else c) := by
  obtain ⟨k, hck, hk, hle, hleast⟩ := hc
  by_cases hn : n = c
  · rw [if_pos hn]
    refine ⟨k + 1, ?_, ?_, ?_, Or.inr ?_⟩
    · rw [hck, pow_succ]
      omega
    · omega
    · have hpos : 0 < 2 ^ k := Nat.two_pow_pos k
      omega
    · show 2 ^ (k + 1 - 1) < n + 1
      rw [Nat.add_sub_cancel, ← hck]
      omega
  · rw [if_neg hn]
    refine ⟨k, hck, hk, by omega, ?_⟩
    rcases hleast with h | h
    · exact Or.inl h
    · exact Or.inr (by omega)

theorem LuaFile.DynamicArray.applyAll_push_backs :
    ∀ (vs : List LuaFile.Data) (d : LuaFile.DynamicArray),
      d.Valid → LuaFile.DynamicArray.CapacityFor d.pos d.size → d.pos + vs.length < 2 ^ 31 →
      ∃ d1, d.applyAll (vs.map LuaFile.PageOp.push_back) = some d1 ∧ d1.Valid ∧
        d1.pos = d.pos + vs.length ∧ LuaFile.DynamicArray.CapacityFor d1.pos d1.size := by
  intro vs
  induction vs with
  | nil =>
    intro d hd hc _
    exact ⟨d, rfl, hd, rfl, hc⟩
  | cons v vs ih =>
    intro d hd hc hroom
    simp only [List.length_cons] at hroom
    obtain ⟨d1, h1, hv1, hp1, hgrow, hkeep⟩ :=
      LuaFile.DynamicArray.push_back_doubles d v hd (by omega)
    have hc1 : LuaFile.DynamicArray.CapacityFor d1.pos d1.size := by
      have hstep := LuaFile.DynamicArray.capacityFor_step d.pos d.size hc
      rw [hp1]
      by_cases heq : d.pos = d.size
      · rw [if_pos heq] at hstep
        rw [hgrow heq]
        exact hstep
      · rw [if_neg heq] at hstep
        rw [hkeep heq]
        exact hstep
    obtain ⟨d2, h2, hv2, hp2, hc2⟩ := ih d1 hv1 hc1 (by omega)
    refine ⟨d2, ?_, hv2, ?_, hc2⟩
    · simp only [List.map_cons, LuaFile.DynamicArray.applyAll, LuaFile.DynamicArray.apply]
      rw [h1]
      exact h2
    · rw [hp2, hp1, List.length_cons]
      omega

/-- The capacity singled out by `CapacityFor` is `max(4, least power of two ≥ n)`. -/
theorem LuaFile.DynamicArray.capacityFor_eq (n c : Nat)
    (hc : LuaFile.DynamicArray.CapacityFor n c) : c = max 4 (2 ^ Nat.clog 2 n) := by
  obtain ⟨k, hck, hk, hle, hleast⟩ := hc
  have hclog : Nat.clog 2 n ≤ k := (Nat.le_pow_iff_clog_le (by decide)).1 (hck ▸ hle)
  have h4 : 4 ≤ c := by
    rw [hck]
    calc 4 = 2 ^ 2 := rfl
      _ ≤ 2 ^ k := Nat.pow_le_pow_right (by decide) hk
  rcases hleast with h | h
  · subst h
    have hp : 2 ^ Nat.clog 2 n ≤ 2 ^ 2 := Nat.pow_le_pow_right (by decide) hclog
    have hc4 : c = 4 := hck
    rw [hc4]
    omega
  · have hnot : ¬ Nat.clog 2 n ≤ k - 1 := by
      intro hcon
      have := (Nat.le_pow_iff_clog_le (by decide)).2 hcon
      omega
    have hkeq : Nat.clog 2 n = k := by omega
    rw [hkeq, ← hck]
    omega

/-- C28. For `n < 2 ^ 31`, a new page after `n` consecutive `push_back` calls has fill `n`
and capacity `max(4, least power of two ≥ n)`; and one more `push_back` grows the array
exactly when the fill equals the capacity, and then doubles the capacity. -/
theorem LuaFile.DynamicArray.capacity_after_appends (vs : List LuaFile.Data)
    (hn : vs.length < 2 ^ 31) :
    ∃ d, LuaFile.DynamicArray.ctor.applyAll (vs.map LuaFile.PageOp.push_back) = some d ∧
      d.pos = vs.length ∧ d.size = max 4 (2 ^ Nat.clog 2 vs.length) ∧
      (∀ v, ∃ d1, d.push_back v = some d1 ∧
        (d.pos = d.size → d1.size = 2 * d.size) ∧ (d.pos ≠ d.size → d1.size = d.size)) := by
  obtain ⟨d, h, hv, hp, hc⟩ :=
    LuaFile.DynamicArray.applyAll_push_backs vs LuaFile.DynamicArray.ctor
      LuaFile.DynamicArray.valid_ctor LuaFile.DynamicArray.capacityFor_ctor (by
        show 0 + _ < _
        omega)
  have hp0 : d.pos = vs.length := by
    rw [hp]
    show 0 + _ = _
    omega
  refine ⟨d, h, hp0, ?_, ?_⟩
  · rw [← hp0]
    exact LuaFile.DynamicArray.capacityFor_eq d.pos d.size hc
  · intro v
    obtain ⟨d1, h1, -, -, hgrow, hkeep⟩ :=
      LuaFile.DynamicArray.push_back_doubles d v hv (by omega)
    exact ⟨d1, h1, hgrow, hkeep⟩

theorem LuaFile.DynamicArray.capacity_after_appends_witness :
    LuaFile.sixSpans.length < 2 ^ 31 ∧
    ∃ d, LuaFile.DynamicArray.ctor.applyAll (LuaFile.sixSpans.map LuaFile.PageOp.push_back)
        = some d ∧
      d.pos = LuaFile.sixSpans.length ∧ d.size = max 4 (2 ^ Nat.clog 2 LuaFile.sixSpans.length) ∧
      (∀ v, ∃ d1, d.push_back v = some d1 ∧
        (d.pos = d.size → d1.size = 2 * d.size) ∧ (d.pos ≠ d.size → d1.size = d.size)) :=
  ⟨by decide, LuaFile.DynamicArray.capacity_after_appends LuaFile.sixSpans (by decide)⟩

/-! ## What `operator++` does -/

theorem LuaFile.iterator.getNext_fill_zero (it : LuaFile.iterator) (L : LuaFile) (a : Nat)
    (nd : LuaFile.Queue.Node) (hreg : it.region = some a) (hnode : L.heap.deref a = some nd)
    (hfill : nd.data.pos = 0) :
    it.getNext L = some { it with word := (it.word + 1) % 2 ^ 64 } := by
  unfold LuaFile.iterator.getNext
  rw [hreg]
  simp only []
  rw [hnode]
  simp only []
  rw [if_neg (by rw [hfill]; simp)]

theorem LuaFile.iterator.getNext_reset (it : LuaFile.iterator) (L : LuaFile) (a : Nat)
    (nd : LuaFile.Queue.Node) (hreg : it.region = some a) (hnode : L.heap.deref a = some nd)
    (hfill : nd.data.pos ≠ 0) (hword : it.word ≠ nd.data.pos) :
    it.getNext L = some { it with word := 0 } := by
  have hloop : LuaFile.iterator.getNextLoop L.heap it.word L.heap.length (some a)
      = some (some a) := by
    unfold LuaFile.iterator.getNextLoop
    rw [hnode]
    simp only []
    rw [if_neg (fun h => hword h.symm)]
  unfold LuaFile.iterator.getNext
  rw [hreg]
  simp only []
  rw [hnode]
  simp only []
  rw [if_pos hfill, hloop]

/-- The loop of `getNext` along a chain: it stops at the first page whose fill differs
from `word`, or at `nullptr`. -/
theorem LuaFile.iterator.getNextLoop_chain (h : LuaFile.Heap) (word : Nat) :
    ∀ (l : List (Nat × LuaFile.DynamicArray)) (p : Option Nat) (fuel : Nat),
      h.Chain p l → l.length ≤ fuel →
      LuaFile.iterator.getNextLoop h word fuel p =
        some ((l.find? (fun x => decide (x.2.pos ≠ word))).map (fun x => x.1)) := by
  intro l
  induction l with
  | nil =>
    intro p fuel hc _
    simp only [LuaFile.Heap.Chain] at hc
    rw [hc]
    unfold LuaFile.iterator.getNextLoop
    rfl
  | cons x l ih =>
    intro p fuel hc hfuel
    obtain ⟨a, d⟩ := x
    simp only [LuaFile.Heap.Chain] at hc
    obtain ⟨hp, nx, hcell, hrest⟩ := hc
    rw [hp]
    unfold LuaFile.iterator.getNextLoop
    rw [LuaFile.Heap.deref_of_cell h a _ hcell]
    simp only []
    by_cases hpos : d.pos = word
    · rw [if_pos hpos]
      simp only [List.length_cons] at hfuel
      obtain ⟨f, rfl⟩ : ∃ f, fuel = f + 1 := ⟨fuel - 1, by omega⟩
      simp only []
      rw [ih nx f hrest (by omega), List.find?_cons]
      simp [hpos]
    · rw [if_neg hpos, List.find?_cons]
      simp [hpos]

theorem LuaFile.Heap.chain_lt_length (h : LuaFile.Heap) :
    ∀ (l : List (Nat × LuaFile.DynamicArray)) (p : Option Nat),
      h.Chain p l → ∀ a, a ∈ l.map (fun x => x.1) → a < h.length := by
  intro l
  induction l with
  | nil =>
    intro p _ a ha
    exact absurd ha (List.not_mem_nil a)
  | cons x l ih =>
    intro p hc a ha
    obtain ⟨b, d⟩ := x
    simp only [LuaFile.Heap.Chain] at hc
    obtain ⟨-, nx, hcell, hrest⟩ := hc
    simp only [List.map_cons, List.mem_cons] at ha
    rcases ha with hab | hmem
    · subst hab
      by_contra hcon
      rw [List.getElem?_eq_none (by omega)] at hcell
      exact Option.noConfusion hcell
    · exact ih nx hrest a hmem

theorem LuaFile.Heap.chain_nodup (h : LuaFile.Heap) :
    ∀ (l : List (Nat × LuaFile.DynamicArray)) (p : Option Nat),
      h.Chain p l → (l.map (fun x => x.1)).Nodup := by
  intro l
  induction l with
  | nil =>
    intro p _
    exact List.nodup_nil
  | cons x l ih =>
    intro p hc
    obtain ⟨b, d⟩ := x
    have hfresh := LuaFile.Heap.chain_head_fresh h b d l p hc
    simp only [LuaFile.Heap.Chain] at hc
    obtain ⟨-, nx, -, hrest⟩ := hc
    simp only [List.map_cons, List.nodup_cons]
    refine ⟨?_, ih nx hrest⟩
    intro hmem
    obtain ⟨y, hy, hyb⟩ := List.mem_map.1 hmem
    obtain ⟨c, e⟩ := y
    simp only at hyb
    subst hyb
    exact hfresh e hy

/-- A chain has no more nodes than the store has cells. -/
theorem LuaFile.Heap.chain_length_le (h : LuaFile.Heap) (l : List (Nat × LuaFile.DynamicArray))
    (p : Option Nat) (hc : h.Chain p l) : l.length ≤ h.length := by
  have hsub : l.map (fun x => x.1) ⊆ List.range h.length := by
    intro a ha
    exact List.mem_range.2 (LuaFile.Heap.chain_lt_length h l p hc a ha)
  have hlen := (List.subperm_of_subset (LuaFile.Heap.chain_nodup h l p hc) hsub).length_le
  simpa using hlen

theorem LuaFile.iterator.getNext_move (it : LuaFile.iterator) (L : LuaFile) (a : Nat)
    (d : LuaFile.DynamicArray) (rest : List (Nat × LuaFile.DynamicArray))
    (hreg : it.region = some a) (hc : L.heap.Chain (some a) ((a, d) :: rest))
    (hfill : d.pos ≠ 0) (hword : it.word = d.pos) :
    it.getNext L =
      some { it with
        region := (rest.find? (fun x => decide (x.2.pos ≠ it.word))).map (fun x => x.1),
        word := 0 } := by
  have hlen := LuaFile.Heap.chain_length_le L.heap _ _ hc
  have hloop := LuaFile.iterator.getNextLoop_chain L.heap it.word _ (some a) L.heap.length hc hlen
  simp only [LuaFile.Heap.Chain] at hc
  obtain ⟨-, nx, hcell, -⟩ := hc
  unfold LuaFile.iterator.getNext
  rw [hreg]
  simp only []
  rw [LuaFile.Heap.deref_of_cell L.heap a _ hcell]
  simp only []
  rw [if_pos hfill, hloop, List.find?_cons]
  simp [hword]

/-- C25. What `operator++` does to a cursor, the document staying as it is in every case.
In the End state: nothing. On a page with fill 0: the page is kept and the position goes up
by one (computed on `size_t`). On a page with fill `≠ 0` and a position different from the
fill: the page is kept and the position becomes 0. On a page with fill `≠ 0` and the
position equal to the fill: the cursor moves to the first following page of the chain whose
fill differs from that position, or to the End state when there is none, at position 0. -/
theorem LuaFile.iterator.operator_inc_cases (it : LuaFile.iterator) (L : LuaFile) :
    (it.region = none → it.apply L .inc = some (it, L)) ∧
    (∀ (a : Nat) (nd : LuaFile.Queue.Node), it.region = some a → L.heap.deref a = some nd →
      nd.data.pos = 0 →
      it.apply L .inc = some ({ it with word := (it.word + 1) % 2 ^ 64 }, L) ∧
      (it.word + 1 < 2 ^ 64 → it.apply L .inc = some ({ it with word := it.word + 1 }, L))) ∧
    (∀ (a : Nat) (nd : LuaFile.Queue.Node), it.region = some a → L.heap.deref a = some nd →
      nd.data.pos ≠ 0 → it.word ≠ nd.data.pos →
      it.apply L .inc = some ({ it with word := 0 }, L)) ∧
    (∀ (a : Nat) (d : LuaFile.DynamicArray) (rest : List (Nat × LuaFile.DynamicArray)),
      it.region = some a → L.heap.Chain (some a) ((a, d) :: rest) →
      d.pos ≠ 0 → it.word = d.pos →
      it.apply L .inc =
        some ({ it with
          region := (rest.find? (fun x => decide (x.2.pos ≠ it.word))).map (fun x => x.1),
          word := 0 }, L)) := by
  refine ⟨?_, ?_, ?_, ?_⟩
  · intro hreg
    exact LuaFile.iterator.apply_at_end it L .inc hreg rfl
  · intro a nd hreg hnode hfill
    have h := LuaFile.iterator.getNext_fill_zero it L a nd hreg hnode hfill
    have h1 : it.apply L .inc = some ({ it with word := (it.word + 1) % 2 ^ 64 }, L) := by
      simp only [LuaFile.iterator.apply, LuaFile.iterator.operator_inc]
      rw [h]
    refine ⟨h1, ?_⟩
    intro hlt
    rw [h1, Nat.mod_eq_of_lt hlt]
  · intro a nd hreg hnode hfill hword
    simp only [LuaFile.iterator.apply, LuaFile.iterator.operator_inc]
    rw [LuaFile.iterator.getNext_reset it L a nd hreg hnode hfill hword]
  · intro a d rest hreg hc hfill hword
    simp only [LuaFile.iterator.apply, LuaFile.iterator.operator_inc]
    rw [LuaFile.iterator.getNext_move it L a d rest hreg hc hfill hword]

theorem LuaFile.iterator.operator_inc_cases_witness :
    ({ ptr := 0, region := none, word := 5 } : LuaFile.iterator).apply LuaFile.sampleFile .inc
      = some ({ ptr := 0, region := none, word := 5 }, LuaFile.sampleFile) ∧
    ({ ptr := 0, region := some 0, word := 3 } : LuaFile.iterator).apply LuaFile.onePage .inc
      = some ({ ptr := 0, region := some 0, word := 4 }, LuaFile.onePage) ∧
    ({ ptr := 0, region := some 0, word := 1 } : LuaFile.iterator).apply LuaFile.sampleFile .inc
      = some ({ ptr := 0, region := some 0, word := 0 }, LuaFile.sampleFile) ∧
    ({ ptr := 0, region := some 0, word := 2 } : LuaFile.iterator).apply LuaFile.sampleFile .inc
      = some ({ ptr := 0, region := some 1, word := 0 }, LuaFile.sampleFile) :=
  ⟨(LuaFile.iterator.operator_inc_cases { ptr := 0, region := none, word := 5 }
      LuaFile.sampleFile).1 rfl,
    ((LuaFile.iterator.operator_inc_cases { ptr := 0, region := some 0, word := 3 }
      LuaFile.onePage).2.1 0 { data := LuaFile.DynamicArray.ctor, next := none }
      rfl rfl rfl).2 (by decide),
    (LuaFile.iterator.operator_inc_cases { ptr := 0, region := some 0, word := 1 }
      LuaFile.sampleFile).2.2.1 0 { data := LuaFile.samplePage0, next := some 1 }
      rfl rfl (by decide) (by decide),
    (LuaFile.iterator.operator_inc_cases { ptr := 0, region := some 0, word := 2 }
      LuaFile.sampleFile).2.2.2 0 LuaFile.samplePage0 [(1, LuaFile.samplePage1)]
      rfl LuaFile.chain_sampleFile (by decide) rfl⟩

theorem LuaFile.iterator.advance_fill_zero (L : LuaFile) (a : Nat) (nd : LuaFile.Queue.Node)
    (hnode : L.heap.deref a = some nd) (hfill : nd.data.pos = 0) :
    ∀ (k : Nat) (it : LuaFile.iterator), it.region = some a → it.word < 2 ^ 64 →
      LuaFile.iterator.advance L k it = some { it with word := (it.word + k) % 2 ^ 64 } := by
  intro k
  induction k with
  | zero =>
    intro it _ hw
    simp only [LuaFile.iterator.advance, Nat.add_zero, Nat.mod_eq_of_lt hw]
  | succ k ih =>
    intro it hreg hw
    simp only [LuaFile.iterator.advance, LuaFile.iterator.operator_inc]
    rw [LuaFile.iterator.getNext_fill_zero it L a nd hreg hnode hfill]
    simp only []
    have hlt : (it.word + 1) % 2 ^ 64 < 2 ^ 64 := Nat.mod_lt _ (by decide)
    rw [ih { ptr := it.ptr, region := it.region, word := (it.word + 1) % 2 ^ 64 } hreg hlt]
    have : ((it.word + 1) % 2 ^ 64 + k) % 2 ^ 64 = (it.word + (k + 1)) % 2 ^ 64 := by omega
    simp only [this]

theorem LuaFile.iterator.advance_fill_pos (L : LuaFile) (a : Nat) (nd : LuaFile.Queue.Node)
    (hnode : L.heap.deref a = some nd) (hfill : nd.data.pos ≠ 0) (it : LuaFile.iterator)
    (hreg : it.region = some a) (hword : it.word = 0) :
    ∀ k, LuaFile.iterator.advance L k it = some it := by
  have hstep : it.getNext L = some it := by
    rw [LuaFile.iterator.getNext_reset it L a nd hreg hnode hfill
      (by rw [hword]; exact fun h => hfill h.symm)]
    cases it
    simp_all
  intro k
  induction k with
  | zero => rfl
  | succ k ih =>
    simp only [LuaFile.iterator.advance, LuaFile.iterator.operator_inc]
    rw [hstep]
    exact ih

/-- C26. On a `LuaFile` with at least one page (the node `nd` at `first`), with no `push`
or `write` in between, the cursor obtained from `begin()` is after any number `k` of
`operator++` calls not in the End state: it is on the first page, at position 0 when the
page has fill `≥ 1`, and at position `k` (as a `size_t`: `k` modulo `2 ^ 64`) when the
page has fill 0. -/
theorem LuaFile.iterator.begin_never_ends (L : LuaFile) (a : Nat) (nd : LuaFile.Queue.Node)
    (hfirst : L.file.first = some a) (hnode : L.heap.deref a = some nd) (k : Nat) :
    ∃ it, LuaFile.iterator.advance L k L.begin = some it ∧
      it.end_ = false ∧ it.region = some a ∧
      (1 ≤ nd.data.pos → it.word = 0) ∧
      (nd.data.pos = 0 → it.word = k % 2 ^ 64 ∧ (k < 2 ^ 64 → it.word = k)) := by
  have hreg : L.begin.region = some a := hfirst
  by_cases hfill : nd.data.pos = 0
  · refine ⟨_, LuaFile.iterator.advance_fill_zero L a nd hnode hfill k L.begin hreg
      (by show 0 < 2 ^ 64; decide), ?_, hreg, ?_, ?_⟩
    · simp [LuaFile.iterator.end_, hreg]
    · intro h
      omega
    · intro _
      have hk : (L.begin.word + k) % 2 ^ 64 = k % 2 ^ 64 := by
        show (0 + k) % 2 ^ 64 = k % 2 ^ 64
        rw [Nat.zero_add]
      exact ⟨hk, fun hlt => by
        show (L.begin.word + k) % 2 ^ 64 = k
        rw [hk, Nat.mod_eq_of_lt hlt]⟩
  · refine ⟨_, LuaFile.iterator.advance_fill_pos L a nd hnode hfill L.begin hreg rfl k,
      ?_, hreg, fun _ => rfl, fun h => absurd h hfill⟩
    simp [LuaFile.iterator.end_, hreg]

theorem LuaFile.iterator.begin_never_ends_witness :
    LuaFile.sampleFile.file.first = some 0 ∧
    LuaFile.sampleFile.heap.deref 0 = some { data := LuaFile.samplePage0, next := some 1 } ∧
    ∃ it, LuaFile.iterator.advance LuaFile.sampleFile 5 LuaFile.sampleFile.begin = some it ∧
      it.end_ = false ∧ it.region = some 0 ∧
      (1 ≤ LuaFile.samplePage0.pos → it.word = 0) ∧
      (LuaFile.samplePage0.pos = 0 → it.word = 5 % 2 ^ 64 ∧ (5 < 2 ^ 64 → it.word = 5)) :=
  ⟨rfl, rfl, LuaFile.iterator.begin_never_ends LuaFile.sampleFile 0
    { data := LuaFile.samplePage0, next := some 1 } rfl rfl 5⟩

/-! ## One cursor writes to one page -/

theorem LuaFile.Queue.push_length (h h1 : LuaFile.Heap) (q q1 : LuaFile.Queue)
    (hp : LuaFile.Queue.push h q = some (h1, q1)) : h1.length = h.length + 1 := by
  unfold LuaFile.Queue.push at hp
  cases hl : q.last with
  | none =>
    rw [hl] at hp
    simp only [Option.some.injEq, Prod.mk.injEq] at hp
    rw [← hp.1]
    simp
  | some l =>
    rw [hl] at hp
    simp only [] at hp
    cases hd : (h ++ [some ({ data := LuaFile.DynamicArray.ctor, next := none } :
        LuaFile.Queue.Node)]).deref l with
    | none =>
      rw [hd] at hp
      exact Option.noConfusion hp
    | some n =>
      rw [hd] at hp
      simp only [Option.some.injEq, Prod.mk.injEq] at hp
      rw [← hp.1]
      simp

theorem LuaFile.iterator.exec_heap_length (it it1 : LuaFile.iterator) (L L1 : LuaFile)
    (o : LuaFile.Op) (h : it.exec L o = some (it1, L1)) :
    L1.heap.length = L.heap.length + (if o.isPush then 1 else 0) := by
  cases o with
  | push =>
    simp only [LuaFile.iterator.exec, LuaFile.iterator.push] at h
    cases hp : LuaFile.Queue.push L.heap L.file with
    | none =>
      rw [hp] at h
      exact Option.noConfusion h
    | some hq =>
      obtain ⟨h1, q1⟩ := hq
      rw [hp] at h
      have hlen := LuaFile.Queue.push_length _ _ _ _ hp
      simp only [LuaFile.Op.isPush, if_true]
      simp only [] at h
      by_cases hreg : it.region = none
      · rw [if_pos hreg] at h
        have hL : L1 = { L with heap := h1, file := q1 } :=
          (congrArg Prod.snd (Option.some.inj h)).symm
        rw [hL]
        exact hlen
      · rw [if_neg hreg] at h
        have hL : L1 = { L with heap := h1, file := q1 } :=
          (congrArg Prod.snd (Option.some.inj h)).symm
        rw [hL]
        exact hlen
  | write a b =>
    simp only [LuaFile.iterator.exec, LuaFile.iterator.write] at h
    simp only [LuaFile.Op.isPush, Bool.false_eq_true, if_false, Nat.add_zero]
    cases hreg : it.region with
    | none =>
      rw [hreg] at h
      simp only [Option.some.injEq, Prod.mk.injEq] at h
      rw [← h.2]
    | some r =>
      rw [hreg] at h
      simp only [] at h
      cases hd : L.heap.deref r with
      | none =>
        rw [hd] at h
        exact Option.noConfusion h
      | some n =>
        rw [hd] at h
        simp only [] at h
        cases hpb : n.data.push_back { start := a, end_ := b } with
        | none =>
          rw [hpb] at h
          exact Option.noConfusion h
        | some d =>
          rw [hpb] at h
          simp only [Option.some.injEq, Prod.mk.injEq] at h
          rw [← h.2]
          simp

theorem LuaFile.iterator.execAll_heap_length :
    ∀ (os : List LuaFile.Op) (it it1 : LuaFile.iterator) (L L1 : LuaFile),
      it.execAll L os = some (it1, L1) →
      L1.heap.length = L.heap.length + os.countP LuaFile.Op.isPush := by
  intro os
  induction os with
  | nil =>
    intro it it1 L L1 h
    simp only [LuaFile.iterator.execAll, Option.some.injEq, Prod.mk.injEq] at h
    rw [← h.2]
    simp
  | cons o os ih =>
    intro it it1 L L1 h
    simp only [LuaFile.iterator.execAll] at h
    cases ho : it.exec L o with
    | none =>
      rw [ho] at h
      exact Option.noConfusion h
    | some p =>
      obtain ⟨it2, L2⟩ := p
      rw [ho] at h
      simp only [] at h
      rw [ih it2 it1 L2 L1 h, LuaFile.iterator.exec_heap_length it it2 L L2 o ho,
        List.countP_cons]
      omega

/-- C27. For one cursor obtained from `begin()` on an empty `LuaFile` and any sequence of
`push` and `write` calls on it (at most `2 ^ 32 - 1` writes): the chain has one page per
`push`; the first page holds, in its slots from 0 on and in call order, all the appended
spans; and every page created by the second or a later `push` has fill 0. -/
theorem LuaFile.one_cursor_first_page (self : Nat) (os : List LuaFile.Op)
    (hos : os.countP LuaFile.Op.isWrite ≤ 2 ^ 32 - 1) :
    ∃ it1 L1, (LuaFile.ctor self).begin.execAll (LuaFile.ctor self) os = some (it1, L1) ∧
      L1.heap.length = os.countP LuaFile.Op.isPush ∧
      L1.Rep L1.heap.length (LuaFile.onFirst (LuaFile.Op.appended false os)) ∧
      (1 ≤ L1.heap.length →
        ∃ nd, L1.heap.deref 0 = some nd ∧
          nd.data.pos = (LuaFile.Op.appended false os).length ∧
          ∀ i, i < (LuaFile.Op.appended false os).length →
            nd.data.slot i = (LuaFile.Op.appended false os)[i]?) ∧
      (∀ r, 1 ≤ r → r < L1.heap.length →
        ∃ nd, L1.heap.deref r = some nd ∧ nd.data.pos = 0) := by
  obtain ⟨it1, L1, n1, hexec, hrep, -, -⟩ := LuaFile.built_by_one_cursor self os hos
  have hlen := LuaFile.iterator.execAll_heap_length os _ it1 _ L1 hexec
  have hn1 : L1.heap.length = n1 := hrep.1
  refine ⟨it1, L1, hexec, ?_, by rw [hn1]; exact hrep, ?_, ?_⟩
  · rw [hlen]
    show 0 + _ = _
    omega
  · intro h1
    obtain ⟨d, hcell, hv, hpos, harr⟩ := hrep.2.2.2 0 (by omega)
    refine ⟨_, LuaFile.Heap.deref_of_cell L1.heap 0 _ hcell, ?_, ?_⟩
    · exact hpos
    · intro i hi
      have hps := hv.2.2
      have hi2 : i < (LuaFile.onFirst (LuaFile.Op.appended false os) 0).length := hi
      show d.slot i = _
      simp only [LuaFile.DynamicArray.slot]
      rw [if_pos (by omega), harr i hi2]
      rfl
  · intro r hr1 hr2
    obtain ⟨d, hcell, -, hpos, -⟩ := hrep.2.2.2 r (by omega)
    refine ⟨_, LuaFile.Heap.deref_of_cell L1.heap r _ hcell, ?_⟩
    show d.pos = 0
    rw [hpos]
    simp [LuaFile.onFirst]
    omega

theorem LuaFile.one_cursor_first_page_witness :
    LuaFile.threePushes.countP LuaFile.Op.isWrite ≤ 2 ^ 32 - 1 ∧
    ∃ it1 L1, (LuaFile.ctor 0).begin.execAll (LuaFile.ctor 0) LuaFile.threePushes
        = some (it1, L1) ∧
      L1.heap.length = LuaFile.threePushes.countP LuaFile.Op.isPush ∧
      L1.Rep L1.heap.length (LuaFile.onFirst (LuaFile.Op.appended false LuaFile.threePushes)) ∧
      (1 ≤ L1.heap.length →
        ∃ nd, L1.heap.deref 0 = some nd ∧
          nd.data.pos = (LuaFile.Op.appended false LuaFile.threePushes).length ∧
          ∀ i, i < (LuaFile.Op.appended false LuaFile.threePushes).length →
            nd.data.slot i = (LuaFile.Op.appended false LuaFile.threePushes)[i]?) ∧
      (∀ r, 1 ≤ r → r < L1.heap.length →
        ∃ nd, L1.heap.deref r = some nd ∧ nd.data.pos = 0) :=
  ⟨by decide, LuaFile.one_cursor_first_page 0 LuaFile.threePushes (by decide)⟩

/-! ## `size()` and `dump` change nothing -/

theorem LuaFile.Heap.cell_of_deref (h : LuaFile.Heap) (a : Nat) (n : LuaFile.Queue.Node)
    (hd : h.deref a = some n) : h[a]? = some (some n) := by
  unfold LuaFile.Heap.deref at hd
  cases hc : h[a]? with
  | none =>
    rw [hc] at hd
    exact Option.noConfusion hd
  | some x =>
    cases x with
    | none =>
      rw [hc] at hd
      exact Option.noConfusion hd
    | some m =>
      rw [hc] at hd
      simp only [Option.some.injEq] at hd
      rw [hd]

/-- A read below the capacity does not change the page, and it returns what the slot
holds. -/
theorem LuaFile.DynamicArray.read_inside (d d1 : LuaFile.DynamicArray) (i : Nat)
    (v : LuaFile.Data) (hi : i < d.size) (h : d.read i = some (v, d1)) :
    d1 = d ∧ d.arr i = some v := by
  unfold LuaFile.DynamicArray.read at h
  rw [LuaFile.DynamicArray.operator_index_inside d i hi] at h
  simp only [LuaFile.DynamicArray.slot, if_pos hi] at h
  cases ha : d.arr i with
  | none =>
    rw [ha] at h
    exact Option.noConfusion h
  | some w =>
    rw [ha] at h
    simp only [Option.some.injEq, Prod.mk.injEq] at h
    exact ⟨h.2.symm, by rw [h.1]⟩

theorem LuaFile.DynamicArray.read_written (d : LuaFile.DynamicArray) (i : Nat)
    (v : LuaFile.Data) (hi : i < d.size) (ha : d.arr i = some v) : d.read i = some (v, d) := by
  unfold LuaFile.DynamicArray.read
  rw [LuaFile.DynamicArray.operator_index_inside d i hi]
  simp only [LuaFile.DynamicArray.slot, if_pos hi]
  rw [ha]

theorem LuaFile.DynamicArray.sizeLoop_read_only (d : LuaFile.DynamicArray)
    (hcap : d.pos ≤ d.size) :
    ∀ (k i acc r : Nat) (d1 : LuaFile.DynamicArray),
      LuaFile.DynamicArray.sizeLoop k i acc d = some (r, d1) → d1 = d := by
  intro k
  induction k with
  | zero =>
    intro i acc r d1 h
    simp only [LuaFile.DynamicArray.sizeLoop] at h
    split at h
    · exact Option.noConfusion h
    · simp only [Option.some.injEq, Prod.mk.injEq] at h
      exact h.2.symm
  | succ k ih =>
    intro i acc r d1 h
    simp only [LuaFile.DynamicArray.sizeLoop] at h
    by_cases hi : i < d.pos
    · rw [if_pos hi] at h
      cases h1 : d.read i with
      | none =>
        rw [h1] at h
        exact Option.noConfusion h
      | some p1 =>
        obtain ⟨v1, e1⟩ := p1
        have he1 := (LuaFile.DynamicArray.read_inside d e1 i v1 (by omega) h1).1
        subst he1
        rw [h1] at h
        simp only [] at h
        rw [h1] at h
        simp only [] at h
        exact ih _ _ _ _ h
    · rw [if_neg hi] at h
      simp only [Option.some.injEq, Prod.mk.injEq] at h
      exact h.2.symm

theorem LuaFile.DynamicArray.dumpLoop_read_only (mem : Nat → LuaFile.Byte)
    (d : LuaFile.DynamicArray) (hcap : d.pos ≤ d.size) :
    ∀ (k i : Nat) (out out1 : LuaFile.ostream) (d1 : LuaFile.DynamicArray),
      LuaFile.DynamicArray.dumpLoop mem k i out d = some (out1, d1) → d1 = d := by
  intro k
  induction k with
  | zero =>
    intro i out out1 d1 h
    simp only [LuaFile.DynamicArray.dumpLoop] at h
    split at h
    · exact Option.noConfusion h
    · simp only [Option.some.injEq, Prod.mk.injEq] at h
      exact h.2.symm
  | succ k ih =>
    intro i out out1 d1 h
    simp only [LuaFile.DynamicArray.dumpLoop] at h
    by_cases hi : i < d.pos
    · rw [if_pos hi] at h
      cases h1 : d.read i with
      | none =>
        rw [h1] at h
        exact Option.noConfusion h
      | some p1 =>
        obtain ⟨v1, e1⟩ := p1
        have he1 := (LuaFile.DynamicArray.read_inside d e1 i v1 (by omega) h1).1
        subst he1
        rw [h1] at h
        simp only [] at h
        rw [h1] at h
        simp only [] at h
        rw [h1] at h
        simp only [] at h
        exact ih _ _ _ _ h
    · rw [if_neg hi] at h
      simp only [Option.some.injEq, Prod.mk.injEq] at h
      exact h.2.symm

theorem LuaFile.sizeWalk_read_only (h : LuaFile.Heap)
    (hcap : ∀ a nd, h.deref a = some nd → nd.data.pos ≤ nd.data.size) :
    ∀ (fuel : Nat) (p : Option Nat) (acc r : Nat) (h1 : LuaFile.Heap),
      LuaFile.sizeWalk fuel p acc h = some (r, h1) → h1 = h := by
  intro fuel
  induction fuel with
  | zero =>
    intro p acc r h1 hw
    cases p with
    | none =>
      simp only [LuaFile.sizeWalk, Option.some.injEq, Prod.mk.injEq] at hw
      exact hw.2.symm
    | some a =>
      simp only [LuaFile.sizeWalk] at hw
      exact Option.noConfusion hw
  | succ fuel ih =>
    intro p acc r h1 hw
    cases p with
    | none =>
      simp only [LuaFile.sizeWalk, Option.some.injEq, Prod.mk.injEq] at hw
      exact hw.2.symm
    | some a =>
      simp only [LuaFile.sizeWalk] at hw
      cases hd : h.deref a with
      | none =>
        rw [hd] at hw
        exact Option.noConfusion hw
      | some n =>
        rw [hd] at hw
        simp only [] at hw
        cases hl : LuaFile.DynamicArray.sizeLoop n.data.pos 0 acc n.data with
        | none =>
          rw [hl] at hw
          exact Option.noConfusion hw
        | some pr =>
          obtain ⟨acc1, d1⟩ := pr
          have hd1 := LuaFile.DynamicArray.sizeLoop_read_only n.data (hcap a n hd) _ _ _ _ _ hl
          subst hd1
          rw [hl] at hw
          simp only [] at hw
          rw [LuaFile.Heap.set_same h a _ (LuaFile.Heap.cell_of_deref h a n hd)] at hw
          exact ih _ _ _ _ hw

theorem LuaFile.dumpWalk_read_only (mem : Nat → LuaFile.Byte) (h : LuaFile.Heap)
    (hcap : ∀ a nd, h.deref a = some nd → nd.data.pos ≤ nd.data.size) :
    ∀ (fuel : Nat) (p : Option Nat) (out out1 : LuaFile.ostream) (h1 : LuaFile.Heap),
      LuaFile.dumpWalk mem fuel p out h = some (out1, h1) → h1 = h := by
  intro fuel
  induction fuel with
  | zero =>
    intro p out out1 h1 hw
    cases p with
    | none =>
      simp only [LuaFile.dumpWalk, Option.some.injEq, Prod.mk.injEq] at hw
      exact hw.2.symm
    | some a =>
      simp only [LuaFile.dumpWalk] at hw
      exact Option.noConfusion hw
  | succ fuel ih =>
    intro p out out1 h1 hw
    cases p with
    | none =>
      simp only [LuaFile.dumpWalk, Option.some.injEq, Prod.mk.injEq] at hw
      exact hw.2.symm
    | some a =>
      simp only [LuaFile.dumpWalk] at hw
      cases hd : h.deref a with
      | none =>
        rw [hd] at hw
        exact Option.noConfusion hw
      | some n =>
        rw [hd] at hw
        simp only [] at hw
        cases hl : LuaFile.DynamicArray.dumpLoop mem n.data.pos 0 out n.data with
        | none =>
          rw [hl] at hw
          exact Option.noConfusion hw
        | some pr =>
          obtain ⟨o1, d1⟩ := pr
          have hd1 :=
            LuaFile.DynamicArray.dumpLoop_read_only mem n.data (hcap a n hd) _ _ _ _ _ hl
          subst hd1
          rw [hl] at hw
          simp only [] at hw
          rw [LuaFile.Heap.set_same h a _ (LuaFile.Heap.cell_of_deref h a n hd)] at hw
          exact ih _ _ _ _ hw

theorem LuaFile.DynamicArray.sizeLoop_defined (d : LuaFile.DynamicArray)
    (hcap : d.pos ≤ d.size) (hlive : ∀ i, i < d.pos → ∃ v, d.arr i = some v) :
    ∀ (k i acc : Nat), i + k = d.pos →
      ∃ r, LuaFile.DynamicArray.sizeLoop k i acc d = some (r, d) := by
  intro k
  induction k with
  | zero =>
    intro i acc hik
    simp only [LuaFile.DynamicArray.sizeLoop]
    rw [if_neg (by omega)]
    exact ⟨acc, rfl⟩
  | succ k ih =>
    intro i acc hik
    obtain ⟨v, hv⟩ := hlive i (by omega)
    have hread := LuaFile.DynamicArray.read_written d i v (by omega) hv
    simp only [LuaFile.DynamicArray.sizeLoop]
    rw [if_pos (by omega), hread]
    simp only []
    rw [hread]
    simp only []
    exact ih (i + 1) _ (by omega)

theorem LuaFile.DynamicArray.dumpLoop_defined (mem : Nat → LuaFile.Byte)
    (d : LuaFile.DynamicArray) (hcap : d.pos ≤ d.size)
    (hlive : ∀ i, i < d.pos → ∃ v, d.arr i = some v) :
    ∀ (k i : Nat) (out : LuaFile.ostream), i + k = d.pos →
      ∃ out1, LuaFile.DynamicArray.dumpLoop mem k i out d = some (out1, d) := by
  intro k
  induction k with
  | zero =>
    intro i out hik
    simp only [LuaFile.DynamicArray.dumpLoop]
    rw [if_neg (by omega)]
    exact ⟨out, rfl⟩
  | succ k ih =>
    intro i out hik
    obtain ⟨v, hv⟩ := hlive i (by omega)
    have hread := LuaFile.DynamicArray.read_written d i v (by omega) hv
    simp only [LuaFile.DynamicArray.dumpLoop]
    rw [if_pos (by omega), hread]
    simp only []
    rw [hread]
    simp only []
    rw [hread]
    simp only []
    exact ih (i + 1) _ (by omega)

theorem LuaFile.sizeWalk_defined (h : LuaFile.Heap) (ps : List LuaFile.DynamicArray)
    (hcell : ∀ (r : Nat) (d : LuaFile.DynamicArray), ps[r]? = some d →
      h[r]? = some (some { data := d, next := LuaFile.nextOf ps.length r }))
    (hpages : ∀ d, d ∈ ps → d.pos ≤ d.size ∧ ∀ i, i < d.pos → ∃ v, d.arr i = some v) :
    ∀ (c r fuel acc : Nat), r + c = ps.length → c ≤ fuel →
      ∃ res, LuaFile.sizeWalk fuel (if c = 0 then none else some r) acc h = some (res, h) := by
  intro c
  induction c with
  | zero =>
    intro r fuel acc _ _
    rw [if_pos rfl]
    cases fuel <;> exact ⟨acc, rfl⟩
  | succ c ih =>
    intro r fuel acc hrc hfuel
    obtain ⟨fuel, rfl⟩ : ∃ f, fuel = f + 1 := ⟨fuel - 1, by omega⟩
    have hr : r < ps.length := by omega
    have hd := hcell r ps[r] (List.getElem?_eq_getElem hr)
    obtain ⟨hcap, hlive⟩ := hpages ps[r] (List.getElem_mem hr)
    obtain ⟨acc1, hl⟩ := LuaFile.DynamicArray.sizeLoop_defined ps[r] hcap hlive ps[r].pos 0 acc
      (by omega)
    rw [if_neg (by omega)]
    simp only [LuaFile.sizeWalk]
    rw [LuaFile.Heap.deref_of_cell h r _ hd]
    simp only []
    rw [hl]
    simp only []
    rw [LuaFile.Heap.set_same h r _ hd, LuaFile.nextOf_eq ps.length c r hrc]
    exact ih (r + 1) fuel acc1 (by omega) (by omega)

theorem LuaFile.dumpWalk_defined (mem : Nat → LuaFile.Byte) (h : LuaFile.Heap)
    (ps : List LuaFile.DynamicArray)
    (hcell : ∀ (r : Nat) (d : LuaFile.DynamicArray), ps[r]? = some d →
      h[r]? = some (some { data := d, next := LuaFile.nextOf ps.length r }))
    (hpages : ∀ d, d ∈ ps → d.pos ≤ d.size ∧ ∀ i, i < d.pos → ∃ v, d.arr i = some v) :
    ∀ (c r fuel : Nat) (out : LuaFile.ostream), r + c = ps.length → c ≤ fuel →
      ∃ out1, LuaFile.dumpWalk mem fuel (if c = 0 then none else some r) out h
        = some (out1, h) := by
  intro c
  induction c with
  | zero =>
    intro r fuel out _ _
    rw [if_pos rfl]
    cases fuel <;> exact ⟨out, rfl⟩
  | succ c ih =>
    intro r fuel out hrc hfuel
    obtain ⟨fuel, rfl⟩ : ∃ f, fuel = f + 1 := ⟨fuel - 1, by omega⟩
    have hr : r < ps.length := by omega
    have hd := hcell r ps[r] (List.getElem?_eq_getElem hr)
    obtain ⟨hcap, hlive⟩ := hpages ps[r] (List.getElem_mem hr)
    obtain ⟨o1, hl⟩ := LuaFile.DynamicArray.dumpLoop_defined mem ps[r] hcap hlive ps[r].pos 0 out
      (by omega)
    rw [if_neg (by omega)]
    simp only [LuaFile.dumpWalk]
    rw [LuaFile.Heap.deref_of_cell h r _ hd]
    simp only []
    rw [hl]
    simp only []
    rw [LuaFile.Heap.set_same h r _ hd, LuaFile.nextOf_eq ps.length c r hrc]
    exact ih (r + 1) fuel o1 (by omega) (by omega)

/-- C23. On a `LuaFile` all of whose pages have `fill ≤ capacity`, a call of `size()` or of
`dump` that returns leaves the whole document as it was: the chain links and the capacity,
fill and slots of every page; the indexed reads, all below the fill, go through
`operator[]` without growth. On a document whose chain consists of the pages `ps`, with
every slot below the fill written, both calls do return. -/
theorem LuaFile.size_dump_read_only (L : LuaFile)
    (hcap : ∀ a nd, L.heap.deref a = some nd → nd.data.pos ≤ nd.data.size) :
    (∀ r L1, L.size = some (r, L1) → L1 = L) ∧
    (∀ mem out out1 L1, L.dump mem out = some (out1, L1) → L1 = L) ∧
    (∀ a nd i, L.heap.deref a = some nd → i < nd.data.pos →
      nd.data.operator_index i = some nd.data) ∧
    (∀ ps, L.Pages ps → (∀ d, d ∈ ps → ∀ i, i < d.pos → ∃ v, d.arr i = some v) →
      (∃ r, L.size = some (r, L)) ∧ ∀ mem out, ∃ out1, L.dump mem out = some (out1, L)) := by
  refine ⟨?_, ?_, ?_, ?_⟩
  · intro r L1 h
    unfold LuaFile.size at h
    cases hw : LuaFile.sizeWalk L.heap.length L.file.first 0 L.heap with
    | none =>
      rw [hw] at h
      exact Option.noConfusion h
    | some p =>
      obtain ⟨r1, h1⟩ := p
      have hh := LuaFile.sizeWalk_read_only L.heap hcap _ _ _ _ _ hw
      subst hh
      rw [hw] at h
      simp only [Option.some.injEq, Prod.mk.injEq] at h
      exact h.2.symm
  · intro mem out out1 L1 h
    unfold LuaFile.dump LuaFile.dumpTo at h
    cases hw : LuaFile.dumpWalk mem L.heap.length L.file.first
        { bytes := out, bad := false } L.heap with
    | none =>
      rw [hw] at h
      exact Option.noConfusion h
    | some p =>
      obtain ⟨o1, h1⟩ := p
      have hh := LuaFile.dumpWalk_read_only mem L.heap hcap _ _ _ _ _ hw
      subst hh
      rw [hw] at h
      simp only [Option.some.injEq, Prod.mk.injEq] at h
      exact h.2.symm
  · intro a nd i hd hi
    exact LuaFile.DynamicArray.operator_index_inside nd.data i
      (Nat.lt_of_lt_of_le hi (hcap a nd hd))
  · intro ps hps hlive
    obtain ⟨hlen, hfirst, -, hcell⟩ := hps
    have hpages : ∀ d, d ∈ ps → d.pos ≤ d.size ∧ ∀ i, i < d.pos → ∃ v, d.arr i = some v := by
      intro d hd
      obtain ⟨r, hr⟩ := List.mem_iff_getElem?.1 hd
      exact ⟨hcap r _ (LuaFile.Heap.deref_of_cell L.heap r _ (hcell r d hr)), hlive d hd⟩
    constructor
    · obtain ⟨res, hw⟩ := LuaFile.sizeWalk_defined L.heap ps hcell hpages ps.length 0
        L.heap.length 0 (by omega) (by omega)
      refine ⟨res, ?_⟩
      unfold LuaFile.size
      rw [hfirst, hw]
    · intro mem out
      obtain ⟨o1, hw⟩ := LuaFile.dumpWalk_defined mem L.heap ps hcell hpages ps.length 0
        L.heap.length { bytes := out, bad := false } (by omega) (by omega)
      refine ⟨o1.bytes, ?_⟩
      unfold LuaFile.dump LuaFile.dumpTo
      rw [hfirst, hw]

theorem LuaFile.capacity_sampleFile :
    ∀ a nd, LuaFile.sampleFile.heap.deref a = some nd → nd.data.pos ≤ nd.data.size := by
  intro a nd h
  match a with
  | 0 =>
    have hnd : nd = { data := LuaFile.samplePage0, next := some 1 } :=
      (Option.some.inj h).symm
    subst hnd
    decide
  | 1 =>
    have hnd : nd = { data := LuaFile.samplePage1, next := none } :=
      (Option.some.inj h).symm
    subst hnd
    decide
  | a + 2 => exact Option.noConfusion h

theorem LuaFile.live_sampleFile :
    ∀ d, d ∈ [LuaFile.samplePage0, LuaFile.samplePage1] →
      ∀ i, i < d.pos → ∃ v, d.arr i = some v := by
  intro d hd i hi
  simp only [List.mem_cons, List.mem_singleton, List.not_mem_nil, or_false] at hd
  rcases hd with h | h
  · subst h
    have hi2 : i = 0 ∨ i = 1 := by
      have : i < 2 := hi
      omega
    rcases hi2 with h | h <;> subst h <;> exact ⟨_, rfl⟩
  · subst h
    have hi2 : i = 0 := by
      have : i < 1 := hi
      omega
    subst hi2
    exact ⟨_, rfl⟩

theorem LuaFile.size_dump_read_only_witness :
    (∀ a nd, LuaFile.sampleFile.heap.deref a = some nd → nd.data.pos ≤ nd.data.size) ∧
    LuaFile.sampleFile.Pages [LuaFile.samplePage0, LuaFile.samplePage1] ∧
    (∀ d, d ∈ [LuaFile.samplePage0, LuaFile.samplePage1] →
      ∀ i, i < d.pos → ∃ v, d.arr i = some v) ∧
    (∃ r, LuaFile.sampleFile.size = some (r, LuaFile.sampleFile)) ∧
    (∀ mem out, ∃ out1, LuaFile.sampleFile.dump mem out = some (out1, LuaFile.sampleFile)) ∧
    (∀ r L1, LuaFile.sampleFile.size = some (r, L1) → L1 = LuaFile.sampleFile) ∧
    (∀ mem out out1 L1, LuaFile.sampleFile.dump mem out = some (out1, L1) →
      L1 = LuaFile.sampleFile) :=
  ⟨LuaFile.capacity_sampleFile, LuaFile.pages_sampleFile, LuaFile.live_sampleFile,
    ((LuaFile.size_dump_read_only LuaFile.sampleFile LuaFile.capacity_sampleFile).2.2.2 _
      LuaFile.pages_sampleFile LuaFile.live_sampleFile).1,
    ((LuaFile.size_dump_read_only LuaFile.sampleFile LuaFile.capacity_sampleFile).2.2.2 _
      LuaFile.pages_sampleFile LuaFile.live_sampleFile).2,
    (LuaFile.size_dump_read_only LuaFile.sampleFile LuaFile.capacity_sampleFile).1,
    (LuaFile.size_dump_read_only LuaFile.sampleFile LuaFile.capacity_sampleFile).2.1⟩

/-! ## Reading the fragment under the cursor -/

/-- What `std::copy` leaves when the destination does not start inside the source. -/
theorem LuaFile.std_copy_spec :
    ∀ (n : Nat) (mem : Nat → LuaFile.Byte) (first buffer : Nat),
      buffer ≤ first ∨ first + n ≤ buffer →
      (∀ k, k < n → LuaFile.std_copy n mem first buffer (buffer + k) = mem (first + k)) ∧
      (∀ x, x < buffer ∨ buffer + n ≤ x → LuaFile.std_copy n mem first buffer x = mem x) := by
  intro n
  induction n with
  | zero =>
    intro mem first buffer _
    exact ⟨fun k hk => absurd hk (Nat.not_lt_zero k), fun x _ => rfl⟩
  | succ n ih =>
    intro mem first buffer hfree
    obtain ⟨hcopy, hframe⟩ :=
      ih (fun a => if a = buffer then mem first else mem a) (first + 1) (buffer + 1) (by omega)
    constructor
    · intro k hk
      simp only [LuaFile.std_copy]
      cases k with
      | zero =>
        simp only [Nat.add_zero]
        rw [hframe buffer (by omega), if_pos rfl]
      | succ j =>
        have h := hcopy j (by omega)
        have e1 : buffer + (j + 1) = buffer + 1 + j := by omega
        have e2 : first + (j + 1) = first + 1 + j := by omega
        rw [e1, e2, h, if_neg (by omega)]
    · intro x hx
      simp only [LuaFile.std_copy]
      rw [hframe x (by omega), if_neg (by omega)]

/-- A cursor on a written slot of its page reads that slot and changes nothing. -/
theorem LuaFile.iterator.addr_size_of_slot (it : LuaFile.iterator) (L : LuaFile) (a : Nat)
    (nd : LuaFile.Queue.Node) (v : LuaFile.Data) (hreg : it.region = some a)
    (hnode : L.heap.deref a = some nd) (hvalid : nd.data.Valid) (hword : it.word < nd.data.pos)
    (hv : nd.data.arr it.word = some v) :
    nd.data.read (it.word % 2 ^ 32) = some (v, nd.data) ∧
    L.heap.set a (some { nd with data := nd.data }) = L.heap ∧
    it.addr L = some (v.start, L) ∧ it.size L = some (LuaFile.size_t v.length, L) := by
  obtain ⟨h4, hmax, hps⟩ := hvalid
  have hmod : it.word % 2 ^ 32 = it.word := Nat.mod_eq_of_lt (by omega)
  have hread : nd.data.read (it.word % 2 ^ 32) = some (v, nd.data) := by
    rw [hmod]
    exact LuaFile.DynamicArray.read_written nd.data it.word v (by omega) hv
  have hset : L.heap.set a (some { nd with data := nd.data }) = L.heap :=
    LuaFile.Heap.set_same L.heap a _ (LuaFile.Heap.cell_of_deref L.heap a nd hnode)
  refine ⟨hread, hset, ?_, ?_⟩
  · unfold LuaFile.iterator.addr
    rw [hreg]
    simp only []
    rw [hnode]
    simp only []
    rw [hread]
    simp only []
    rw [hset]
  · unfold LuaFile.iterator.size
    rw [hreg]
    simp only []
    rw [hnode]
    simp only []
    rw [hread]
    simp only []
    rw [hread]
    simp only []
    rw [hset]
    rfl

/-- C21. For a cursor on a live span `v` of its page, `n = end - start + 1` bytes long
(`start ≤ end`, `n` a `size_t`), and a buffer that does not start inside the span: `addr()`
returns `start`, `size()` returns `n`, and `data(buffer)` leaves in `buffer[0 .. n - 1]` the
`n` bytes at `start .. end`, in order, in `buffer[n]` the byte 0, and every byte of memory
below the buffer or above `buffer[n]` as it was. None of the three changes the document. -/
theorem LuaFile.iterator.data_copies_span (mem : Nat → LuaFile.Byte) (it : LuaFile.iterator)
    (L : LuaFile) (a : Nat) (nd : LuaFile.Queue.Node) (v : LuaFile.Data) (buffer : Nat)
    (hreg : it.region = some a) (hnode : L.heap.deref a = some nd) (hvalid : nd.data.Valid)
    (hword : it.word < nd.data.pos) (hv : nd.data.arr it.word = some v)
    (hlive : v.start ≤ v.end_) (hfit : v.end_ - v.start + 1 < 2 ^ 64)
    (hfree : buffer ≤ v.start ∨ v.start + (v.end_ - v.start + 1) ≤ buffer) :
    it.addr L = some (v.start, L) ∧
    it.size L = some (v.end_ - v.start + 1, L) ∧
    ∃ mem1, it.data mem L buffer = some (mem1, L) ∧
      (∀ k, k < v.end_ - v.start + 1 → mem1 (buffer + k) = mem (v.start + k)) ∧
      mem1 (buffer + (v.end_ - v.start + 1)) = 0 ∧
      (∀ x, x < buffer ∨ buffer + (v.end_ - v.start + 1) < x → mem1 x = mem x) := by
  obtain ⟨hread, hset, haddr, hsize0⟩ :=
    LuaFile.iterator.addr_size_of_slot it L a nd v hreg hnode hvalid hword hv
  have hlen : LuaFile.size_t v.length = v.end_ - v.start + 1 := by
    unfold LuaFile.size_t LuaFile.Data.length
    omega
  have hsize : it.size L = some (v.end_ - v.start + 1, L) := by
    rw [hsize0, hlen]
  obtain ⟨hcopy, hframe⟩ :=
    LuaFile.std_copy_spec (v.end_ - v.start + 1) mem v.start buffer hfree
  refine ⟨haddr, hsize,
    fun x => if x = buffer + (v.end_ - v.start + 1) then 0
      else LuaFile.std_copy (v.start + (v.end_ - v.start + 1) - v.start) mem v.start buffer x,
    ?_, ?_, ?_, ?_⟩
  · unfold LuaFile.iterator.data
    rw [hreg]
    simp only []
    rw [hnode]
    simp only []
    rw [hread]
    simp only []
    rw [hread]
    simp only []
    rw [hset]
    have hL : ({ L with heap := L.heap } : LuaFile) = L := rfl
    rw [hL, hsize]
    simp only []
    rw [hsize]
  · intro k hk
    simp only []
    rw [if_neg (by omega)]
    have hn : v.start + (v.end_ - v.start + 1) - v.start = v.end_ - v.start + 1 := by omega
    rw [hn]
    exact hcopy k hk
  · simp only [if_true]
  · intro x hx
    simp only []
    rw [if_neg (by omega)]
    have hn : v.start + (v.end_ - v.start + 1) - v.start = v.end_ - v.start + 1 := by omega
    rw [hn]
    exact hframe x (by omega)

theorem LuaFile.iterator.data_copies_span_witness :
    LuaFile.sampleFile.begin.region = some 0 ∧
    LuaFile.sampleFile.heap.deref 0 = some { data := LuaFile.samplePage0, next := some 1 } ∧
    LuaFile.samplePage0.Valid ∧ LuaFile.sampleFile.begin.word < LuaFile.samplePage0.pos ∧
    LuaFile.samplePage0.arr LuaFile.sampleFile.begin.word = some { start := 10, end_ := 14 } ∧
    LuaFile.sampleFile.begin.addr LuaFile.sampleFile = some (10, LuaFile.sampleFile) ∧
    LuaFile.sampleFile.begin.size LuaFile.sampleFile = some (14 - 10 + 1, LuaFile.sampleFile) ∧
    ∃ mem1, LuaFile.sampleFile.begin.data LuaFile.sampleMem LuaFile.sampleFile 100
        = some (mem1, LuaFile.sampleFile) ∧
      (∀ k, k < 14 - 10 + 1 → mem1 (100 + k) = LuaFile.sampleMem (10 + k)) ∧
      mem1 (100 + (14 - 10 + 1)) = 0 ∧
      (∀ x, x < 100 ∨ 100 + (14 - 10 + 1) < x → mem1 x = LuaFile.sampleMem x) :=
  ⟨rfl, rfl, ⟨by decide, by decide, by decide⟩, by decide, rfl,
    LuaFile.iterator.data_copies_span LuaFile.sampleMem LuaFile.sampleFile.begin
      LuaFile.sampleFile 0 { data := LuaFile.samplePage0, next := some 1 }
      { start := 10, end_ := 14 } 100 rfl rfl ⟨by decide, by decide, by decide⟩ (by decide) rfl
      (by decide) (by decide) (by decide)⟩
